import Mathlib

/-!
# uCSV: a shallow embedding of the streaming CSV reader

The definitions below transcribe `include/uCSV.hpp`.

* The input cursor `[mBegin, mEnd)` is the list of characters not yet read;
  `*mBegin++` is a pattern match on that list, and evaluating it on the empty
  list (the source dereferences the end iterator) is the outcome
  `Outcome.stuck Stuck.readPastEnd`.
* The Error Policy is the recording policy: `mErrorHandler` is the list of the
  calls it has received, oldest first.
* A `string_view` into the Row Buffer is an (offset, length) pair.
* The counters (`std::size_t`, `unsigned int`) are natural numbers: they are
  bounded by the number of characters read, which is assumed to fit.
* The two unbounded loops of `readLine` carry a fuel argument that `readLine`
  sets to the number of unread characters plus one.
-/

namespace uCSV

/-- The test `isNewline`. -/
def isNewline (x : Char) : Bool :=
  x == '\n' || x == '\r'

/-- The matcher `Delimiter<delimiters...>`: the fold `(candidate == delimiters) || ...`. -/
def Delimiter (delimiters : List Char) (candidate : Char) : Bool :=
  delimiters.any (fun d => candidate == d)

/-- The default matcher `Delimiter<','>`. -/
def comma : Char → Bool :=
  Delimiter [',']

/-- One call received by the Error Policy. -/
inductive Fault where
  | incorrectColumns (provided expected row : Nat)
  | unexpectedEnd (row : Nat)
  | badCell (column row : Nat)
deriving DecidableEq, Repr

/-- Ways in which the embedding cannot continue. -/
inductive Stuck where
  | readPastEnd
  | outOfFuel
  | cellOutOfRange
deriving DecidableEq, Repr

/-- Result of a computation that may get stuck. -/
inductive Outcome (α : Type) where
  | ok (a : α)
  | stuck (e : Stuck)
deriving DecidableEq, Repr

/-- A `string_view` into the Row Buffer. -/
structure View where
  offset : Nat
  length : Nat
deriving DecidableEq, Repr

/-- The data members of `Reader`. -/
structure Reader where
  input : List Char
  mErrorHandler : List Fault
  mRows : Nat
  mColumns : Nat
  mHeader : List (List Char)
  mRow : List Char
  mRowCells : List View
deriving DecidableEq, Repr

/-- The member `columns()`. -/
def Reader.columns (s : Reader) : Nat := s.mColumns

/-- The member `rows()`. -/
def Reader.rows (s : Reader) : Nat := s.mRows

/-- The member `done()`: `mBegin == mEnd`. -/
def Reader.done (s : Reader) : Bool := s.input.isEmpty

/-- The member `hasHeader()`. -/
def Reader.hasHeader (s : Reader) : Bool := !s.mHeader.isEmpty

/-- The in/out parameters `read`, `continues` and the cursor after `skipCell`. -/
structure Skipped where
  read : Char
  continues : Bool
  input : List Char
deriving DecidableEq, Repr

/-- The second loop of `skipCell` (the cell does not start with a quote). -/
def skipCell.unquoted (dm : Char → Bool) : Char → List Char → Skipped
  | read, input =>
    if dm read || isNewline read then ⟨read, dm read, input⟩
    else
      match input with
      | [] => ⟨read, dm read, []⟩
      | c :: rest => skipCell.unquoted dm c rest

/-- The first loop of `skipCell` (the cell starts with a quote). The recursive call
`return skipCell(read, continues)` is the body of `skipCell` written out. -/
def skipCell.quoted (dm : Char → Bool) : Char → Bool → List Char → Skipped
  | read, continues, [] => ⟨read, continues, []⟩
  | _, continues, c :: rest =>
    if c == '"' then
      match rest with
      | [] => ⟨c, continues, []⟩
      | d :: rest' =>
        if dm d || isNewline d then ⟨d, dm d, rest'⟩
        else if d != '"' then
          (if d == '"' then skipCell.quoted dm d false rest' else skipCell.unquoted dm d rest')
        else skipCell.quoted dm d (dm d) rest'
    else skipCell.quoted dm c continues rest

/-- The function `skipCell(read, continues)`. -/
def skipCell (dm : Char → Bool) (read : Char) (input : List Char) : Skipped :=
  if read == '"' then skipCell.quoted dm read false input
  else skipCell.unquoted dm read input

/-- How a loop of `readCell` is left. -/
inductive CellExit where
  | done
  | unexpectedEnd
  | badCell
deriving DecidableEq, Repr

/-- What a loop of `readCell` leaves behind. -/
structure Scanned where
  exit : CellExit
  read : Char
  continues : Bool
  input : List Char
  mRow : List Char
deriving DecidableEq, Repr

/-- The first loop of `readCell` (quoted cell). -/
def readCell.quoted (dm : Char → Bool) : Char → Bool → List Char → List Char → Scanned
  | read, continues, mRow, [] => ⟨CellExit.unexpectedEnd, read, continues, [], mRow⟩
  | _, continues, mRow, c :: rest =>
    if c == '"' then
      match rest with
      | [] => ⟨CellExit.done, c, continues, [], mRow⟩
      | d :: rest' =>
        if dm d || isNewline d then ⟨CellExit.done, d, dm d, rest', mRow⟩
        else if d != '"' then
          let r := skipCell dm d rest'
          ⟨CellExit.badCell, r.read, r.continues, r.input, mRow⟩
        else readCell.quoted dm d (dm d) (mRow ++ [d]) rest'
    else readCell.quoted dm c continues (mRow ++ [c]) rest

/-- The second loop of `readCell` (unquoted cell). -/
def readCell.unquoted (dm : Char → Bool) : Char → List Char → List Char → Scanned
  | read, mRow, input =>
    if read == '"' then
      let r := skipCell dm read input
      ⟨CellExit.badCell, r.read, r.continues, r.input, mRow⟩
    else if dm read || isNewline read then ⟨CellExit.done, read, dm read, input, mRow⟩
    else
      match input with
      | [] => ⟨CellExit.done, read, dm read, [], mRow ++ [read]⟩
      | c :: rest => readCell.unquoted dm c (mRow ++ [read]) rest

/-- The return value and in/out parameters of `readCell`, and the Reader after it. -/
structure CellRead where
  ok : Bool
  read : Char
  columns : Nat
  continues : Bool
  reader : Reader
deriving DecidableEq, Repr

/-- The function `readCell(read, columns, continues)`. -/
def readCell (dm : Char → Bool) (read : Char) (columns : Nat) (s : Reader) : CellRead :=
  let r := if read == '"' then readCell.quoted dm read false s.mRow s.input
           else readCell.unquoted dm read s.mRow s.input
  match r.exit with
  | CellExit.unexpectedEnd =>
    ⟨false, r.read, columns, r.continues,
      { s with input := r.input, mRow := r.mRow,
               mErrorHandler := s.mErrorHandler ++ [Fault.unexpectedEnd s.mRows] }⟩
  | CellExit.badCell =>
    ⟨false, r.read, columns, r.continues,
      { s with input := r.input, mRow := r.mRow,
               mErrorHandler := s.mErrorHandler ++ [Fault.badCell (columns - 1) s.mRows] }⟩
  | CellExit.done =>
    if r.continues then
      let last := s.mColumns != 0 && decide (columns ≥ s.mColumns)
      ⟨true, r.read, columns + 1, r.continues,
        { s with input := r.input, mRow := if !last then r.mRow ++ [r.read] else r.mRow }⟩
    else
      ⟨true, r.read, columns, r.continues, { s with input := r.input, mRow := r.mRow }⟩

/-- The step `if(read == '\r' && mBegin != mEnd && *mBegin == '\n') ++mBegin`. -/
def skipLineFeed (read : Char) (input : List Char) : List Char :=
  match input with
  | c :: rest => if read == '\r' && c == '\n' then rest else input
  | [] => []

/-- The inner loop of the overflow recovery in `readLine`; yields `read`, `excess`
and the cursor. -/
def readLine.skipLoop (dm : Char → Bool) : Nat → List Char → Nat → Outcome (Char × Nat × List Char)
  | 0, _, _ => Outcome.stuck Stuck.outOfFuel
  | _ + 1, [], _ => Outcome.stuck Stuck.readPastEnd
  | fuel + 1, c :: rest, excess =>
    let r := skipCell dm c rest
    if !r.continues then Outcome.ok (r.read, excess + 1, r.input)
    else readLine.skipLoop dm fuel r.input (excess + 1)

/-- How the cell loop of `readLine` is left: by `return false`, or by `break` with the
values of `read` and `columns`. -/
inductive LoopExit where
  | failed (s : Reader)
  | row (read : Char) (columns : Nat) (s : Reader)
deriving DecidableEq, Repr

/-- The cell loop of `readLine`, overflow recovery included. -/
def readLine.cellLoop (dm : Char → Bool) : Nat → Char → Nat → Reader → Outcome LoopExit
  | 0, _, _, _ => Outcome.stuck Stuck.outOfFuel
  | fuel + 1, read, columns, s =>
    let r := readCell dm read columns s
    let badCell := !r.ok
    if !r.continues then
      if badCell then Outcome.ok (LoopExit.failed r.reader)
      else Outcome.ok (LoopExit.row r.read r.columns r.reader)
    else if badCell || (r.reader.mColumns != 0 && decide (r.columns > r.reader.mColumns)) then
      let skipped :=
        match r.reader.input with
        | [] => Outcome.ok (r.read, 1, [])
        | _ :: _ => readLine.skipLoop dm (r.reader.input.length + 1) r.reader.input 0
      match skipped with
      | Outcome.stuck e => Outcome.stuck e
      | Outcome.ok (read', excess, input') =>
        let s' := { r.reader with input := skipLineFeed read' input' }
        let realColumns := r.columns - 1 + excess
        if realColumns != s'.mColumns then
          Outcome.ok (LoopExit.failed
            { s' with mErrorHandler := s'.mErrorHandler ++
                [Fault.incorrectColumns realColumns s'.mColumns s'.mRows] })
        else Outcome.ok (LoopExit.failed s')
    else
      match r.reader.input with
      | [] => Outcome.stuck Stuck.readPastEnd
      | c :: rest => readLine.cellLoop dm fuel c r.columns { r.reader with input := rest }

/-- The boundary materialization loop of `readLine`, started at index `i` of the Row
Buffer, of which `buf` is the part from `i` on; yields `last` and `mRowCells`. -/
def readLine.split (dm : Char → Bool) (columns : Nat) :
    List Char → Nat → Nat → List View → Nat × List View
  | [], _, last, cells => (last, cells)
  | c :: buf, i, last, cells =>
    if cells.length < columns - 1 then
      if dm c then readLine.split dm columns buf (i + 1) (i + 1) (cells ++ [⟨last, i - last⟩])
      else readLine.split dm columns buf (i + 1) last cells
    else (last, cells)

/-- The cell views that `readLine` materializes for a Row Buffer. -/
def materialize (dm : Char → Bool) (columns : Nat) (mRow : List Char) : List View :=
  let r := readLine.split dm columns mRow 0 0 []
  r.2 ++ [⟨r.1, mRow.length - r.1⟩]

/-- The part of `readLine` after the cell loop: newline normalization, boundary
materialization, and establishment or validation of the column count. -/
def readLine.finish (dm : Char → Bool) (read : Char) (columns : Nat) (s : Reader) :
    Outcome (Bool × Reader) :=
  let s := { s with input := skipLineFeed read s.input,
                    mRowCells := materialize dm columns s.mRow }
  if s.mColumns == 0 then
    Outcome.ok (true, { s with mColumns := columns, mRows := s.mRows + 1 })
  else if columns < s.mColumns then
    Outcome.ok (false,
      { s with mErrorHandler := s.mErrorHandler ++
          [Fault.incorrectColumns columns s.mColumns s.mRows] })
  else Outcome.ok (true, { s with mRows := s.mRows + 1 })

/-- The function `readLine()`. -/
def readLine (dm : Char → Bool) (s : Reader) : Outcome (Bool × Reader) :=
  let s := { s with mRow := [], mRowCells := [] }
  match s.input with
  | [] =>
    Outcome.ok (false, { s with mErrorHandler := s.mErrorHandler ++ [Fault.unexpectedEnd s.mRows] })
  | read :: rest =>
    if isNewline read then
      Outcome.ok (false,
        { s with input := skipLineFeed read rest,
                 mErrorHandler := s.mErrorHandler ++
                   [Fault.incorrectColumns 0 (if s.mColumns > 0 then s.mColumns else 1) s.mRows] })
    else
      match readLine.cellLoop dm (rest.length + 1) read 1 { s with input := rest } with
      | Outcome.stuck e => Outcome.stuck e
      | Outcome.ok (LoopExit.failed s') => Outcome.ok (false, s')
      | Outcome.ok (LoopExit.row read' columns s') => readLine.finish dm read' columns s'

/-- The characters a cell view denotes. -/
def View.chars (mRow : List Char) (v : View) : List Char :=
  (mRow.drop v.offset).take v.length

/-- The overload `deserialize(Deserializer&, std::vector<T>&)` for string cells, run on a
`Deserializer(columns(), ..., mRowCells.data())` whose index is `total - remaining`:
`next()` is called while `remaining()` is not zero. -/
def deserialize (s : Reader) : Nat → Outcome (List (List Char))
  | 0 => Outcome.ok []
  | remaining + 1 =>
    match s.mRowCells.get? (s.columns - (remaining + 1)) with
    | none => Outcome.stuck Stuck.cellOutOfRange
    | some v =>
      match deserialize s remaining with
      | Outcome.stuck e => Outcome.stuck e
      | Outcome.ok cells => Outcome.ok (v.chars s.mRow :: cells)

/-- The member `fetch(RowT& row)` for a row of strings: the return value, the row and the
Reader afterwards. -/
def fetch (dm : Char → Bool) (row : List (List Char)) (s : Reader) :
    Outcome (Bool × List (List Char) × Reader) :=
  match readLine dm s with
  | Outcome.stuck e => Outcome.stuck e
  | Outcome.ok (false, s') => Outcome.ok (false, row, s')
  | Outcome.ok (true, s') =>
    match deserialize s' s'.columns with
    | Outcome.stuck e => Outcome.stuck e
    | Outcome.ok cells => Outcome.ok (true, cells, s')

/-- The function `readHeader()`: `fetch(mHeader)`. -/
def readHeader (dm : Char → Bool) (s : Reader) : Outcome Reader :=
  match fetch dm s.mHeader s with
  | Outcome.stuck e => Outcome.stuck e
  | Outcome.ok (_, header, s') => Outcome.ok { s' with mHeader := header }

/-- The data members as the constructors of `Reader` initialise them. -/
def Reader.init (input : List Char) : Reader :=
  { input := input, mErrorHandler := [], mRows := 0, mColumns := 0, mHeader := [],
    mRow := [], mRowCells := [] }

/-- The constructor `Reader(begin, end, ..., std::bool_constant<doReadHeader>)`. -/
def Reader.construct (dm : Char → Bool) (input : List Char) (doReadHeader : Bool) : Outcome Reader :=
  if doReadHeader then readHeader dm (Reader.init input) else Outcome.ok (Reader.init input)

/-! ## Serialised rows: the vocabulary of the statements -/

/-- The requirements that `Delimiter` places on a matcher by its `static_assert`s:
it matches neither the quote nor a newline character. -/
structure ValidMatcher (dm : Char → Bool) : Prop where
  quote : dm '"' = false
  cr : dm '\r' = false
  lf : dm '\n' = false

/-- Text without a delimiter, a quote or a newline character. -/
def Plain (dm : Char → Bool) (t : List Char) : Prop :=
  ∀ c ∈ t, dm c = false ∧ c ≠ '"' ∧ isNewline c = false

instance (dm : Char → Bool) (t : List Char) : Decidable (Plain dm t) := by
  unfold Plain; infer_instance

/-- Text without a delimiter character. -/
def NoDelim (dm : Char → Bool) (t : List Char) : Prop :=
  ∀ c ∈ t, dm c = false

instance (dm : Char → Bool) (t : List Char) : Decidable (NoDelim dm t) := by
  unfold NoDelim; infer_instance

/-- The text with every quote doubled. -/
def escape : List Char → List Char
  | [] => []
  | c :: cs => if c == '"' then '"' :: '"' :: escape cs else c :: escape cs

/-- A cell as it is written in the input: unquoted text, or quoted content. -/
inductive Cell where
  | plain (text : List Char)
  | quoted (content : List Char)
deriving DecidableEq, Repr

/-- The characters of a cell in the input. -/
def Cell.text : Cell → List Char
  | Cell.plain t => t
  | Cell.quoted s => '"' :: (escape s ++ ['"'])

/-- The unescaped content of a cell. -/
def Cell.content : Cell → List Char
  | Cell.plain t => t
  | Cell.quoted s => s

/-- A cell is well formed when, if unquoted, it has no delimiter, quote or newline. -/
def Cell.WellFormed (dm : Char → Bool) : Cell → Prop
  | Cell.plain t => Plain dm t
  | Cell.quoted _ => True

instance (dm : Char → Bool) (c : Cell) : Decidable (c.WellFormed dm) := by
  cases c <;> unfold Cell.WellFormed <;> infer_instance

/-- Texts joined by the delimiter `d`. -/
def joinCells (d : Char) : List (List Char) → List Char
  | [] => []
  | [t] => t
  | t :: ts => t ++ d :: joinCells d ts

/-- Texts each followed by the delimiter `d`. -/
def sepCells (d : Char) : List (List Char) → List Char
  | [] => []
  | t :: ts => t ++ d :: sepCells d ts

/-- What follows the last cell of a row: a newline character and the rest of the input,
or the end of the input. -/
inductive RowEnd where
  | newline (b : Char) (rest : List Char)
  | eof
deriving DecidableEq, Repr

/-- The characters of a row end. -/
def RowEnd.chars : RowEnd → List Char
  | RowEnd.newline b rest => b :: rest
  | RowEnd.eof => []

/-- The unread input once the row and its terminator are consumed. -/
def RowEnd.after : RowEnd → List Char
  | RowEnd.newline b rest => skipLineFeed b rest
  | RowEnd.eof => []

/-- A row end fits a row when its first character is a newline character or, at the end
of the input, when the last cell has at least one character. -/
def RowEnd.Fits (last : Cell) : RowEnd → Prop
  | RowEnd.newline b _ => isNewline b = true
  | RowEnd.eof => last.text ≠ []

instance (last : Cell) (e : RowEnd) : Decidable (e.Fits last) := by
  cases e <;> unfold RowEnd.Fits <;> infer_instance

/-- The views of consecutive cells in the Row Buffer, the first one at `offset`. -/
def viewsFrom (offset : Nat) : List (List Char) → List View
  | [] => []
  | t :: ts => ⟨offset, t.length⟩ :: viewsFrom (offset + t.length + 1) ts

/-- The three line terminators. -/
def terminators : List (List Char) :=
  [['\n'], ['\r'], ['\r', '\n']]

/-- A table written out: the cells of each row joined by `d`, each row followed by its own
terminator. -/
def serialise (d : Char) : List (List (List Char) × List Char) → List Char
  | [] => []
  | (row, terminator) :: table => joinCells d row ++ terminator ++ serialise d table

/-- The results of `n` successive calls of `fetch`, each into an empty row, and the Reader
after the last one. -/
def fetchTimes (dm : Char → Bool) : Nat → Reader → Outcome (List (Bool × List (List Char)) × Reader)
  | 0, s => Outcome.ok ([], s)
  | n + 1, s =>
    match fetch dm [] s with
    | Outcome.stuck e => Outcome.stuck e
    | Outcome.ok (ok, row, s') =>
      match fetchTimes dm n s' with
      | Outcome.stuck e => Outcome.stuck e
      | Outcome.ok (results, s'') => Outcome.ok ((ok, row) :: results, s'')

/-- The calls that the Error Policy receives during a fetch that fails: one call, or
`raiseBadCell` followed by `raiseIncorrectColumns`. -/
def FailedRowFaults (before after : List Fault) : Prop :=
  (∃ f, after = before ++ [f]) ∨
  (∃ column row provided expected row',
    after = before ++ [Fault.badCell column row, Fault.incorrectColumns provided expected row'])

/-! ## Further members and functions of the source -/

/-- The data members of `ErrorFlags`. -/
structure ErrorFlags where
  mIncorrectColumns : Bool
  mUnexpectedEnd : Bool
  mBadCell : Bool
deriving DecidableEq, Repr

/-- A freshly constructed `ErrorFlags`: the default member initialisers. -/
def ErrorFlags.init : ErrorFlags :=
  { mIncorrectColumns := false, mUnexpectedEnd := false, mBadCell := false }

/-- The member `raiseIncorrectColumns(provided, expected, row)` of `ErrorFlags`. -/
def ErrorFlags.raiseIncorrectColumns (e : ErrorFlags) (_provided _expected _row : Nat) :
    ErrorFlags :=
  { e with mIncorrectColumns := true }

/-- The member `raiseUnexpectedEnd(row)` of `ErrorFlags`. -/
def ErrorFlags.raiseUnexpectedEnd (e : ErrorFlags) (_row : Nat) : ErrorFlags :=
  { e with mUnexpectedEnd := true }

/-- The member `raiseBadCell(column, row)` of `ErrorFlags`. -/
def ErrorFlags.raiseBadCell (e : ErrorFlags) (_column _row : Nat) : ErrorFlags :=
  { e with mBadCell := true }

/-- The member `incorrectColumns()`. -/
def ErrorFlags.incorrectColumns (e : ErrorFlags) : Bool := e.mIncorrectColumns

/-- The member `unexpectedEnd()`. -/
def ErrorFlags.unexpectedEnd (e : ErrorFlags) : Bool := e.mUnexpectedEnd

/-- The member `badCell()`. -/
def ErrorFlags.badCell (e : ErrorFlags) : Bool := e.mBadCell

/-- The member `good()`. -/
def ErrorFlags.good (e : ErrorFlags) : Bool :=
  !e.mIncorrectColumns && !e.mUnexpectedEnd && !e.mBadCell

/-- The member `clear()`. -/
def ErrorFlags.clear (_e : ErrorFlags) : ErrorFlags :=
  { mIncorrectColumns := false, mUnexpectedEnd := false, mBadCell := false }

/-- One call of the Error Policy, made on an `ErrorFlags`. -/
def ErrorFlags.raise (e : ErrorFlags) : Fault → ErrorFlags
  | Fault.incorrectColumns provided expected row => e.raiseIncorrectColumns provided expected row
  | Fault.unexpectedEnd row => e.raiseUnexpectedEnd row
  | Fault.badCell column row => e.raiseBadCell column row

/-- A sequence of calls of the Error Policy, made on an `ErrorFlags` in order. -/
def ErrorFlags.raiseAll (e : ErrorFlags) (calls : List Fault) : ErrorFlags :=
  calls.foldl ErrorFlags.raise e

/-- The overload `needsEscaping(first, last)`. -/
def needsEscaping (s : List Char) : Bool :=
  s.any (fun c => c == '\r' || c == '\n' || c == '"' || c == ',')

/-- The overload `needsEscaping(first, last, delimiterMatcher)`. -/
def needsEscapingWith (s : List Char) (delimiterMatcher : Char → Bool) : Bool :=
  s.any (fun c => c == '\r' || c == '\n' || c == '"' || delimiterMatcher c)

/-- The member `header(index)`: the name of a column, the empty view when there is no
header. `none` stands for the failure of `assert(index < columns())`, and for an index
outside `mHeader`. -/
def Reader.header (s : Reader) (index : Nat) : Option (List Char) :=
  if index < s.columns then
    if s.hasHeader then s.mHeader.get? index else some []
  else none

/-- The member template `fetch(RowT& row)` for any row type, `de` being the overload of
`deserialize` for that type run on `Deserializer(columns(), mHeader.data(),
mRowCells.data())`: the return value, the row and the Reader afterwards. -/
def fetchInto {α : Type} (de : Reader → α → Outcome α) (dm : Char → Bool) (row : α)
    (s : Reader) : Outcome (Bool × α × Reader) :=
  match readLine dm s with
  | Outcome.stuck e => Outcome.stuck e
  | Outcome.ok (false, s') => Outcome.ok (false, row, s')
  | Outcome.ok (true, s') =>
    match de s' row with
    | Outcome.stuck e => Outcome.stuck e
    | Outcome.ok row' => Outcome.ok (true, row', s')

/-! ## Further vocabulary of the statements -/

/-- What follows a cell: a delimiter or newline character and the rest of the input, or
the end of the input. -/
inductive CellEnd where
  | boundary (b : Char) (rest : List Char)
  | eof
deriving DecidableEq, Repr

/-- The characters of a cell end. -/
def CellEnd.chars : CellEnd → List Char
  | CellEnd.boundary b rest => b :: rest
  | CellEnd.eof => []

/-- A cell end fits a cell when its first character is a delimiter or a newline
character or, at the end of the input, when the cell has at least one character (so that
there is a lookahead character to start from). -/
def CellEnd.Fits (dm : Char → Bool) (c : Cell) : CellEnd → Prop
  | CellEnd.boundary b _ => (dm b || isNewline b) = true
  | CellEnd.eof => c.text ≠ []

instance (dm : Char → Bool) (c : Cell) (e : CellEnd) : Decidable (e.Fits dm c) := by
  cases e <;> unfold CellEnd.Fits <;> infer_instance

/-- The input from the start of a malformed cell on: an unquoted cell with at least one
character before a quote, or a quoted cell whose closing quote is followed by a character
that is neither a delimiter, a newline character nor a quote. -/
def Malformed (dm : Char → Bool) (text : List Char) : Prop :=
  (∃ x t rest, Plain dm (x :: t) ∧ text = x :: (t ++ '"' :: rest)) ∨
  (∃ q y rest, (dm y || isNewline y) = false ∧ y ≠ '"' ∧
    text = '"' :: (escape q ++ '"' :: y :: rest))

/-- The Reader with which a way out of the cell loop leaves. -/
def LoopExit.reader : LoopExit → Reader
  | LoopExit.failed s => s
  | LoopExit.row _ _ s => s

/-- The row index that a call of the Error Policy carries. -/
def Fault.row : Fault → Nat
  | Fault.incorrectColumns _ _ row => row
  | Fault.unexpectedEnd row => row
  | Fault.badCell _ row => row

/-! ## Batch fetching and the conversion of a cell to `int` -/

/-- The loop of `fetchAll(out)`,
`for(ValueT value; mBegin != mEnd && fetch(value); *out = value, ++out);`, for rows of
strings: `value` is the loop variable, `out` what the output iterator has received. The
fuel is an upper bound of the number of rounds. -/
def fetchAll.loop (dm : Char → Bool) :
    Nat → List (List Char) → List (List (List Char)) → Reader →
      Outcome (List (List (List Char)) × Reader)
  | 0, _, _, _ => Outcome.stuck Stuck.outOfFuel
  | fuel + 1, value, out, s =>
    if s.done then Outcome.ok (out, s)
    else
      match fetch dm value s with
      | Outcome.stuck e => Outcome.stuck e
      | Outcome.ok (false, _, s') => Outcome.ok (out, s')
      | Outcome.ok (true, value', s') => fetchAll.loop dm fuel value' (out ++ [value']) s'

/-- The member `fetchAll(out)` for rows of strings: what `out` has received, and the
Reader afterwards. -/
def fetchAll (dm : Char → Bool) (out : List (List (List Char))) (s : Reader) :
    Outcome (List (List (List Char)) × Reader) :=
  fetchAll.loop dm (s.input.length + 1) [] out s

/-- The exceptions that the conversion layer throws. -/
inductive Thrown where
  | out_of_range
  | runtime_error
deriving DecidableEq, Repr

/-- The data members of `Deserializer`; `mCells` holds the texts that the cell views
denote. -/
structure Deserializer where
  mIndex : Nat
  mColumns : Nat
  mHeader : List (List Char)
  mCells : List (List Char)
deriving DecidableEq, Repr

/-- The member `Deserializer::next()`: the cell, or `none` when `std::out_of_range` is
thrown, and the Deserializer afterwards. -/
def Deserializer.next (data : Deserializer) : Outcome (Option (List Char) × Deserializer) :=
  if data.mIndex ≥ data.mColumns then Outcome.ok (none, data)
  else
    match data.mCells.get? data.mIndex with
    | none => Outcome.stuck Stuck.cellOutOfRange
    | some cell => Outcome.ok (some cell, { data with mIndex := data.mIndex + 1 })

/-- The largest value of `int` (32 bits). -/
def INT_MAX : Int := 2147483647

/-- The smallest value of `int` (32 bits). -/
def INT_MIN : Int := -2147483648

/-- The member `ec` of `std::from_chars_result`. -/
inductive Errc where
  | none
  | invalid_argument
  | result_out_of_range
deriving DecidableEq, Repr

/-- The result of `std::from_chars` and the value of its reference parameter afterwards;
`ptr` is counted from `first`. -/
structure FromChars where
  ptr : Nat
  ec : Errc
  value : Int
deriving DecidableEq, Repr

/-- The library function `std::from_chars(first, last, value)` for `int` in base 10, as
the C++ standard specifies it: the pattern is an optional `-` followed by at least one
decimal digit, taken as far as it goes from `first`. When no characters match, `value`
is unmodified, `ptr` is `first` and `ec` is `invalid_argument`. Otherwise `ptr` is the
first character that does not match (`last` when all match); when the number is not
representable in `int`, `value` is unmodified and `ec` is `result_out_of_range`;
otherwise `value` is set to the number. -/
def from_chars (text : List Char) (value : Int) : FromChars :=
  let negative := text.head? == some '-'
  let body := if negative then text.tail else text
  let digits := body.takeWhile Char.isDigit
  if digits.isEmpty then ⟨0, Errc.invalid_argument, value⟩
  else
    let magnitude : Int := digits.foldl (fun n c => 10 * n + ((c.toNat - '0'.toNat : Nat) : Int)) 0
    let parsed := if negative then -magnitude else magnitude
    let ptr := (if negative then 1 else 0) + digits.length
    if INT_MIN ≤ parsed ∧ parsed ≤ INT_MAX then ⟨ptr, Errc.none, parsed⟩
    else ⟨ptr, Errc.result_out_of_range, value⟩

/-- What a call of `deserialize(data, target)` leaves behind: the exception if one is
thrown, and the values of the two reference parameters. -/
structure Deserialized where
  thrown : Option Thrown
  target : Int
  data : Deserializer
deriving DecidableEq, Repr

/-- The overload `deserialize(Deserializer& data, int& target)`. -/
def deserializeInt (data : Deserializer) (target : Int) : Outcome Deserialized :=
  match data.next with
  | Outcome.stuck e => Outcome.stuck e
  | Outcome.ok (none, data') => Outcome.ok ⟨some Thrown.out_of_range, target, data'⟩
  | Outcome.ok (some next, data') =>
    let r := from_chars next target
    if r.ptr != next.length then Outcome.ok ⟨some Thrown.runtime_error, r.value, data'⟩
    else Outcome.ok ⟨none, r.value, data'⟩

/-! ## Vocabulary for the cell views and the cursor -/

/-- The views tile the Row Buffer from `offset` on: the first view starts at `offset`,
each further view starts one character after the end of the one before it, that
character being a delimiter, and the last view ends at the end of the buffer. -/
def Tiled (dm : Char → Bool) (mRow : List Char) : Nat → List View → Prop
  | _, [] => False
  | offset, [v] => v.offset = offset ∧ v.offset + v.length = mRow.length
  | offset, v :: w :: views =>
    v.offset = offset ∧ (∃ c, mRow[v.offset + v.length]? = some c ∧ dm c = true) ∧
      Tiled dm mRow (v.offset + v.length + 1) (w :: views)

/-- The cells that the views denote, joined by the characters of the Row Buffer that
stand right after each view but the last. -/
def rejoin (mRow : List Char) : List View → List Char
  | [] => []
  | [v] => v.chars mRow
  | v :: w :: views =>
    v.chars mRow ++ (mRow.drop (v.offset + v.length)).take 1 ++ rejoin mRow (w :: views)

/-! ## Characters -/

theorem isNewline_quote : isNewline '"' = false := by decide

theorem comma_valid : ValidMatcher comma := ⟨by decide, by decide, by decide⟩

theorem ValidMatcher.not_newline {dm : Char → Bool} (hv : ValidMatcher dm) {c : Char}
    (h : dm c = true) : isNewline c = false := by
  cases hnl : isNewline c
  · rfl
  · simp only [isNewline, Bool.or_eq_true, beq_iff_eq] at hnl
    rcases hnl with rfl | rfl
    · rw [hv.lf] at h; cases h
    · rw [hv.cr] at h; cases h

theorem ValidMatcher.ne_quote {dm : Char → Bool} (hv : ValidMatcher dm) {c : Char}
    (h : dm c = true) : c ≠ '"' := by
  rintro rfl
  rw [hv.quote] at h; cases h

theorem isNewline_ne_quote {c : Char} (h : isNewline c = true) : c ≠ '"' := by
  rintro rfl
  exact absurd h (by decide)

/-- A boundary character: a delimiter or a newline character. -/
theorem boundary_ne_quote {dm : Char → Bool} (hv : ValidMatcher dm) {b : Char}
    (hb : (dm b || isNewline b) = true) : b ≠ '"' := by
  rcases Bool.or_eq_true _ _ |>.mp hb with h | h
  · exact hv.ne_quote h
  · exact isNewline_ne_quote h

/-! ## skipCell -/

theorem skipCell_of_ne_quote (dm : Char → Bool) {read : Char} (h : read ≠ '"') (input : List Char) :
    skipCell dm read input = skipCell.unquoted dm read input := by
  simp [skipCell, h]

theorem skipCell_quote (dm : Char → Bool) (input : List Char) :
    skipCell dm '"' input = skipCell.quoted dm '"' false input := by
  simp [skipCell]

/-- The recursive call written out in `skipCell.quoted` is `skipCell` itself. -/
theorem skipCell.quoted_cons_cons (dm : Char → Bool) (read : Char) (continues : Bool)
    (d : Char) (rest : List Char) :
    skipCell.quoted dm read continues ('"' :: d :: rest) =
      if dm d || isNewline d then ⟨d, dm d, rest⟩
      else if d != '"' then skipCell dm d rest
      else skipCell.quoted dm d (dm d) rest := by
  simp [skipCell.quoted, skipCell]

theorem skipCell.skip_boundary (dm : Char → Bool) {b : Char}
    (hb : (dm b || isNewline b) = true) (rest : List Char) :
    skipCell.unquoted dm b rest = ⟨b, dm b, rest⟩ := by
  unfold skipCell.unquoted
  simp [hb]

theorem skipCell.skip_plain (dm : Char → Bool) {b : Char}
    (hb : (dm b || isNewline b) = true) (rest : List Char) :
    ∀ (t : List Char) (read : Char), Plain dm (read :: t) →
      skipCell.unquoted dm read (t ++ b :: rest) = ⟨b, dm b, rest⟩ := by
  intro t
  induction t with
  | nil =>
    intro read hp
    have h := hp read (List.mem_cons_self _ _)
    unfold skipCell.unquoted
    simp [h.1, h.2.2, skipCell.skip_boundary dm hb]
  | cons c t ih =>
    intro read hp
    have h := hp read (List.mem_cons_self _ _)
    have hp' : Plain dm (c :: t) := fun x hx => hp x (List.mem_cons_of_mem _ hx)
    unfold skipCell.unquoted
    simp [h.1, h.2.2, ih c hp']

/-! ## readCell on a well-formed cell -/

theorem readCell.unquoted_boundary {dm : Char → Bool} (hv : ValidMatcher dm) {b : Char}
    (hb : (dm b || isNewline b) = true) (mRow rest : List Char) :
    readCell.unquoted dm b mRow rest = ⟨CellExit.done, b, dm b, rest, mRow⟩ := by
  have hq := boundary_ne_quote hv hb
  unfold readCell.unquoted
  simp [hb, hq]

theorem readCell.unquoted_plain {dm : Char → Bool} (hv : ValidMatcher dm) {b : Char}
    (hb : (dm b || isNewline b) = true) (rest : List Char) :
    ∀ (t : List Char) (read : Char) (mRow : List Char), Plain dm (read :: t) →
      readCell.unquoted dm read mRow (t ++ b :: rest) =
        ⟨CellExit.done, b, dm b, rest, mRow ++ read :: t⟩ := by
  intro t
  induction t with
  | nil =>
    intro read mRow hp
    have h := hp read (List.mem_cons_self _ _)
    unfold readCell.unquoted
    simp [h.1, h.2.1, h.2.2, readCell.unquoted_boundary hv hb]
  | cons c t ih =>
    intro read mRow hp
    have h := hp read (List.mem_cons_self _ _)
    have hp' : Plain dm (c :: t) := fun x hx => hp x (List.mem_cons_of_mem _ hx)
    unfold readCell.unquoted
    simp [h.1, h.2.1, h.2.2, ih c _ hp']

theorem readCell.unquoted_eof (dm : Char → Bool) :
    ∀ (t : List Char) (read : Char) (mRow : List Char), Plain dm (read :: t) →
      ∃ r, readCell.unquoted dm read mRow t =
        ⟨CellExit.done, r, false, [], mRow ++ read :: t⟩ := by
  intro t
  induction t with
  | nil =>
    intro read mRow hp
    have h := hp read (List.mem_cons_self _ _)
    refine ⟨read, ?_⟩
    unfold readCell.unquoted
    simp [h.1, h.2.1, h.2.2]
  | cons c t ih =>
    intro read mRow hp
    have h := hp read (List.mem_cons_self _ _)
    have hp' : Plain dm (c :: t) := fun x hx => hp x (List.mem_cons_of_mem _ hx)
    obtain ⟨r, hr⟩ := ih c (mRow ++ [read]) hp'
    refine ⟨r, ?_⟩
    unfold readCell.unquoted
    simp [h.1, h.2.1, h.2.2, hr]

theorem readCell.quoted_cons_ne (dm : Char → Bool) {c : Char} (hc : c ≠ '"')
    (read : Char) (continues : Bool) (mRow rest : List Char) :
    readCell.quoted dm read continues mRow (c :: rest) =
      readCell.quoted dm c continues (mRow ++ [c]) rest := by
  cases rest <;> simp [readCell.quoted, hc]

theorem readCell.quoted_closed {dm : Char → Bool} (hv : ValidMatcher dm) {b : Char}
    (hb : (dm b || isNewline b) = true) (rest : List Char) :
    ∀ (s : List Char) (read : Char) (continues : Bool) (mRow : List Char),
      readCell.quoted dm read continues mRow (escape s ++ '"' :: b :: rest) =
        ⟨CellExit.done, b, dm b, rest, mRow ++ s⟩ := by
  intro s
  induction s with
  | nil =>
    intro read continues mRow
    simp [escape, readCell.quoted, hb]
  | cons c s ih =>
    intro read continues mRow
    by_cases hc : c = '"'
    · subst hc
      simp [escape, readCell.quoted, hv.quote, isNewline_quote, ih]
    · simp [escape, readCell.quoted_cons_ne dm hc, hc, ih]

theorem readCell.quoted_eof {dm : Char → Bool} (hv : ValidMatcher dm) :
    ∀ (s : List Char) (read : Char) (mRow : List Char),
      readCell.quoted dm read false mRow (escape s ++ ['"']) =
        ⟨CellExit.done, '"', false, [], mRow ++ s⟩ := by
  intro s
  induction s with
  | nil =>
    intro read mRow
    simp [escape, readCell.quoted]
  | cons c s ih =>
    intro read mRow
    by_cases hc : c = '"'
    · subst hc
      simp [escape, readCell.quoted, hv.quote, isNewline_quote, ih]
    · simp [escape, readCell.quoted_cons_ne dm hc, hc, ih]

theorem readCell.quoted_open {dm : Char → Bool} (hv : ValidMatcher dm) :
    ∀ (s : List Char) (read : Char) (mRow : List Char),
      ∃ r, readCell.quoted dm read false mRow (escape s) =
        ⟨CellExit.unexpectedEnd, r, false, [], mRow ++ s⟩ := by
  intro s
  induction s with
  | nil =>
    intro read mRow
    exact ⟨read, by simp [escape, readCell.quoted]⟩
  | cons c s ih =>
    intro read mRow
    by_cases hc : c = '"'
    · subst hc
      obtain ⟨r, hr⟩ := ih '"' (mRow ++ ['"'])
      exact ⟨r, by simp [escape, readCell.quoted, hv.quote, isNewline_quote, hr]⟩
    · obtain ⟨r, hr⟩ := ih c (mRow ++ [c])
      exact ⟨r, by simp [escape, readCell.quoted_cons_ne dm hc, hc, hr]⟩

/-- A well-formed cell followed by a delimiter or a newline character `b`. -/
theorem readCell_boundary {dm : Char → Bool} (hv : ValidMatcher dm) {b : Char}
    (hb : (dm b || isNewline b) = true) (c : Cell) (hc : c.WellFormed dm)
    (read : Char) (columns : Nat) (s : Reader) (rest : List Char)
    (hin : read :: s.input = c.text ++ b :: rest) :
    readCell dm read columns s =
      if dm b then
        ⟨true, b, columns + 1, true,
          { s with input := rest,
                   mRow := if !(s.mColumns != 0 && decide (columns ≥ s.mColumns))
                           then s.mRow ++ c.content ++ [b] else s.mRow ++ c.content }⟩
      else ⟨true, b, columns, false, { s with input := rest, mRow := s.mRow ++ c.content }⟩ := by
  cases c with
  | plain t =>
    cases t with
    | nil =>
      simp only [Cell.text, List.nil_append, List.cons.injEq] at hin
      obtain ⟨rfl, hin⟩ := hin
      have hq := boundary_ne_quote hv hb
      simp only [readCell, hin, beq_iff_eq, hq, if_false,
        readCell.unquoted_boundary hv hb, Cell.content, List.append_nil]
      cases hd : dm read <;> simp
    | cons x t =>
      simp only [Cell.text, List.cons_append, List.cons.injEq] at hin
      obtain ⟨rfl, hin⟩ := hin
      have hx := hc read (List.mem_cons_self _ _)
      simp only [readCell, hin, beq_iff_eq, hx.2.1, if_false,
        readCell.unquoted_plain hv hb rest t read _ hc, Cell.content]
      cases hd : dm b <;> simp
  | quoted q =>
    simp only [Cell.text, List.cons_append, List.cons.injEq, List.append_assoc,
      List.singleton_append, List.nil_append] at hin
    obtain ⟨rfl, hin⟩ := hin
    simp only [readCell, hin, beq_self_eq_true, if_true,
      readCell.quoted_closed hv hb rest q, Cell.content]
    cases hd : dm b <;> simp

/-- A well-formed cell with at least one character followed by the end of the input. -/
theorem readCell_eof {dm : Char → Bool} (hv : ValidMatcher dm)
    (c : Cell) (hc : c.WellFormed dm)
    (read : Char) (columns : Nat) (s : Reader)
    (hin : read :: s.input = c.text) :
    ∃ r, readCell dm read columns s =
      ⟨true, r, columns, false, { s with input := [], mRow := s.mRow ++ c.content }⟩ := by
  cases c with
  | plain t =>
    cases t with
    | nil => simp [Cell.text] at hin
    | cons x t =>
      simp only [Cell.text, List.cons.injEq] at hin
      obtain ⟨rfl, hin⟩ := hin
      have hx := hc read (List.mem_cons_self _ _)
      obtain ⟨r, hr⟩ := readCell.unquoted_eof dm t read s.mRow hc
      refine ⟨r, ?_⟩
      simp [readCell, hin, hx.2.1, hr, Cell.content]
  | quoted q =>
    simp only [Cell.text, List.cons.injEq] at hin
    obtain ⟨rfl, hin⟩ := hin
    refine ⟨'"', ?_⟩
    simp [readCell, hin, readCell.quoted_eof hv q, Cell.content]

/-! ## The cell loop on well-formed cells -/

theorem ValidMatcher.not_delimiter {dm : Char → Bool} (hv : ValidMatcher dm) {c : Char}
    (h : isNewline c = true) : dm c = false := by
  cases hd : dm c
  · rfl
  · rw [hv.not_newline hd] at h; cases h

theorem sepCells_append (d : Char) (ts us : List (List Char)) :
    sepCells d (ts ++ us) = sepCells d ts ++ sepCells d us := by
  induction ts with
  | nil => rfl
  | cons t ts ih => simp [sepCells, ih]

theorem joinCells_concat (d : Char) (ts : List (List Char)) (t : List Char) :
    joinCells d (ts ++ [t]) = sepCells d ts ++ t := by
  induction ts with
  | nil => rfl
  | cons u ts ih =>
    cases ts with
    | nil => simp [joinCells, sepCells]
    | cons v ts =>
      simp only [List.cons_append] at ih ⊢
      simp [joinCells, sepCells, ih]

theorem length_le_sepCells (d : Char) (ts : List (List Char)) :
    ts.length ≤ (sepCells d ts).length := by
  induction ts with
  | nil => simp [sepCells]
  | cons t ts ih => simp [sepCells]; omega

/-- One round of the cell loop: a well-formed cell followed by a delimiter, when the
running column count stays within the established one. -/
theorem readLine.cellLoop_step {dm : Char → Bool} (hv : ValidMatcher dm) {d : Char}
    (hd : dm d = true) (c : Cell) (hc : c.WellFormed dm)
    (fuel : Nat) (read : Char) (columns : Nat) (s : Reader) (r : Char) (input : List Char)
    (hin : read :: s.input = c.text ++ d :: r :: input)
    (hcol : s.mColumns = 0 ∨ columns < s.mColumns) :
    readLine.cellLoop dm (fuel + 1) read columns s =
      readLine.cellLoop dm fuel r (columns + 1)
        { s with input := input, mRow := s.mRow ++ c.content ++ [d] } := by
  have hb : (dm d || isNewline d) = true := by simp [hd]
  rw [readLine.cellLoop, readCell_boundary hv hb c hc read columns s _ hin]
  rcases hcol with h0 | hlt
  · simp [hd, h0]
  · have h1 : s.mColumns ≠ 0 := by omega
    have h2 : ¬ s.mColumns ≤ columns := by omega
    have h3 : ¬ s.mColumns < columns + 1 := by omega
    simp [hd, h1, h2, h3]

/-- Several rounds of the cell loop. -/
theorem readLine.cellLoop_steps {dm : Char → Bool} (hv : ValidMatcher dm) {d : Char}
    (hd : dm d = true) (fuel : Nat) (r : Char) (input : List Char) :
    ∀ (pre : List Cell), (∀ c ∈ pre, c.WellFormed dm) →
      ∀ (read : Char) (columns : Nat) (s : Reader),
        read :: s.input = sepCells d (pre.map Cell.text) ++ r :: input →
        (s.mColumns = 0 ∨ columns + pre.length ≤ s.mColumns) →
        readLine.cellLoop dm (fuel + pre.length) read columns s =
          readLine.cellLoop dm fuel r (columns + pre.length)
            { s with input := input, mRow := s.mRow ++ sepCells d (pre.map Cell.content) } := by
  intro pre
  induction pre with
  | nil =>
    intro _ read columns s hin _
    simp only [List.map_nil, sepCells, List.nil_append, List.cons.injEq] at hin
    obtain ⟨rfl, hin⟩ := hin
    simp [sepCells, ← hin]
  | cons c pre ih =>
    intro hwf read columns s hin hcol
    have hc := hwf c (List.mem_cons_self _ _)
    have hpre : ∀ x ∈ pre, x.WellFormed dm := fun x hx => hwf x (List.mem_cons_of_mem _ hx)
    obtain ⟨r1, input1, h1⟩ : ∃ r1 input1,
        sepCells d (pre.map Cell.text) ++ r :: input = r1 :: input1 := by
      cases h : sepCells d (pre.map Cell.text) ++ r :: input with
      | nil => simp at h
      | cons a l => exact ⟨a, l, rfl⟩
    have hin1 : read :: s.input = c.text ++ d :: r1 :: input1 := by
      rw [hin, ← h1]; simp [sepCells]
    have hcol1 : s.mColumns = 0 ∨ columns < s.mColumns := by
      rcases hcol with h | h
      · exact Or.inl h
      · right; simp only [List.length_cons] at h; omega
    have hfuel : fuel + (c :: pre).length = (fuel + pre.length) + 1 := by
      simp only [List.length_cons]; omega
    rw [hfuel, readLine.cellLoop_step hv hd c hc _ read columns s r1 input1 hin1 hcol1]
    rw [ih hpre r1 (columns + 1) _ h1.symm (by
      rcases hcol with h | h
      · exact Or.inl h
      · right; simp only [List.length_cons] at h; show columns + 1 + pre.length ≤ s.mColumns; omega)]
    simp only [List.length_cons, List.map_cons, sepCells, List.append_assoc, List.singleton_append,
      List.cons_append, List.nil_append]
    congr 1; omega

/-- The last round of the cell loop: the last cell and the end of its row. -/
theorem readLine.cellLoop_last {dm : Char → Bool} (hv : ValidMatcher dm)
    (c : Cell) (hc : c.WellFormed dm) (e : RowEnd) (he : e.Fits c)
    (fuel : Nat) (read : Char) (columns : Nat) (s : Reader)
    (hin : read :: s.input = c.text ++ e.chars) :
    ∃ r input, readLine.cellLoop dm (fuel + 1) read columns s =
        Outcome.ok (LoopExit.row r columns
          { s with input := input, mRow := s.mRow ++ c.content }) ∧
      skipLineFeed r input = e.after := by
  cases e with
  | newline b rest =>
    have hnl : isNewline b = true := he
    have hb : (dm b || isNewline b) = true := by simp [hnl]
    refine ⟨b, rest, ?_, rfl⟩
    rw [readLine.cellLoop, readCell_boundary hv hb c hc read columns s rest hin]
    simp [hv.not_delimiter hnl]
  | eof =>
    simp only [RowEnd.chars, List.append_nil] at hin
    obtain ⟨r, hr⟩ := readCell_eof hv c hc read columns s hin
    refine ⟨r, [], ?_, rfl⟩
    rw [readLine.cellLoop, hr]
    simp

/-- The cell loop on a row of well-formed cells that fits the established column count. -/
theorem readLine.cellLoop_row {dm : Char → Bool} (hv : ValidMatcher dm) {d : Char}
    (hd : dm d = true) (pre : List Cell) (c : Cell)
    (hwf : ∀ x ∈ pre ++ [c], x.WellFormed dm) (e : RowEnd) (he : e.Fits c)
    (fuel : Nat) (read : Char) (columns : Nat) (s : Reader)
    (hin : read :: s.input = joinCells d ((pre ++ [c]).map Cell.text) ++ e.chars)
    (hcol : s.mColumns = 0 ∨ columns + pre.length ≤ s.mColumns)
    (hfuel : pre.length < fuel) :
    ∃ r input, readLine.cellLoop dm fuel read columns s =
        Outcome.ok (LoopExit.row r (columns + pre.length)
          { s with input := input,
                   mRow := s.mRow ++ joinCells d ((pre ++ [c]).map Cell.content) }) ∧
      skipLineFeed r input = e.after := by
  have hpre : ∀ x ∈ pre, x.WellFormed dm := fun x hx => hwf x (List.mem_append_left _ hx)
  have hc : c.WellFormed dm := hwf c (by simp)
  rw [List.map_append, List.map_singleton, joinCells_concat, List.append_assoc] at hin
  obtain ⟨r1, input1, h1⟩ : ∃ r1 input1, c.text ++ e.chars = r1 :: input1 := by
    cases h : c.text ++ e.chars with
    | nil =>
      cases e with
      | newline b rest => simp [RowEnd.chars] at h
      | eof =>
        simp only [RowEnd.chars, List.append_nil] at h
        exact absurd h he
    | cons a l => exact ⟨a, l, rfl⟩
  rw [h1] at hin
  obtain ⟨k, rfl⟩ : ∃ k, fuel = (k + 1) + pre.length := ⟨fuel - pre.length - 1, by omega⟩
  rw [readLine.cellLoop_steps hv hd (k + 1) r1 input1 pre hpre read columns s hin hcol]
  obtain ⟨r, input, h2, h3⟩ := readLine.cellLoop_last hv c hc e he k r1 (columns + pre.length)
    { s with input := input1, mRow := s.mRow ++ sepCells d (pre.map Cell.content) } h1.symm
  refine ⟨r, input, ?_, h3⟩
  rw [h2, List.map_append, List.map_singleton, joinCells_concat]
  simp

/-! ## Boundary materialization -/

theorem readLine.split_cons (dm : Char → Bool) (columns : Nat) (c : Char) (buf : List Char)
    (i last : Nat) (cells : List View) :
    readLine.split dm columns (c :: buf) i last cells =
      if cells.length < columns - 1 then
        if dm c then
          readLine.split dm columns buf (i + 1) (i + 1) (cells ++ [⟨last, i - last⟩])
        else readLine.split dm columns buf (i + 1) last cells
      else (last, cells) := by
  rw [readLine.split]

/-- Scanning delimiter-free text up to the delimiter that follows it adds one view. -/
theorem readLine.split_cell {dm : Char → Bool} {d : Char} (hd : dm d = true) (columns : Nat)
    (buf : List Char) (last : Nat) (cells : List View) (hlt : cells.length < columns - 1) :
    ∀ (t : List Char) (i : Nat), NoDelim dm t →
      readLine.split dm columns (t ++ d :: buf) i last cells =
        readLine.split dm columns buf (i + t.length + 1) (i + t.length + 1)
          (cells ++ [⟨last, i + t.length - last⟩]) := by
  intro t
  induction t with
  | nil =>
    intro i _
    simp [readLine.split_cons, hlt, hd]
  | cons c t ih =>
    intro i ht
    have hc : dm c = false := ht c (List.mem_cons_self _ _)
    have ht' : NoDelim dm t := fun x hx => ht x (List.mem_cons_of_mem _ hx)
    have e : i + 1 + t.length = i + (t.length + 1) := by omega
    rw [List.cons_append, readLine.split_cons, if_pos hlt, hc, if_neg (by simp), ih (i + 1) ht',
      List.length_cons, e]

/-- Scanning delimiter-free text up to the end of the buffer adds no view. -/
theorem readLine.split_last {dm : Char → Bool} (columns : Nat) (last : Nat) (cells : List View) :
    ∀ (t : List Char) (i : Nat), NoDelim dm t →
      readLine.split dm columns t i last cells = (last, cells) := by
  intro t
  induction t with
  | nil => intro i _; rfl
  | cons c t ih =>
    intro i ht
    have hc : dm c = false := ht c (List.mem_cons_self _ _)
    have ht' : NoDelim dm t := fun x hx => ht x (List.mem_cons_of_mem _ hx)
    rw [readLine.split_cons, hc]
    simp [ih (i + 1) ht']

theorem readLine.split_join {dm : Char → Bool} {d : Char} (hd : dm d = true) (columns : Nat) :
    ∀ (ts : List (List Char)) (i : Nat) (cells : List View),
      ts ≠ [] → (∀ t ∈ ts, NoDelim dm t) → cells.length + ts.length = columns →
      (readLine.split dm columns (joinCells d ts) i i cells).2 ++
          [⟨(readLine.split dm columns (joinCells d ts) i i cells).1,
            i + (joinCells d ts).length - (readLine.split dm columns (joinCells d ts) i i cells).1⟩] =
        cells ++ viewsFrom i ts := by
  intro ts
  induction ts with
  | nil => intro i cells h; exact absurd rfl h
  | cons t ts ih =>
    intro i cells _ hnd hlen
    have ht : NoDelim dm t := hnd t (List.mem_cons_self _ _)
    cases ts with
    | nil =>
      simp [joinCells, readLine.split_last columns i cells t i ht, viewsFrom]
    | cons u us =>
      have hlt : cells.length < columns - 1 := by
        simp only [List.length_cons] at hlen; omega
      have hrest : ∀ x ∈ u :: us, NoDelim dm x := fun x hx => hnd x (List.mem_cons_of_mem _ hx)
      have hlen' : (cells ++ [(⟨i, i + t.length - i⟩ : View)]).length + (u :: us).length =
          columns := by
        simp only [List.length_append, List.length_cons, List.length_nil] at hlen ⊢; omega
      have h := ih (i + t.length + 1) (cells ++ [⟨i, i + t.length - i⟩]) (by simp) hrest hlen'
      simp only [joinCells, readLine.split_cell hd columns _ i cells hlt t i ht]
      have hl : i + (t ++ d :: joinCells d (u :: us)).length =
          i + t.length + 1 + (joinCells d (u :: us)).length := by
        simp only [List.length_append, List.length_cons]; omega
      rw [hl, h]
      simp [viewsFrom]

/-- The views materialized for a row of delimiter-free cells. -/
theorem materialize_join {dm : Char → Bool} {d : Char} (hd : dm d = true)
    (ts : List (List Char)) (hne : ts ≠ []) (hnd : ∀ t ∈ ts, NoDelim dm t) :
    materialize dm ts.length (joinCells d ts) = viewsFrom 0 ts := by
  have h := readLine.split_join hd ts.length ts 0 [] hne hnd (by simp)
  simpa [materialize] using h

/-- The characters that the views of consecutive cells denote. -/
theorem viewsFrom_chars (d : Char) :
    ∀ (ts : List (List Char)) (pre : List Char),
      (viewsFrom pre.length ts).map (View.chars (pre ++ joinCells d ts)) = ts := by
  intro ts
  induction ts with
  | nil => intro pre; rfl
  | cons t ts ih =>
    intro pre
    cases ts with
    | nil => simp [viewsFrom, View.chars, joinCells]
    | cons u us =>
      have h := ih (pre ++ t ++ [d])
      have e1 : (pre ++ t ++ [d]).length = pre.length + t.length + 1 := by simp; omega
      have e2 : (pre ++ t ++ [d]) ++ joinCells d (u :: us) =
          pre ++ (t ++ d :: joinCells d (u :: us)) := by simp
      have ej : joinCells d (t :: u :: us) = t ++ d :: joinCells d (u :: us) := rfl
      rw [e1, e2] at h
      rw [ej, viewsFrom, List.map_cons, h]
      simp [View.chars]

theorem viewsFrom_length (offset : Nat) (ts : List (List Char)) :
    (viewsFrom offset ts).length = ts.length := by
  induction ts generalizing offset with
  | nil => rfl
  | cons t ts ih => simp [viewsFrom, ih]

/-! ## The row read from the views -/

theorem deserialize_eq (s : Reader) (hlen : s.mRowCells.length = s.mColumns) :
    ∀ n, n ≤ s.mColumns →
      deserialize s n =
        Outcome.ok ((s.mRowCells.drop (s.mColumns - n)).map (View.chars s.mRow)) := by
  intro n
  induction n with
  | zero =>
    intro _
    simp [deserialize, ← hlen]
  | succ n ih =>
    intro hn
    have hlt : s.mColumns - (n + 1) < s.mRowCells.length := by omega
    have hd : s.mRowCells.drop (s.mColumns - (n + 1)) =
        s.mRowCells.get ⟨s.mColumns - (n + 1), hlt⟩ :: s.mRowCells.drop (s.mColumns - n) := by
      have := List.drop_eq_getElem_cons hlt
      rw [this]
      have h2 : s.mColumns - (n + 1) + 1 = s.mColumns - n := by omega
      simp [h2]
    rw [deserialize, Reader.columns, List.get?_eq_get hlt, ih (by omega), hd]
    simp

/-! ## readLine on a well-formed row -/

theorem readLine_nil (dm : Char → Bool) (s : Reader) (hs : s.input = []) :
    readLine dm s =
      Outcome.ok (false,
        { s with mRow := [], mRowCells := [],
                 mErrorHandler := s.mErrorHandler ++ [Fault.unexpectedEnd s.mRows] }) := by
  simp [readLine, hs]

theorem readLine_newline (dm : Char → Bool) (s : Reader) (read : Char) (rest : List Char)
    (hs : s.input = read :: rest) (hnl : isNewline read = true) :
    readLine dm s =
      Outcome.ok (false,
        { s with input := skipLineFeed read rest, mRow := [], mRowCells := [],
                 mErrorHandler := s.mErrorHandler ++
                   [Fault.incorrectColumns 0 (if s.mColumns > 0 then s.mColumns else 1)
                     s.mRows] }) := by
  simp [readLine, hs, hnl]

theorem readLine_cons (dm : Char → Bool) (s : Reader) (read : Char) (rest : List Char)
    (hs : s.input = read :: rest) (hnl : isNewline read = false) :
    readLine dm s =
      match readLine.cellLoop dm (rest.length + 1) read 1
          { s with input := rest, mRow := [], mRowCells := [] } with
      | Outcome.stuck e => Outcome.stuck e
      | Outcome.ok (LoopExit.failed s') => Outcome.ok (false, s')
      | Outcome.ok (LoopExit.row read' columns s') => readLine.finish dm read' columns s' := by
  simp [readLine, hs, hnl]

/-- The first character of a well-formed cell is not a newline character. -/
theorem Cell.text_head {dm : Char → Bool} (c : Cell) (hc : c.WellFormed dm) (x : Char)
    (t : List Char) (h : c.text = x :: t) : isNewline x = false := by
  cases c with
  | plain u =>
    simp only [Cell.text] at h
    subst h
    exact (hc x (List.mem_cons_self _ _)).2.2
  | quoted q =>
    simp only [Cell.text, List.cons.injEq] at h
    rw [← h.1]; decide

/-- The first character of a well-formed row that is not a single empty cell is not a
newline character. -/
theorem row_head {dm : Char → Bool} (hv : ValidMatcher dm) {d : Char} (hd : dm d = true)
    (pre : List Cell) (c : Cell) (hwf : ∀ x ∈ pre ++ [c], x.WellFormed dm)
    (hne : pre = [] → c ≠ Cell.plain []) (e : RowEnd) (he : e.Fits c) :
    ∃ read rest, joinCells d ((pre ++ [c]).map Cell.text) ++ e.chars = read :: rest ∧
      isNewline read = false ∧ pre.length ≤ rest.length := by
  have hc : c.WellFormed dm := hwf c (by simp)
  rw [List.map_append, List.map_singleton, joinCells_concat, List.append_assoc]
  cases pre with
  | nil =>
    simp only [List.map_nil, sepCells, List.nil_append, List.length_nil, Nat.zero_le, and_true]
    cases hct : c.text with
    | nil =>
      cases c with
      | plain u =>
        simp only [Cell.text] at hct
        subst hct
        exact absurd rfl (hne rfl)
      | quoted q => simp [Cell.text] at hct
    | cons x t => exact ⟨x, t ++ e.chars, rfl, c.text_head hc x t hct⟩
  | cons p pre =>
    have hp : p.WellFormed dm := hwf p (by simp)
    have hlen : pre.length + 1 ≤
        (sepCells d (pre.map Cell.text) ++ (c.text ++ e.chars)).length := by
      have h1 := length_le_sepCells d (pre.map Cell.text)
      have h2 : 1 ≤ (c.text ++ e.chars).length := by
        cases e with
        | newline b rest => simp [RowEnd.chars]; omega
        | eof =>
          have : c.text ≠ [] := he
          simp only [RowEnd.chars, List.append_nil]
          exact List.length_pos.mpr this
      simp only [List.length_append, List.length_map] at h1 h2 ⊢
      omega
    simp only [List.map_cons, sepCells, List.append_assoc, List.cons_append, List.length_cons]
    cases hpt : p.text with
    | nil =>
      refine ⟨d, _, rfl, hv.not_newline hd, ?_⟩
      simpa using hlen
    | cons x t =>
      rw [List.cons_append]
      refine ⟨x, _, rfl, p.text_head hp x t hpt, ?_⟩
      simp only [List.length_append, List.length_cons] at hlen ⊢
      omega

/-- The Reader after `readLine` has consumed a row and its terminator, before the column
count is established or validated. -/
theorem readLine_row {dm : Char → Bool} (hv : ValidMatcher dm) {d : Char} (hd : dm d = true)
    (pre : List Cell) (c : Cell) (hwf : ∀ x ∈ pre ++ [c], x.WellFormed dm)
    (hne : pre = [] → c ≠ Cell.plain []) (e : RowEnd) (he : e.Fits c) (s : Reader)
    (hin : s.input = joinCells d ((pre ++ [c]).map Cell.text) ++ e.chars)
    (hcol : s.mColumns = 0 ∨ pre.length + 1 ≤ s.mColumns) :
    readLine dm s =
      if s.mColumns = 0 then
        Outcome.ok (true,
          { s with input := e.after, mRows := s.mRows + 1, mColumns := pre.length + 1,
                   mRow := joinCells d ((pre ++ [c]).map Cell.content),
                   mRowCells := materialize dm (pre.length + 1)
                     (joinCells d ((pre ++ [c]).map Cell.content)) })
      else if pre.length + 1 < s.mColumns then
        Outcome.ok (false,
          { s with input := e.after,
                   mErrorHandler := s.mErrorHandler ++
                     [Fault.incorrectColumns (pre.length + 1) s.mColumns s.mRows],
                   mRow := joinCells d ((pre ++ [c]).map Cell.content),
                   mRowCells := materialize dm (pre.length + 1)
                     (joinCells d ((pre ++ [c]).map Cell.content)) })
      else
        Outcome.ok (true,
          { s with input := e.after, mRows := s.mRows + 1,
                   mRow := joinCells d ((pre ++ [c]).map Cell.content),
                   mRowCells := materialize dm (pre.length + 1)
                     (joinCells d ((pre ++ [c]).map Cell.content)) }) := by
  obtain ⟨read, rest, hst, hnl, hlen⟩ := row_head hv hd pre c hwf hne e he
  have hs : s.input = read :: rest := by rw [hin, hst]
  rw [readLine_cons dm s read rest hs hnl]
  obtain ⟨r, input, h1, h2⟩ := readLine.cellLoop_row hv hd pre c hwf e he (rest.length + 1)
    read 1 { s with input := rest, mRow := [], mRowCells := [] } (by simpa using hst.symm)
    (by
      rcases hcol with h | h
      · exact Or.inl h
      · right; show 1 + pre.length ≤ s.mColumns; omega)
    (by omega)
  rw [h1]
  have e1 : 1 + pre.length = pre.length + 1 := by omega
  simp only [readLine.finish, h2, List.nil_append, e1, beq_iff_eq]

/-! ## fetch on a well-formed row -/

/-- A failed `readLine` is a failed `fetch` that leaves the caller's row as it was. -/
theorem fetch_of_readLine_false {dm : Char → Bool} {s s' : Reader} (row : List (List Char))
    (h : readLine dm s = Outcome.ok (false, s')) :
    fetch dm row s = Outcome.ok (false, row, s') := by
  rw [fetch, h]

/-- A successful `readLine` on a row of cells whose contents have no delimiter: the row
read back by `fetch` is the list of the contents. -/
theorem fetch_row {dm : Char → Bool} (hv : ValidMatcher dm) {d : Char} (hd : dm d = true)
    (cells : List Cell) (last : Cell) (hlast : cells.getLast? = some last)
    (hwf : ∀ x ∈ cells, x.WellFormed dm) (hnd : ∀ x ∈ cells, NoDelim dm x.content)
    (hne : cells ≠ [Cell.plain []]) (e : RowEnd) (he : e.Fits last)
    (row : List (List Char)) (s : Reader)
    (hin : s.input = joinCells d (cells.map Cell.text) ++ e.chars)
    (hcol : s.mColumns = 0 ∨ s.mColumns = cells.length) :
    fetch dm row s =
      Outcome.ok (true, cells.map Cell.content,
        { s with input := e.after, mRows := s.mRows + 1, mColumns := cells.length,
                 mRow := joinCells d (cells.map Cell.content),
                 mRowCells := viewsFrom 0 (cells.map Cell.content) }) := by
  obtain ⟨pre, rfl⟩ := List.getLast?_eq_some_iff.mp hlast
  have hne' : pre = [] → last ≠ Cell.plain [] := by
    rintro rfl rfl
    exact hne rfl
  have hlen : (pre ++ [last]).length = pre.length + 1 := by simp
  have hmat : materialize dm (pre.length + 1) (joinCells d ((pre ++ [last]).map Cell.content)) =
      viewsFrom 0 ((pre ++ [last]).map Cell.content) := by
    have h := materialize_join hd ((pre ++ [last]).map Cell.content) (by simp)
      (by
        intro t ht
        obtain ⟨x, hx, rfl⟩ := List.mem_map.mp ht
        exact hnd x hx)
    simpa using h
  have hread := readLine_row hv hd pre last hwf hne' e he s hin
    (by rcases hcol with h | h
        · exact Or.inl h
        · right; omega)
  have hchars := viewsFrom_chars d ((pre ++ [last]).map Cell.content) []
  simp only [List.length_nil, List.nil_append] at hchars
  rw [fetch, hread, hmat]
  rcases hcol with h0 | hN
  · rw [if_pos h0]
    simp only []
    rw [deserialize_eq _ (by simp [viewsFrom_length]) _ (by simp [Reader.columns])]
    simp only [List.map_append, List.map_singleton] at hchars
    simp [Reader.columns, hchars, h0]
  · have h1 : s.mColumns ≠ 0 := by omega
    have h2 : ¬ pre.length + 1 < s.mColumns := by omega
    rw [if_neg h1, if_neg h2]
    simp only []
    rw [deserialize_eq _ (by simp [viewsFrom_length]; omega) _ (by simp [Reader.columns])]
    simp only [List.map_append, List.map_singleton] at hchars
    simp [Reader.columns, hchars, hN]

/-! ## Tables -/

theorem map_text_plain (row : List (List Char)) : (row.map Cell.plain).map Cell.text = row := by
  induction row with
  | nil => rfl
  | cons t ts ih => rw [List.map_cons, List.map_cons, ih]; rfl

theorem map_content_plain (row : List (List Char)) :
    (row.map Cell.plain).map Cell.content = row := by
  induction row with
  | nil => rfl
  | cons t ts ih => rw [List.map_cons, List.map_cons, ih]; rfl

theorem skipLineFeed_of_ne (read : Char) (input : List Char)
    (h : read = '\r' → input.head? ≠ some '\n') : skipLineFeed read input = input := by
  cases input with
  | nil => rfl
  | cons c rest =>
    by_cases hr : read = '\r'
    · have hc : c ≠ '\n' := by
        intro hc
        exact h hr (by simp [hc])
      simp [skipLineFeed, hc]
    · simp [skipLineFeed, hr]

/-- A terminator in front of a tail that does not start with a line feed is a row end
after which the tail is left. -/
theorem terminator_end (terminator : List Char) (ht : terminator ∈ terminators)
    (tail : List Char) :
    ∃ b rest, terminator ++ tail = b :: rest ∧ isNewline b = true ∧
      (tail.head? ≠ some '\n' → skipLineFeed b rest = tail) := by
  simp only [terminators, List.mem_cons, List.mem_singleton, List.mem_nil_iff, or_false] at ht
  rcases ht with rfl | rfl | rfl
  · exact ⟨'\n', tail, rfl, by decide, fun _ => skipLineFeed_of_ne _ _ (fun h => absurd h (by decide))⟩
  · exact ⟨'\r', tail, rfl, by decide, fun h => skipLineFeed_of_ne _ _ (fun _ => h)⟩
  · exact ⟨'\r', '\n' :: tail, rfl, by decide, fun _ => by simp [skipLineFeed]⟩

/-- A row of unquoted cells in a table, as a list of well-formed cells. -/
theorem plain_row {dm : Char → Bool} (row : List (List Char)) (hlen : 1 ≤ row.length)
    (hp : ∀ t ∈ row, Plain dm t) (hne : row ≠ [[]]) :
    ∃ last, (row.map Cell.plain).getLast? = some last ∧
      (∀ x ∈ row.map Cell.plain, x.WellFormed dm) ∧
      (∀ x ∈ row.map Cell.plain, NoDelim dm x.content) ∧
      row.map Cell.plain ≠ [Cell.plain []] := by
  have hrow : row ≠ [] := by
    intro h; rw [h] at hlen; simp at hlen
  obtain ⟨pre, t, rfl⟩ : ∃ pre t, row = pre ++ [t] := by
    rcases List.eq_nil_or_concat row with h | ⟨L, b, h⟩
    · exact absurd h hrow
    · exact ⟨L, b, by simpa using h⟩
  refine ⟨Cell.plain t, by simp, ?_, ?_, ?_⟩
  · intro x hx
    obtain ⟨u, hu, rfl⟩ := List.mem_map.mp hx
    exact hp u hu
  · intro x hx
    obtain ⟨u, hu, rfl⟩ := List.mem_map.mp hx
    exact fun c hc => (hp u hu c hc).1
  · intro h
    apply hne
    have := congrArg (List.map Cell.content) h
    rw [map_content_plain] at this
    simpa [Cell.content] using this

/-- A serialised table does not start with a newline character. -/
theorem serialise_head {dm : Char → Bool} (hv : ValidMatcher dm) {d : Char} (hd : dm d = true)
    (table : List (List (List Char) × List Char))
    (hrows : ∀ rt ∈ table, 1 ≤ rt.1.length ∧ (∀ t ∈ rt.1, Plain dm t) ∧ rt.1 ≠ [[]] ∧
      rt.2 ∈ terminators) :
    (serialise d table).head? ≠ some '\n' := by
  cases table with
  | nil => simp [serialise]
  | cons rt table =>
    obtain ⟨row, terminator⟩ := rt
    obtain ⟨hlen, hp, hne, ht⟩ := hrows (row, terminator) (List.mem_cons_self _ _)
    obtain ⟨last, hlast, hwf, _, hne'⟩ := plain_row row hlen hp hne
    obtain ⟨pre, hpre⟩ := List.getLast?_eq_some_iff.mp hlast
    obtain ⟨b, rest, hb, hnl, _⟩ := terminator_end terminator ht (serialise d table)
    have hne2 : pre = [] → last ≠ Cell.plain [] := by
      rintro rfl rfl
      exact hne' (by simpa using hpre)
    obtain ⟨read, rest', h1, h2, _⟩ := row_head hv hd pre last (by rw [← hpre]; exact hwf) hne2
      (RowEnd.newline b rest) hnl
    rw [← hpre, map_text_plain] at h1
    simp only [serialise, List.append_assoc, hb]
    simp only [RowEnd.chars] at h1
    rw [h1]
    simp only [List.head?_cons, ne_eq, Option.some.injEq]
    rintro rfl
    exact absurd h2 (by decide)

theorem fetchTimes_table {dm : Char → Bool} (hv : ValidMatcher dm) {d : Char} (hd : dm d = true)
    (N : Nat) :
    ∀ (table : List (List (List Char) × List Char)),
      (∀ rt ∈ table, rt.1.length = N ∧ (∀ t ∈ rt.1, Plain dm t) ∧ rt.1 ≠ [[]] ∧
        rt.2 ∈ terminators) →
      1 ≤ N →
      ∀ (s : Reader), s.input = serialise d table → (s.mColumns = 0 ∨ s.mColumns = N) →
        ∃ s', fetchTimes dm table.length s =
            Outcome.ok (table.map (fun rt => (true, rt.1)), s') ∧
          s'.input = [] ∧ s'.mErrorHandler = s.mErrorHandler ∧
          (table ≠ [] → s'.mColumns = N) ∧ s'.mRows = s.mRows + table.length := by
  intro table
  induction table with
  | nil =>
    intro _ _ s hin _
    exact ⟨s, rfl, by simpa [serialise] using hin, rfl, by simp, rfl⟩
  | cons rt table ih =>
    intro hrows hN s hin hcol
    obtain ⟨row, terminator⟩ := rt
    obtain ⟨hlen, hp, hne, ht⟩ := hrows (row, terminator) (List.mem_cons_self _ _)
    have hrows' : ∀ rt ∈ table, rt.1.length = N ∧ (∀ t ∈ rt.1, Plain dm t) ∧ rt.1 ≠ [[]] ∧
        rt.2 ∈ terminators := fun x hx => hrows x (List.mem_cons_of_mem _ hx)
    obtain ⟨last, hlast, hwf, hnd, hne'⟩ := plain_row row (by simp only [] at hlen; omega) hp hne
    obtain ⟨b, rest, hb, hnl, hafter⟩ := terminator_end terminator ht (serialise d table)
    have htail := serialise_head hv hd table (fun x hx => by
      obtain ⟨h1, h2⟩ := hrows' x hx
      exact ⟨by omega, h2⟩)
    have hf := fetch_row hv hd (row.map Cell.plain) last hlast hwf hnd hne'
      (RowEnd.newline b rest) hnl [] s
      (by rw [hin, map_text_plain]; simp [serialise, RowEnd.chars, hb])
      (by simpa using (by simp only [] at hlen; rw [hlen]; exact hcol))
    simp only [RowEnd.after, hafter htail, map_content_plain, List.length_map] at hf
    obtain ⟨s', h1, h2, h3, h4, h5⟩ := ih hrows' hN
      { s with input := serialise d table, mRows := s.mRows + 1, mColumns := row.length,
               mRow := joinCells d row, mRowCells := viewsFrom 0 row } rfl (Or.inr hlen)
    refine ⟨s', ?_, h2, h3, ?_, ?_⟩
    · simp only [List.length_cons, fetchTimes, hf, h1, List.map_cons]
    · intro _
      cases table with
      | nil =>
        simp only [List.length_nil, fetchTimes, Outcome.ok.injEq, Prod.mk.injEq, List.map_nil,
          true_and] at h1
        rw [← h1]; exact hlen
      | cons x xs => exact h4 (by simp)
    · rw [h5]; simp only [List.length_cons]; omega

/-! ## Rows that fail -/

theorem skipLineFeed_eq (read : Char) (input : List Char) :
    skipLineFeed read input =
      if read = '\r' ∧ input.head? = some '\n' then input.tail else input := by
  cases input with
  | nil => simp [skipLineFeed]
  | cons c rest =>
    by_cases h1 : read = '\r' <;> by_cases h2 : c = '\n' <;> simp [skipLineFeed, h1, h2]

/-- The first character of well-formed cells, each followed by a delimiter, and of a tail
that does not start with a newline character. -/
theorem stream_head {dm : Char → Bool} (hv : ValidMatcher dm) {d : Char} (hd : dm d = true)
    (pre : List Cell) (hwf : ∀ x ∈ pre, x.WellFormed dm) (x : Char) (tail : List Char)
    (hx : isNewline x = false) :
    ∃ read rest, sepCells d (pre.map Cell.text) ++ x :: tail = read :: rest ∧
      isNewline read = false ∧ pre.length ≤ rest.length := by
  cases pre with
  | nil => exact ⟨x, tail, rfl, hx, by simp⟩
  | cons p pre =>
    have hp : p.WellFormed dm := hwf p (List.mem_cons_self _ _)
    have hlen := length_le_sepCells d (pre.map Cell.text)
    simp only [List.length_map] at hlen
    simp only [List.map_cons, sepCells, List.append_assoc, List.cons_append, List.length_cons]
    cases hpt : p.text with
    | nil =>
      refine ⟨d, _, rfl, hv.not_newline hd, ?_⟩
      simp only [List.nil_append, List.length_append, List.length_cons]
      omega
    | cons y t =>
      rw [List.cons_append]
      refine ⟨y, _, rfl, p.text_head hp y t hpt, ?_⟩
      simp only [List.length_append, List.length_cons]
      omega

/-- The Reader after `readLine` has met the end of the input inside a quoted cell that
stands at a column within the established column count. -/
theorem readLine_open_quote {dm : Char → Bool} (hv : ValidMatcher dm) {d : Char}
    (hd : dm d = true) (pre : List Cell) (q : List Char) (hwf : ∀ x ∈ pre, x.WellFormed dm)
    (s : Reader) (hin : s.input = sepCells d (pre.map Cell.text) ++ '"' :: escape q)
    (hcol : s.mColumns = 0 ∨ pre.length + 1 ≤ s.mColumns) :
    readLine dm s =
      Outcome.ok (false,
        { s with input := [],
                 mErrorHandler := s.mErrorHandler ++ [Fault.unexpectedEnd s.mRows],
                 mRow := sepCells d (pre.map Cell.content) ++ q, mRowCells := [] }) := by
  obtain ⟨read, rest, hst, hnl, hlen⟩ := stream_head hv hd pre hwf '"' (escape q) (by decide)
  have hs : s.input = read :: rest := by rw [hin, hst]
  rw [readLine_cons dm s read rest hs hnl]
  obtain ⟨k, hk⟩ : ∃ k, rest.length + 1 = (k + 1) + pre.length := ⟨rest.length - pre.length, by omega⟩
  rw [hk, readLine.cellLoop_steps hv hd (k + 1) '"' (escape q) pre hwf read 1
    { s with input := rest, mRow := [], mRowCells := [] } hst.symm
    (by
      rcases hcol with h | h
      · exact Or.inl h
      · right; show 1 + pre.length ≤ s.mColumns; omega)]
  obtain ⟨r, hr⟩ := readCell.quoted_open hv q '"' (sepCells d (pre.map Cell.content))
  simp [readLine.cellLoop, readCell, hr]

/-- An unquoted cell followed by a delimiter or a newline character is skipped up to
that character. -/
theorem skipCell_plain {dm : Char → Bool} (hv : ValidMatcher dm) {b : Char}
    (hb : (dm b || isNewline b) = true) (t : List Char) (ht : Plain dm t) (c : Char)
    (input rest : List Char) (hin : c :: input = t ++ b :: rest) :
    skipCell dm c input = ⟨b, dm b, rest⟩ := by
  cases t with
  | nil =>
    simp only [List.nil_append, List.cons.injEq] at hin
    obtain ⟨rfl, rfl⟩ := hin
    rw [skipCell_of_ne_quote dm (boundary_ne_quote hv hb), skipCell.skip_boundary dm hb]
  | cons x t =>
    simp only [List.cons_append, List.cons.injEq] at hin
    obtain ⟨rfl, rfl⟩ := hin
    rw [skipCell_of_ne_quote dm (ht c (List.mem_cons_self _ _)).2.1,
      skipCell.skip_plain dm hb rest t c ht]

/-- The overflow recovery loop over unquoted cells up to the newline character. -/
theorem readLine.skipLoop_plain {dm : Char → Bool} (hv : ValidMatcher dm) {d : Char}
    (hd : dm d = true) {b : Char} (hnl : isNewline b = true) (rest : List Char) :
    ∀ (ts : List (List Char)) (t : List Char), (∀ u ∈ ts ++ [t], Plain dm u) →
      ∀ (fuel excess : Nat), ts.length < fuel →
        readLine.skipLoop dm fuel (sepCells d ts ++ (t ++ b :: rest)) excess =
          Outcome.ok (b, excess + ts.length + 1, rest) := by
  intro ts
  induction ts with
  | nil =>
    intro t hp fuel excess hfuel
    obtain ⟨f, rfl⟩ : ∃ f, fuel = f + 1 := ⟨fuel - 1, by simp at hfuel; omega⟩
    have ht : Plain dm t := hp t (by simp)
    obtain ⟨c, input, hc⟩ : ∃ c input, t ++ b :: rest = c :: input := by
      cases h : t ++ b :: rest with
      | nil => simp at h
      | cons a l => exact ⟨a, l, rfl⟩
    have hb : (dm b || isNewline b) = true := by simp [hnl]
    have hstep := skipCell_plain hv hb t ht c input rest hc.symm
    simp only [sepCells, List.nil_append, hc, readLine.skipLoop, hstep, hv.not_delimiter hnl,
      List.length_nil]
    simp
  | cons u ts ih =>
    intro t hp fuel excess hfuel
    obtain ⟨f, rfl⟩ : ∃ f, fuel = f + 1 := ⟨fuel - 1, by simp at hfuel; omega⟩
    have hu : Plain dm u := hp u (by simp)
    have hp' : ∀ v ∈ ts ++ [t], Plain dm v := fun v hv' => hp v (by
      simp only [List.cons_append, List.mem_cons]; exact Or.inr hv')
    obtain ⟨c, input, hc⟩ : ∃ c input,
        u ++ d :: (sepCells d ts ++ (t ++ b :: rest)) = c :: input := by
      cases h : u ++ d :: (sepCells d ts ++ (t ++ b :: rest)) with
      | nil => simp at h
      | cons a l => exact ⟨a, l, rfl⟩
    have hb : (dm d || isNewline d) = true := by simp [hd]
    have hstep := skipCell_plain hv hb u hu c input _ hc.symm
    simp only [sepCells, List.append_assoc, List.cons_append, hc, readLine.skipLoop, hstep,
      hd, Bool.not_true, Bool.false_eq_true, if_false]
    rw [ih t hp' f (excess + 1) (by simp only [List.length_cons] at hfuel; omega)]
    simp only [List.length_cons]
    congr 3; omega

/-- The Reader after `readLine` has met a newline-terminated row of unquoted cells that
has more cells than the established column count. -/
theorem readLine_overflow {dm : Char → Bool} (hv : ValidMatcher dm) {d : Char}
    (hd : dm d = true) (pre : List (List Char)) (t : List Char) (more : List (List Char))
    (u : List Char) (hp : ∀ v ∈ pre ++ t :: (more ++ [u]), Plain dm v)
    (b : Char) (rest : List Char) (hnl : isNewline b = true) (s : Reader)
    (hin : s.input = sepCells d pre ++ (t ++ d :: (sepCells d more ++ (u ++ b :: rest))))
    (hcol : s.mColumns = pre.length + 1) :
    readLine dm s =
      Outcome.ok (false,
        { s with input := skipLineFeed b rest,
                 mErrorHandler := s.mErrorHandler ++
                   [Fault.incorrectColumns (pre.length + 1 + (more.length + 1)) s.mColumns s.mRows],
                 mRow := sepCells d pre ++ t, mRowCells := [] }) := by
  have hwf : ∀ x ∈ pre.map Cell.plain, x.WellFormed dm := by
    intro x hx
    obtain ⟨v, hv', rfl⟩ := List.mem_map.mp hx
    exact hp v (List.mem_append_left _ hv')
  have ht : Plain dm t := hp t (by simp)
  obtain ⟨c1, input1, h1⟩ : ∃ c1 input1,
      t ++ d :: (sepCells d more ++ (u ++ b :: rest)) = c1 :: input1 := by
    cases h : t ++ d :: (sepCells d more ++ (u ++ b :: rest)) with
    | nil => simp at h
    | cons a l => exact ⟨a, l, rfl⟩
  have hc1 : isNewline c1 = false := by
    cases t with
    | nil =>
      simp only [List.nil_append, List.cons.injEq] at h1
      rw [← h1.1]; exact hv.not_newline hd
    | cons y t =>
      simp only [List.cons_append, List.cons.injEq] at h1
      rw [← h1.1]; exact (ht y (List.mem_cons_self _ _)).2.2
  obtain ⟨read, rest0, hst, hnl0, hlen⟩ := stream_head hv hd (pre.map Cell.plain) hwf c1 input1 hc1
  rw [map_text_plain] at hst
  simp only [List.length_map] at hlen
  have hs : s.input = read :: rest0 := by rw [hin, h1, hst]
  rw [readLine_cons dm s read rest0 hs hnl0]
  obtain ⟨k, hk⟩ : ∃ k, rest0.length + 1 = (k + 1) + (pre.map Cell.plain).length :=
    ⟨rest0.length - pre.length, by simp only [List.length_map]; omega⟩
  rw [hk, readLine.cellLoop_steps hv hd (k + 1) c1 input1 (pre.map Cell.plain) hwf read 1
    { s with input := rest0, mRow := [], mRowCells := [] }
    (by rw [map_text_plain]; exact hst.symm)
    (by right; simp only [List.length_map]; show 1 + pre.length ≤ s.mColumns; omega)]
  have hb : (dm d || isNewline d) = true := by simp [hd]
  have hcell := readCell_boundary hv hb (Cell.plain t) ht c1 (1 + (pre.map Cell.plain).length)
    { s with input := input1, mRow := [] ++ sepCells d ((pre.map Cell.plain).map Cell.content),
             mRowCells := [] } _ h1.symm
  obtain ⟨c2, input2, h2⟩ : ∃ c2 input2, sepCells d more ++ (u ++ b :: rest) = c2 :: input2 := by
    cases h : sepCells d more ++ (u ++ b :: rest) with
    | nil => simp at h
    | cons a l => exact ⟨a, l, rfl⟩
  have hskip := readLine.skipLoop_plain hv hd hnl rest more u
    (fun v hv' => hp v (by simp only [List.mem_append, List.mem_cons] at hv' ⊢; tauto))
    ((c2 :: input2).length + 1) 0 (by
      have := length_le_sepCells d more
      rw [← h2]; simp only [List.length_append]; omega)
  rw [h2] at hskip hcell
  have e1 : 1 + pre.length + 1 - 1 + (0 + more.length + 1) = pre.length + 1 + (more.length + 1) := by
    omega
  have e2 : ¬ (pre.length + 1 + (more.length + 1) = pre.length + 1) := by omega
  have e3 : ¬ (pre.length + 1 = 0) := by omega
  have e4 : pre.length + 1 ≤ 1 + pre.length := by omega
  have e5 : pre.length + 1 < 1 + pre.length + 1 := by omega
  rw [readLine.cellLoop, hcell]
  simp only [hd, if_true, Bool.not_true, Bool.false_eq_true, if_false, hcol, List.length_map,
    map_content_plain, Cell.content, List.nil_append, bne_iff_ne, ne_eq, e3, not_false_eq_true,
    decide_True, decide_False, Bool.and_true, Bool.true_and, Bool.or_true, ge_iff_le, e4, gt_iff_lt,
    e5, Bool.false_or, Bool.not_false, hskip, e1, e2, decide_not, Bool.and_self]
  simp

/-- A row with more cells than `n ≥ 1`: its first `n` cells and its further cells. -/
theorem split_row (cells : List (List Char)) (n : Nat) (hn : 1 ≤ n) (hk : n < cells.length) :
    ∃ pre t more u, cells = pre ++ t :: (more ++ [u]) ∧ pre.length + 1 = n := by
  have h1 : cells.take n ≠ [] := by
    intro h
    have := congrArg List.length h
    simp only [List.length_take, List.length_nil] at this
    omega
  have h2 : cells.drop n ≠ [] := by
    intro h
    have := congrArg List.length h
    simp only [List.length_drop, List.length_nil] at this
    omega
  rcases List.eq_nil_or_concat (cells.take n) with h | ⟨pre, t, ht⟩
  · exact absurd h h1
  rcases List.eq_nil_or_concat (cells.drop n) with h | ⟨more, u, hu⟩
  · exact absurd h h2
  refine ⟨pre, t, more, u, ?_, ?_⟩
  · have := List.take_append_drop n cells
    rw [ht, hu] at this
    rw [← this]; simp
  · have := congrArg List.length ht
    simp only [List.length_take, List.concat_eq_append, List.length_append,
      List.length_singleton] at this
    omega

theorem joinCells_split (d : Char) (pre : List (List Char)) (t : List Char)
    (more : List (List Char)) (u : List Char) :
    joinCells d (pre ++ t :: (more ++ [u])) =
      sepCells d pre ++ (t ++ d :: (sepCells d more ++ u)) := by
  have h : pre ++ t :: (more ++ [u]) = (pre ++ t :: more) ++ [u] := by simp
  rw [h, joinCells_concat, sepCells_append]
  simp [sepCells]

/-- The Row Buffer and the cell views that a call of `fetch` finds in the Reader do not
matter: `readLine` clears them first. -/
theorem fetch_reset (dm : Char → Bool) (row : List (List Char)) (s : Reader) :
    fetch dm row s = fetch dm row { s with mRow := [], mRowCells := [] } := rfl

/-! ## Every input: progress of the cursor -/

theorem skipCell.unquoted_length (dm : Char → Bool) :
    ∀ (input : List Char) (read : Char),
      (skipCell.unquoted dm read input).input.length ≤ input.length := by
  intro input
  induction input with
  | nil =>
    intro read
    unfold skipCell.unquoted
    split <;> simp
  | cons c rest ih =>
    intro read
    unfold skipCell.unquoted
    split
    · simp
    · have := ih c
      simp only [List.length_cons]
      omega

theorem skipCell.quoted_length (dm : Char → Bool) :
    ∀ (n : Nat) (input : List Char), input.length ≤ n → ∀ (read : Char) (continues : Bool),
      (skipCell.quoted dm read continues input).input.length ≤ input.length := by
  intro n
  induction n with
  | zero =>
    intro input h read continues
    have : input = [] := List.length_eq_zero.mp (by omega)
    subst this
    simp [skipCell.quoted]
  | succ n ih =>
    intro input h read continues
    cases input with
    | nil => simp [skipCell.quoted]
    | cons c rest =>
      have hrest : rest.length ≤ n := by simp only [List.length_cons] at h; omega
      cases rest with
      | nil =>
        by_cases hc : c = '"'
        · simp [skipCell.quoted, hc]
        · have := ih [] (by simp) c continues
          simp [skipCell.quoted, hc]
      | cons d rest' =>
        have hrest' : rest'.length ≤ n := by simp only [List.length_cons] at hrest; omega
        by_cases hc : c = '"'
        · subst hc
          rw [skipCell.quoted_cons_cons]
          split
          · simp only [List.length_cons]; omega
          · split
            · rename_i hd
              have hd' : d ≠ '"' := by simpa using hd
              rw [skipCell_of_ne_quote dm hd']
              have := skipCell.unquoted_length dm rest' d
              simp only [List.length_cons]; omega
            · have := ih rest' hrest' d (dm d)
              simp only [List.length_cons]; omega
        · have := ih (d :: rest') hrest c continues
          simp only [skipCell.quoted, beq_iff_eq, hc, if_false]
          simp only [List.length_cons] at this ⊢
          omega

theorem skipCell_length (dm : Char → Bool) (read : Char) (input : List Char) :
    (skipCell dm read input).input.length ≤ input.length := by
  unfold skipCell
  split
  · exact skipCell.quoted_length dm input.length input (Nat.le_refl _) read false
  · exact skipCell.unquoted_length dm input read

/-- With fuel for every unread character, the overflow recovery loop ends by itself,
having counted at least one cell, or reads the cursor at the end of the input. -/
theorem readLine.skipLoop_total (dm : Char → Bool) :
    ∀ (fuel : Nat) (input : List Char) (excess : Nat), input.length < fuel →
      readLine.skipLoop dm fuel input excess = Outcome.stuck Stuck.readPastEnd ∨
      ∃ read excess' input', readLine.skipLoop dm fuel input excess =
          Outcome.ok (read, excess', input') ∧
        excess + 1 ≤ excess' ∧ input'.length ≤ input.length := by
  intro fuel
  induction fuel with
  | zero => intro input excess h; omega
  | succ fuel ih =>
    intro input excess h
    cases input with
    | nil => left; rfl
    | cons c rest =>
      have hlen := skipCell_length dm c rest
      rw [readLine.skipLoop]
      split
      · exact Or.inr ⟨_, _, _, rfl, Nat.le_refl _, by simp only [List.length_cons]; omega⟩
      · rcases ih (skipCell dm c rest).input (excess + 1)
            (by simp only [List.length_cons] at h; omega) with h1 | ⟨r, e, i, h1, h2, h3⟩
        · exact Or.inl h1
        · exact Or.inr ⟨r, e, i, h1, by omega, by simp only [List.length_cons]; omega⟩

/-! ## Every input: readCell -/

theorem readCell.unquoted_of_quote (dm : Char → Bool) (mRow input : List Char) :
    readCell.unquoted dm '"' mRow input =
      ⟨CellExit.badCell, (skipCell dm '"' input).read, (skipCell dm '"' input).continues,
        (skipCell dm '"' input).input, mRow⟩ := by
  unfold readCell.unquoted
  simp

theorem readCell.unquoted_of_boundary (dm : Char → Bool) {read : Char} (hq : read ≠ '"')
    (hb : (dm read || isNewline read) = true) (mRow input : List Char) :
    readCell.unquoted dm read mRow input = ⟨CellExit.done, read, dm read, input, mRow⟩ := by
  unfold readCell.unquoted
  simp [hq, hb]

theorem readCell.unquoted_nil (dm : Char → Bool) {read : Char} (hq : read ≠ '"')
    (hb : ¬ (dm read || isNewline read) = true) (mRow : List Char) :
    readCell.unquoted dm read mRow [] =
      ⟨CellExit.done, read, dm read, [], mRow ++ [read]⟩ := by
  unfold readCell.unquoted
  simp only [beq_iff_eq, hq, if_false, hb, Bool.false_eq_true]

theorem readCell.unquoted_cons (dm : Char → Bool) {read : Char} (hq : read ≠ '"')
    (hb : ¬ (dm read || isNewline read) = true) (mRow : List Char) (c : Char)
    (rest : List Char) :
    readCell.unquoted dm read mRow (c :: rest) =
      readCell.unquoted dm c (mRow ++ [read]) rest := by
  rw [readCell.unquoted]
  simp only [beq_iff_eq, hq, if_false, hb, Bool.false_eq_true]

theorem readCell.quoted_quote_boundary (dm : Char → Bool) {d : Char}
    (hb : (dm d || isNewline d) = true) (read : Char) (continues : Bool)
    (mRow rest : List Char) :
    readCell.quoted dm read continues mRow ('"' :: d :: rest) =
      ⟨CellExit.done, d, dm d, rest, mRow⟩ := by
  simp [readCell.quoted, hb]

theorem readCell.quoted_quote_quote (dm : Char → Bool)
    (hb : ¬ (dm '"' || isNewline '"') = true) (read : Char) (continues : Bool)
    (mRow rest : List Char) :
    readCell.quoted dm read continues mRow ('"' :: '"' :: rest) =
      readCell.quoted dm '"' (dm '"') (mRow ++ ['"']) rest := by
  simp only [readCell.quoted, beq_self_eq_true, if_true, hb, if_false, bne_self_eq_false,
    Bool.false_eq_true]

theorem readCell.quoted_quote_bad (dm : Char → Bool) {d : Char}
    (hb : ¬ (dm d || isNewline d) = true) (hd : d ≠ '"') (read : Char) (continues : Bool)
    (mRow rest : List Char) :
    readCell.quoted dm read continues mRow ('"' :: d :: rest) =
      ⟨CellExit.badCell, (skipCell dm d rest).read, (skipCell dm d rest).continues,
        (skipCell dm d rest).input, mRow⟩ := by
  simp only [readCell.quoted, beq_self_eq_true, if_true, hb, if_false, bne_iff_ne, ne_eq, hd,
    not_false_eq_true, Bool.false_eq_true]

theorem readCell.unquoted_general (dm : Char → Bool) :
    ∀ (input : List Char) (read : Char) (mRow : List Char),
      (readCell.unquoted dm read mRow input).input.length ≤ input.length ∧
      (readCell.unquoted dm read mRow input).exit ≠ CellExit.unexpectedEnd ∧
      mRow.countP dm ≤ (readCell.unquoted dm read mRow input).mRow.countP dm ∧
      ((readCell.unquoted dm read mRow input).exit = CellExit.done →
        (readCell.unquoted dm read mRow input).continues = true →
        dm (readCell.unquoted dm read mRow input).read = true) := by
  intro input
  induction input with
  | nil =>
    intro read mRow
    by_cases hq : read = '"'
    · subst hq
      rw [readCell.unquoted_of_quote]
      exact ⟨skipCell_length dm '"' [], by simp, Nat.le_refl _, by simp⟩
    · by_cases hb : (dm read || isNewline read) = true
      · rw [readCell.unquoted_of_boundary dm hq hb]
        exact ⟨Nat.le_refl _, by simp, Nat.le_refl _, fun _ h => h⟩
      · rw [readCell.unquoted_nil dm hq hb]
        exact ⟨Nat.le_refl _, by simp, by simp [List.countP_append], fun _ h => h⟩
  | cons c rest ih =>
    intro read mRow
    by_cases hq : read = '"'
    · subst hq
      rw [readCell.unquoted_of_quote]
      exact ⟨skipCell_length dm '"' (c :: rest), by simp, Nat.le_refl _, by simp⟩
    · by_cases hb : (dm read || isNewline read) = true
      · rw [readCell.unquoted_of_boundary dm hq hb]
        exact ⟨Nat.le_refl _, by simp, Nat.le_refl _, fun _ h => h⟩
      · rw [readCell.unquoted_cons dm hq hb]
        obtain ⟨h1, h2, h3, h4⟩ := ih c (mRow ++ [read])
        refine ⟨?_, h2, ?_, h4⟩
        · simp only [List.length_cons]; omega
        · simp only [List.countP_append] at h3; omega

theorem readCell.quoted_general (dm : Char → Bool) :
    ∀ (n : Nat) (input : List Char), input.length ≤ n → ∀ (read : Char) (mRow : List Char),
      (readCell.quoted dm read false mRow input).input.length ≤ input.length ∧
      ((readCell.quoted dm read false mRow input).exit = CellExit.unexpectedEnd →
        (readCell.quoted dm read false mRow input).continues = false) ∧
      mRow.countP dm ≤ (readCell.quoted dm read false mRow input).mRow.countP dm ∧
      ((readCell.quoted dm read false mRow input).exit = CellExit.done →
        (readCell.quoted dm read false mRow input).continues = true →
        dm (readCell.quoted dm read false mRow input).read = true) := by
  intro n
  induction n with
  | zero =>
    intro input h read mRow
    have : input = [] := List.length_eq_zero.mp (by omega)
    subst this
    simp [readCell.quoted]
  | succ n ih =>
    intro input h read mRow
    cases input with
    | nil => simp [readCell.quoted]
    | cons c rest =>
      have hrest : rest.length ≤ n := by simp only [List.length_cons] at h; omega
      by_cases hc : c = '"'
      · subst hc
        cases rest with
        | nil => simp [readCell.quoted]
        | cons d rest' =>
          have hrest' : rest'.length ≤ n := by simp only [List.length_cons] at hrest; omega
          by_cases hb : (dm d || isNewline d) = true
          · rw [readCell.quoted_quote_boundary dm hb]
            refine ⟨?_, by simp, Nat.le_refl _, fun _ h => h⟩
            simp only [List.length_cons]; omega
          · by_cases hd : d = '"'
            · subst hd
              have hdm : dm '"' = false := by
                simp only [Bool.or_eq_true, not_or, Bool.not_eq_true] at hb
                exact hb.1
              obtain ⟨h1, h2, h3, h4⟩ := ih rest' hrest' '"' (mRow ++ ['"'])
              rw [readCell.quoted_quote_quote dm hb, hdm]
              refine ⟨?_, h2, ?_, h4⟩
              · simp only [List.length_cons]; omega
              · simp only [List.countP_append] at h3; omega
            · have := skipCell_length dm d rest'
              rw [readCell.quoted_quote_bad dm hb hd]
              refine ⟨?_, by simp, Nat.le_refl _, by simp⟩
              simp only [List.length_cons]; omega
      · obtain ⟨h1, h2, h3, h4⟩ := ih rest hrest c (mRow ++ [c])
        rw [readCell.quoted_cons_ne dm hc]
        refine ⟨?_, h2, ?_, h4⟩
        · simp only [List.length_cons]; omega
        · simp only [List.countP_append] at h3; omega

/-- The loop of `readCell` that runs for the lookahead character `read`. -/
theorem readCell_scan (dm : Char → Bool) (read : Char) (mRow input : List Char) :
    ((if read == '"' then readCell.quoted dm read false mRow input
        else readCell.unquoted dm read mRow input).input.length ≤ input.length) ∧
    ((if read == '"' then readCell.quoted dm read false mRow input
        else readCell.unquoted dm read mRow input).exit = CellExit.unexpectedEnd →
      (if read == '"' then readCell.quoted dm read false mRow input
        else readCell.unquoted dm read mRow input).continues = false) ∧
    (mRow.countP dm ≤ (if read == '"' then readCell.quoted dm read false mRow input
        else readCell.unquoted dm read mRow input).mRow.countP dm) ∧
    ((if read == '"' then readCell.quoted dm read false mRow input
        else readCell.unquoted dm read mRow input).exit = CellExit.done →
      (if read == '"' then readCell.quoted dm read false mRow input
        else readCell.unquoted dm read mRow input).continues = true →
      dm (if read == '"' then readCell.quoted dm read false mRow input
        else readCell.unquoted dm read mRow input).read = true) := by
  split
  · exact readCell.quoted_general dm input.length input (Nat.le_refl _) read mRow
  · obtain ⟨h1, h2, h3, h4⟩ := readCell.unquoted_general dm input read mRow
    exact ⟨h1, fun h => absurd h h2, h3, h4⟩

/-- What `readCell` does to the Reader, whatever the input. -/
theorem readCell_general (dm : Char → Bool) (read : Char) (columns : Nat) (s : Reader) :
    (readCell dm read columns s).reader.input.length ≤ s.input.length ∧
    (readCell dm read columns s).reader.mColumns = s.mColumns ∧
    (readCell dm read columns s).reader.mRows = s.mRows ∧
    (readCell dm read columns s).reader.mHeader = s.mHeader ∧
    s.mRow.countP dm ≤ (readCell dm read columns s).reader.mRow.countP dm ∧
    ((readCell dm read columns s).ok = true →
      (readCell dm read columns s).reader.mErrorHandler = s.mErrorHandler ∧
      ((readCell dm read columns s).continues = true →
        (readCell dm read columns s).columns = columns + 1 ∧
        ((s.mColumns = 0 ∨ columns < s.mColumns) →
          s.mRow.countP dm + 1 ≤ (readCell dm read columns s).reader.mRow.countP dm)) ∧
      ((readCell dm read columns s).continues = false →
        (readCell dm read columns s).columns = columns)) ∧
    ((readCell dm read columns s).ok = false →
      (readCell dm read columns s).columns = columns ∧
      ((readCell dm read columns s).reader.mErrorHandler =
          s.mErrorHandler ++ [Fault.badCell (columns - 1) s.mRows] ∨
        ((readCell dm read columns s).continues = false ∧
          (readCell dm read columns s).reader.mErrorHandler =
            s.mErrorHandler ++ [Fault.unexpectedEnd s.mRows]))) := by
  obtain ⟨h1, h2, h3, h4⟩ := readCell_scan dm read s.mRow s.input
  unfold readCell
  simp only []
  generalize (if read == '"' then readCell.quoted dm read false s.mRow s.input
      else readCell.unquoted dm read s.mRow s.input) = r at h1 h2 h3 h4
  obtain ⟨exit, read', continues, input', mRow'⟩ := r
  simp only at h1 h2 h3 h4
  cases exit with
  | unexpectedEnd =>
    have := h2 rfl
    simp [h1, h3, this]
  | badCell => simp [h1, h3]
  | done =>
    cases continues with
    | false => simp [h1, h3]
    | true =>
      have hdm := h4 rfl rfl
      simp only [if_true, h1, h3, true_and, forall_true_left, Bool.true_eq_false, false_implies,
        and_true, Bool.false_eq_true, implies_true]
      refine ⟨?_, ?_⟩
      · split
        · simp only [List.countP_append]; omega
        · exact h3
      · intro hcol
        have hlast : (!(s.mColumns != 0 && decide (columns ≥ s.mColumns))) = true := by
          rcases hcol with h | h
          · simp [h]
          · have : ¬ s.mColumns ≤ columns := by omega
            simp [this]
        rw [if_pos hlast]
        simp only [List.countP_append, List.countP_singleton, hdm, if_true]
        omega

/-! ## Every input: the cell loop -/

/-- The overflow recovery of `readLine`, entered after `readCell` has returned with
`continues` set. -/
theorem readLine.cellLoop_overflow (dm : Char → Bool) (fuel : Nat) (read : Char) (columns : Nat)
    (s : Reader) (hc : (readCell dm read columns s).continues = true)
    (hov : (!(readCell dm read columns s).ok ||
      ((readCell dm read columns s).reader.mColumns != 0 &&
        decide ((readCell dm read columns s).columns >
          (readCell dm read columns s).reader.mColumns))) = true) :
    readLine.cellLoop dm (fuel + 1) read columns s = Outcome.stuck Stuck.readPastEnd ∨
    ∃ excess input, 1 ≤ excess ∧
      input.length ≤ (readCell dm read columns s).reader.input.length ∧
      readLine.cellLoop dm (fuel + 1) read columns s =
        Outcome.ok (LoopExit.failed
          { (readCell dm read columns s).reader with
            input := input,
            mErrorHandler :=
              if (readCell dm read columns s).columns - 1 + excess =
                  (readCell dm read columns s).reader.mColumns then
                (readCell dm read columns s).reader.mErrorHandler
              else (readCell dm read columns s).reader.mErrorHandler ++
                [Fault.incorrectColumns ((readCell dm read columns s).columns - 1 + excess)
                  (readCell dm read columns s).reader.mColumns
                  (readCell dm read columns s).reader.mRows] }) := by
  rw [readLine.cellLoop]
  generalize readCell dm read columns s = r at hc hov
  obtain ⟨ok, read', columns', continues, reader⟩ := r
  simp only at hc hov
  subst hc
  simp only [Bool.not_true, Bool.false_eq_true, if_false, hov, if_true]
  cases hin : reader.input with
  | nil =>
    right
    refine ⟨1, [], Nat.le_refl _, by simp, ?_⟩
    simp only [skipLineFeed]
    split <;> simp_all
  | cons c rest =>
    simp only []
    rcases readLine.skipLoop_total dm ((c :: rest).length + 1) (c :: rest) 0 (by omega) with
      h | ⟨r, e, i, h, he, hi⟩
    · left; rw [h]
    · right
      rw [h]
      have hsl : (skipLineFeed r i).length ≤ (c :: rest).length := by
        have : (skipLineFeed r i).length ≤ i.length := by
          rw [skipLineFeed_eq]
          split
          · simp
          · exact Nat.le_refl _
        omega
      refine ⟨e, skipLineFeed r i, by omega, hsl, ?_⟩
      simp only []
      split <;> simp_all

/-- The two ways out of the cell loop when `readCell` has returned with `continues` not
set. -/
theorem readLine.cellLoop_stop (dm : Char → Bool) (fuel : Nat) (read : Char) (columns : Nat)
    (s : Reader) (hc : (readCell dm read columns s).continues = false) :
    readLine.cellLoop dm (fuel + 1) read columns s =
      if (readCell dm read columns s).ok then
        Outcome.ok (LoopExit.row (readCell dm read columns s).read
          (readCell dm read columns s).columns (readCell dm read columns s).reader)
      else Outcome.ok (LoopExit.failed (readCell dm read columns s).reader) := by
  rw [readLine.cellLoop]
  simp only [hc, Bool.not_false, if_true]
  cases (readCell dm read columns s).ok <;> simp

/-- The next round of the cell loop, when `readCell` has returned with `continues` set
and the overflow recovery is not entered. -/
theorem readLine.cellLoop_next (dm : Char → Bool) (fuel : Nat) (read : Char) (columns : Nat)
    (s : Reader) (hc : (readCell dm read columns s).continues = true)
    (hov : (!(readCell dm read columns s).ok ||
      ((readCell dm read columns s).reader.mColumns != 0 &&
        decide ((readCell dm read columns s).columns >
          (readCell dm read columns s).reader.mColumns))) = false) :
    readLine.cellLoop dm (fuel + 1) read columns s =
      match (readCell dm read columns s).reader.input with
      | [] => Outcome.stuck Stuck.readPastEnd
      | c :: rest =>
        readLine.cellLoop dm fuel c (readCell dm read columns s).columns
          { (readCell dm read columns s).reader with input := rest } := by
  rw [readLine.cellLoop]
  simp only [hc, Bool.not_true, Bool.false_eq_true, if_false, hov]

/-- With fuel for every unread character, the cell loop of `readLine` ends by itself or
reads the cursor at the end of the input. When it ends with a row, the Error Policy has
received no call, the running column count is within the established one, and the Row
Buffer holds a delimiter for every column but one. When it ends with a failure, the
Error Policy has received one call, or `raiseBadCell` and then
`raiseIncorrectColumns`. -/
theorem readLine.cellLoop_general (dm : Char → Bool) :
    ∀ (fuel : Nat) (read : Char) (columns : Nat) (s : Reader),
      s.input.length < fuel → 1 ≤ columns → (s.mColumns = 0 ∨ columns ≤ s.mColumns) →
      columns - 1 ≤ s.mRow.countP dm →
      readLine.cellLoop dm fuel read columns s = Outcome.stuck Stuck.readPastEnd ∨
      (∃ r c s', readLine.cellLoop dm fuel read columns s = Outcome.ok (LoopExit.row r c s') ∧
        s'.mErrorHandler = s.mErrorHandler ∧ s'.mColumns = s.mColumns ∧ s'.mRows = s.mRows ∧
        s'.mHeader = s.mHeader ∧ 1 ≤ c ∧ (s.mColumns = 0 ∨ c ≤ s.mColumns) ∧
        c - 1 ≤ s'.mRow.countP dm ∧ s'.input.length ≤ s.input.length) ∨
      (∃ s', readLine.cellLoop dm fuel read columns s = Outcome.ok (LoopExit.failed s') ∧
        FailedRowFaults s.mErrorHandler s'.mErrorHandler ∧ s'.mColumns = s.mColumns ∧
        s'.mRows = s.mRows ∧ s'.mHeader = s.mHeader ∧ s'.input.length ≤ s.input.length) := by
  intro fuel
  induction fuel with
  | zero => intro read columns s h; omega
  | succ fuel ih =>
    intro read columns s hfuel h1 hcol hcnt
    obtain ⟨g1, g2, g3, g4, g5, g6, g7⟩ := readCell_general dm read columns s
    cases hc : (readCell dm read columns s).continues with
    | false =>
      rw [readLine.cellLoop_stop dm fuel read columns s hc]
      cases hok : (readCell dm read columns s).ok with
      | true =>
        obtain ⟨k1, _, k3⟩ := g6 hok
        have k4 := k3 hc
        right; left
        refine ⟨_, _, _, rfl, k1, g2, g3, g4, by omega, ?_, by omega, g1⟩
        rw [k4]; exact hcol
      | false =>
        obtain ⟨_, k2⟩ := g7 hok
        right; right
        refine ⟨_, rfl, ?_, g2, g3, g4, g1⟩
        rcases k2 with k | ⟨_, k⟩
        · exact Or.inl ⟨_, k⟩
        · exact Or.inl ⟨_, k⟩
    | true =>
      cases hov : (!(readCell dm read columns s).ok ||
          ((readCell dm read columns s).reader.mColumns != 0 &&
            decide ((readCell dm read columns s).columns >
              (readCell dm read columns s).reader.mColumns))) with
      | true =>
        rcases readLine.cellLoop_overflow dm fuel read columns s hc hov with
          h | ⟨excess, input, he, hi, h⟩
        · exact Or.inl h
        · right; right
          refine ⟨_, h, ?_, g2, g3, g4, by simp only []; omega⟩
          simp only []
          cases hok : (readCell dm read columns s).ok with
          | true =>
            obtain ⟨k1, k2, _⟩ := g6 hok
            obtain ⟨k3, _⟩ := k2 hc
            have hgt : s.mColumns ≠ 0 ∧ s.mColumns < columns + 1 := by
              simpa [hok, g2, k3] using hov
            have hne : ¬ (columns + 1 - 1 + excess = s.mColumns) := by omega
            rw [k3, g2, if_neg hne, k1]
            exact Or.inl ⟨_, rfl⟩
          | false =>
            obtain ⟨_, k2⟩ := g7 hok
            rcases k2 with k | ⟨k, _⟩
            · rw [k]
              split
              · exact Or.inl ⟨_, rfl⟩
              · exact Or.inr ⟨_, _, _, _, _, by rw [List.append_assoc]; rfl⟩
            · rw [hc] at k; cases k
      | false =>
        have hok : (readCell dm read columns s).ok = true := by
          cases h : (readCell dm read columns s).ok with
          | true => rfl
          | false => simp [h] at hov
        obtain ⟨k1, k2, _⟩ := g6 hok
        obtain ⟨k3, k4⟩ := k2 hc
        have hle : s.mColumns = 0 ∨ columns + 1 ≤ s.mColumns := by
          have : ¬ s.mColumns = 0 → columns + 1 ≤ s.mColumns := by
            simpa [hok, g2, k3] using hov
          by_cases h0 : s.mColumns = 0
          · exact Or.inl h0
          · exact Or.inr (this h0)
        have hcnt' := k4 (by rcases hle with h | h
                             · exact Or.inl h
                             · right; omega)
        rw [readLine.cellLoop_next dm fuel read columns s hc hov]
        cases hin : (readCell dm read columns s).reader.input with
        | nil => exact Or.inl rfl
        | cons c rest =>
          simp only []
          rw [hin] at g1
          simp only [List.length_cons] at g1
          rcases ih c (readCell dm read columns s).columns
              { (readCell dm read columns s).reader with input := rest }
              (by simp only []; omega) (by omega) (by simp only [g2, k3]; exact hle)
              (by simp only [k3]; omega) with
            h | ⟨r, c', s', h, e1, e2, e3, e4, e5, e6, e7, e8⟩ | ⟨s', h, e1, e2, e3, e4, e5⟩
          · exact Or.inl h
          · right; left
            simp only [g2] at e6
            exact ⟨r, c', s', h, by rw [e1, k1], by rw [e2, g2], by rw [e3, g3], by rw [e4, g4],
              e5, e6, e7, by simp only [] at e8; omega⟩
          · right; right
            exact ⟨s', h, by simpa [k1] using e1, by rw [e2, g2], by rw [e3, g3], by rw [e4, g4],
              by simp only [] at e5; omega⟩

/-! ## Every input: readLine and fetch -/

theorem readLine.split_length (dm : Char → Bool) (columns : Nat) :
    ∀ (buf : List Char) (i last : Nat) (cells : List View), cells.length ≤ columns - 1 →
      (readLine.split dm columns buf i last cells).2.length =
        min (columns - 1) (cells.length + buf.countP dm) := by
  intro buf
  induction buf with
  | nil =>
    intro i last cells h
    simp only [readLine.split, List.countP_nil, Nat.add_zero]
    omega
  | cons c buf ih =>
    intro i last cells h
    rw [readLine.split_cons]
    by_cases hlt : cells.length < columns - 1
    · rw [if_pos hlt]
      cases hc : dm c with
      | true =>
        rw [if_pos rfl, ih _ _ _ (by simp only [List.length_append, List.length_singleton]; omega)]
        simp only [List.length_append, List.length_singleton, List.countP_cons, hc, if_true]
        omega
      | false =>
        rw [if_neg (by simp), ih _ _ _ h]
        simp [List.countP_cons, hc]
    · rw [if_neg hlt]
      simp only []
      omega

/-- The boundary materialization yields as many views as the running column count, when
the Row Buffer holds a delimiter for every column but one. -/
theorem materialize_length (dm : Char → Bool) (columns : Nat) (mRow : List Char)
    (h1 : 1 ≤ columns) (hcnt : columns - 1 ≤ mRow.countP dm) :
    (materialize dm columns mRow).length = columns := by
  have h := readLine.split_length dm columns mRow 0 0 [] (by simp)
  simp only [materialize, List.length_append, List.length_singleton, h, List.length_nil]
  omega

theorem skipLineFeed_length (read : Char) (input : List Char) :
    (skipLineFeed read input).length ≤ input.length := by
  rw [skipLineFeed_eq]
  split
  · simp
  · exact Nat.le_refl _

/-- What `readLine` does, whatever the input and the Reader: it returns, or it reads the
cursor at the end of the input. On success the Error Policy has received no call, the
row counter has advanced by one and there are `columns()` cell views; on failure the
Error Policy has received one call, or `raiseBadCell` and then `raiseIncorrectColumns`,
and the counters are unchanged. -/
theorem readLine_general (dm : Char → Bool) (s : Reader) :
    readLine dm s = Outcome.stuck Stuck.readPastEnd ∨
    ∃ ok s', readLine dm s = Outcome.ok (ok, s') ∧
      (ok = true → s'.mErrorHandler = s.mErrorHandler ∧ s'.mRowCells.length = s'.mColumns ∧
        1 ≤ s'.mColumns ∧ s'.mRows = s.mRows + 1 ∧ (s.mColumns ≠ 0 → s'.mColumns = s.mColumns)) ∧
      (ok = false → FailedRowFaults s.mErrorHandler s'.mErrorHandler ∧
        s'.mColumns = s.mColumns ∧ s'.mRows = s.mRows) ∧
      s'.mHeader = s.mHeader ∧ s'.input.length ≤ s.input.length := by
  cases hin : s.input with
  | nil =>
    right
    refine ⟨false, _, readLine_nil dm s hin, by simp, fun _ => ⟨Or.inl ⟨_, rfl⟩, rfl, rfl⟩,
      rfl, by simp [hin]⟩
  | cons read rest =>
    cases hnl : isNewline read with
    | true =>
      right
      refine ⟨false, _, readLine_newline dm s read rest hin hnl, by simp,
        fun _ => ⟨Or.inl ⟨_, rfl⟩, rfl, rfl⟩, rfl, ?_⟩
      have := skipLineFeed_length read rest
      simp only [List.length_cons]; omega
    | false =>
      rw [readLine_cons dm s read rest hin hnl]
      rcases readLine.cellLoop_general dm (rest.length + 1) read 1
          { s with input := rest, mRow := [], mRowCells := [] } (by simp) (Nat.le_refl _)
          (by simp only []; omega) (by simp) with
        h | ⟨r, c, s1, h, e1, e2, e3, e4, e5, e6, e7, e8⟩ | ⟨s1, h, e1, e2, e3, e4, e5⟩
      · left; rw [h]
      · right
        rw [h]
        simp only [] at e1 e2 e3 e4 e6 e8
        have hlen := skipLineFeed_length r s1.input
        have hmat := materialize_length dm c s1.mRow e5 e7
        simp only [readLine.finish, beq_iff_eq]
        by_cases h0 : s1.mColumns = 0
        · rw [if_pos h0]
          refine ⟨true, _, rfl, fun _ => ⟨e1, hmat, e5, by simp [e3], ?_⟩, by simp, e4, ?_⟩
          · intro hne; rw [e2] at h0; exact absurd h0 hne
          · simp only [List.length_cons]; omega
        · rw [if_neg h0]
          by_cases hlt : c < s1.mColumns
          · rw [if_pos hlt]
            refine ⟨false, _, rfl, by simp, fun _ => ⟨?_, e2, e3⟩, e4, ?_⟩
            · exact Or.inl ⟨Fault.incorrectColumns c s1.mColumns s1.mRows, by simp only [e1]⟩
            · simp only [List.length_cons]; omega
          · rw [if_neg hlt]
            have hc : c = s1.mColumns := by
              rcases e6 with h | h
              · rw [e2] at h0; exact absurd h h0
              · rw [e2]; omega
            have hpos : 1 ≤ s1.mColumns := by omega
            refine ⟨true, _, rfl, fun _ => ⟨e1, by simp only [hmat]; exact hc, hpos, by simp [e3],
              fun _ => e2⟩, by simp, e4, ?_⟩
            simp only [List.length_cons]; omega
      · right
        rw [h]
        simp only [] at e1 e2 e3 e4 e5
        refine ⟨false, s1, rfl, by simp, fun _ => ⟨e1, e2, e3⟩, e4, ?_⟩
        simp only [List.length_cons]; omega

/-- What `fetch` does, whatever the input and the Reader. -/
theorem fetch_general (dm : Char → Bool) (row : List (List Char)) (s : Reader) :
    fetch dm row s = Outcome.stuck Stuck.readPastEnd ∨
    ∃ ok row' s', fetch dm row s = Outcome.ok (ok, row', s') ∧
      readLine dm s = Outcome.ok (ok, s') ∧
      (ok = true → row' = s'.mRowCells.map (View.chars s'.mRow)) ∧
      (ok = false → row' = row) := by
  rcases readLine_general dm s with h | ⟨ok, s', h, h1, _, _, _⟩
  · left; rw [fetch, h]
  · right
    cases ok with
    | false => exact ⟨false, row, s', fetch_of_readLine_false row h, h, by simp, fun _ => rfl⟩
    | true =>
      obtain ⟨_, hlen, _, _, _⟩ := h1 rfl
      refine ⟨true, _, s', ?_, h, fun _ => rfl, by simp⟩
      rw [fetch, h]
      simp only []
      rw [Reader.columns, deserialize_eq s' hlen s'.mColumns (Nat.le_refl _)]
      simp

/-! ## skipCell on a well-formed cell -/

theorem skipCell.skip_cons_ne (dm : Char → Bool) {c : Char} (hc : c ≠ '"')
    (read : Char) (continues : Bool) (rest : List Char) :
    skipCell.quoted dm read continues (c :: rest) = skipCell.quoted dm c continues rest := by
  cases rest <;> simp [skipCell.quoted, hc]

theorem skipCell.skip_closed {dm : Char → Bool} (hv : ValidMatcher dm) {b : Char}
    (hb : (dm b || isNewline b) = true) (rest : List Char) :
    ∀ (q : List Char) (read : Char) (continues : Bool),
      skipCell.quoted dm read continues (escape q ++ '"' :: b :: rest) = ⟨b, dm b, rest⟩ := by
  intro q
  induction q with
  | nil =>
    intro read continues
    simp [escape, skipCell.quoted_cons_cons, hb]
  | cons c q ih =>
    intro read continues
    by_cases hc : c = '"'
    · subst hc
      simp [escape, skipCell.quoted_cons_cons, hv.quote, isNewline_quote, ih]
    · simp [escape, skipCell.skip_cons_ne dm hc, hc, ih]

theorem skipCell.skip_closed_eof {dm : Char → Bool} (hv : ValidMatcher dm) :
    ∀ (q : List Char) (read : Char),
      skipCell.quoted dm read false (escape q ++ ['"']) = ⟨'"', false, []⟩ := by
  intro q
  induction q with
  | nil =>
    intro read
    simp [escape, skipCell.quoted]
  | cons c q ih =>
    intro read
    by_cases hc : c = '"'
    · subst hc
      simp [escape, skipCell.quoted_cons_cons, hv.quote, isNewline_quote, ih]
    · simp [escape, skipCell.skip_cons_ne dm hc, hc, ih]

/-- An unquoted cell up to the end of the input: `readCell` and `skipCell` leave the same
lookahead character. -/
theorem unquoted_eof_same (dm : Char → Bool) :
    ∀ (t : List Char) (read : Char) (mRow : List Char), Plain dm (read :: t) →
      ∃ r, readCell.unquoted dm read mRow t =
          ⟨CellExit.done, r, false, [], mRow ++ read :: t⟩ ∧
        skipCell.unquoted dm read t = ⟨r, false, []⟩ := by
  intro t
  induction t with
  | nil =>
    intro read mRow hp
    have h := hp read (List.mem_cons_self _ _)
    refine ⟨read, ?_, ?_⟩
    · unfold readCell.unquoted
      simp [h.1, h.2.1, h.2.2]
    · unfold skipCell.unquoted
      simp [h.1, h.2.2]
  | cons c t ih =>
    intro read mRow hp
    have h := hp read (List.mem_cons_self _ _)
    have hp' : Plain dm (c :: t) := fun x hx => hp x (List.mem_cons_of_mem _ hx)
    obtain ⟨r, hr, hk⟩ := ih c (mRow ++ [read]) hp'
    refine ⟨r, ?_, ?_⟩
    · unfold readCell.unquoted
      simp [h.1, h.2.1, h.2.2, hr]
    · unfold skipCell.unquoted
      simp [h.1, h.2.2, hk]

/-- A well-formed cell followed by a delimiter or a newline character is skipped up to
that character. -/
theorem skipCell_boundary {dm : Char → Bool} (hv : ValidMatcher dm) {b : Char}
    (hb : (dm b || isNewline b) = true) (c : Cell) (hc : c.WellFormed dm)
    (read : Char) (input rest : List Char) (hin : read :: input = c.text ++ b :: rest) :
    skipCell dm read input = ⟨b, dm b, rest⟩ := by
  cases c with
  | plain t => exact skipCell_plain hv hb t hc read input rest hin
  | quoted q =>
    simp only [Cell.text, List.cons_append, List.cons.injEq, List.append_assoc,
      List.singleton_append, List.nil_append] at hin
    obtain ⟨rfl, rfl⟩ := hin
    rw [skipCell_quote, skipCell.skip_closed hv hb rest q]

/-! ## What skipCell consumes, whatever the input -/

theorem skipCell.unquoted_consumed (dm : Char → Bool) :
    ∀ (input : List Char) (read : Char),
      ∃ pre, read :: input =
          pre ++ (skipCell.unquoted dm read input).read ::
            (skipCell.unquoted dm read input).input ∧
        ((skipCell.unquoted dm read input).continues = true →
          dm (skipCell.unquoted dm read input).read = true) := by
  intro input
  induction input with
  | nil =>
    intro read
    unfold skipCell.unquoted
    split
    · exact ⟨[], rfl, fun h => h⟩
    · exact ⟨[], rfl, fun h => h⟩
  | cons c rest ih =>
    intro read
    unfold skipCell.unquoted
    split
    · exact ⟨[], rfl, fun h => h⟩
    · obtain ⟨pre, h1, h2⟩ := ih c
      exact ⟨read :: pre, by rw [List.cons_append, ← h1], h2⟩

theorem skipCell.quoted_consumed (dm : Char → Bool) :
    ∀ (n : Nat) (input : List Char), input.length ≤ n → ∀ (read : Char),
      ∃ pre, read :: input =
          pre ++ (skipCell.quoted dm read false input).read ::
            (skipCell.quoted dm read false input).input ∧
        ((skipCell.quoted dm read false input).continues = true →
          dm (skipCell.quoted dm read false input).read = true) := by
  intro n
  induction n with
  | zero =>
    intro input h read
    have : input = [] := List.length_eq_zero.mp (by omega)
    subst this
    exact ⟨[], by simp [skipCell.quoted], by simp [skipCell.quoted]⟩
  | succ n ih =>
    intro input h read
    cases input with
    | nil => exact ⟨[], by simp [skipCell.quoted], by simp [skipCell.quoted]⟩
    | cons c rest =>
      have hrest : rest.length ≤ n := by simp only [List.length_cons] at h; omega
      by_cases hc : c = '"'
      · subst hc
        cases rest with
        | nil => exact ⟨[read], by simp [skipCell.quoted], by simp [skipCell.quoted]⟩
        | cons d rest' =>
          have hrest' : rest'.length ≤ n := by simp only [List.length_cons] at hrest; omega
          rw [skipCell.quoted_cons_cons]
          by_cases hb : (dm d || isNewline d) = true
          · rw [if_pos hb]
            exact ⟨[read, '"'], rfl, fun h => h⟩
          · rw [if_neg hb]
            by_cases hd : d = '"'
            · subst hd
              have hdm : dm '"' = false := by
                simp only [Bool.or_eq_true, not_or, Bool.not_eq_true] at hb
                exact hb.1
              obtain ⟨pre, h1, h2⟩ := ih rest' hrest' '"'
              simp only [bne_self_eq_false, Bool.false_eq_true, if_false, hdm]
              exact ⟨read :: '"' :: pre, by simp only [List.cons_append, ← h1], h2⟩
            · obtain ⟨pre, h1, h2⟩ := skipCell.unquoted_consumed dm rest' d
              simp only [bne_iff_ne, ne_eq, hd, not_false_eq_true, if_true,
                skipCell_of_ne_quote dm hd]
              exact ⟨read :: '"' :: pre, by simp only [List.cons_append, ← h1], h2⟩
      · obtain ⟨pre, h1, h2⟩ := ih rest hrest c
        rw [skipCell.skip_cons_ne dm hc]
        exact ⟨read :: pre, by rw [List.cons_append, ← h1], h2⟩

/-- The lookahead character that `skipCell` leaves is the last character it has taken
from the input, the rest of which is the cursor; when `continues` is set, that character
is a delimiter. -/
theorem skipCell_consumed (dm : Char → Bool) (read : Char) (input : List Char) :
    ∃ pre, read :: input =
        pre ++ (skipCell dm read input).read :: (skipCell dm read input).input ∧
      ((skipCell dm read input).continues = true →
        dm (skipCell dm read input).read = true) := by
  unfold skipCell
  split
  · exact skipCell.quoted_consumed dm input.length input (Nat.le_refl _) read
  · exact skipCell.unquoted_consumed dm input read

theorem getLast?_append_cons_of_ne {α : Type} (pre : List α) (x : α) (l : List α)
    (hl : l ≠ []) : (pre ++ x :: l).getLast? = l.getLast? := by
  cases l with
  | nil => exact absurd rfl hl
  | cons y l => simp [List.getLast?_append, List.getLast?_cons]

/-- When the input does not end with a delimiter, the overflow recovery loop does not
read the cursor at the end of the input. -/
theorem readLine.skipLoop_ok (dm : Char → Bool) :
    ∀ (fuel : Nat) (input : List Char) (excess : Nat), input.length < fuel → input ≠ [] →
      (∀ c, input.getLast? = some c → dm c = false) →
      ∃ read excess' input', readLine.skipLoop dm fuel input excess =
          Outcome.ok (read, excess', input') ∧
        excess + 1 ≤ excess' ∧ input'.length ≤ input.length := by
  intro fuel
  induction fuel with
  | zero => intro input excess h; omega
  | succ fuel ih =>
    intro input excess h hne hlast
    cases input with
    | nil => exact absurd rfl hne
    | cons c rest =>
      have hlen := skipCell_length dm c rest
      obtain ⟨pre, h1, h2⟩ := skipCell_consumed dm c rest
      rw [readLine.skipLoop]
      cases hc : (skipCell dm c rest).continues with
      | false =>
        exact ⟨(skipCell dm c rest).read, excess + 1, (skipCell dm c rest).input, by simp,
          Nat.le_refl _, by simp only [List.length_cons]; omega⟩
      | true =>
        have hdm := h2 hc
        have hne' : (skipCell dm c rest).input ≠ [] := by
          intro hnil
          rw [hnil] at h1
          have := hlast (skipCell dm c rest).read (by rw [h1]; simp)
          rw [hdm] at this; cases this
        have hlast' : ∀ x, (skipCell dm c rest).input.getLast? = some x → dm x = false := by
          intro x hx
          apply hlast x
          rw [h1, getLast?_append_cons_of_ne _ _ _ hne', hx]
        obtain ⟨r, e, i, g1, g2, g3⟩ := ih (skipCell dm c rest).input (excess + 1)
          (by simp only [List.length_cons] at h; omega) hne' hlast'
        refine ⟨r, e, i, by simp [g1], by omega, by simp only [List.length_cons]; omega⟩

/-! ## Rows with excess cells of any content -/

/-- The row has as many well-formed cells as the established column count, then a
delimiter: `readLine` enters the overflow recovery, and what it returns is decided by the
overflow recovery loop run on what follows that delimiter. -/
theorem readLine_excess {dm : Char → Bool} (hv : ValidMatcher dm) {d : Char}
    (hd : dm d = true) (pre : List Cell) (c : Cell) (hwf : ∀ x ∈ pre ++ [c], x.WellFormed dm)
    (tail : List Char) (s : Reader)
    (hin : s.input = sepCells d (pre.map Cell.text) ++ (c.text ++ d :: tail))
    (hcol : s.mColumns = pre.length + 1) :
    (tail = [] →
      readLine dm s =
        Outcome.ok (false,
          { s with input := [],
                   mErrorHandler := s.mErrorHandler ++
                     [Fault.incorrectColumns (pre.length + 1 + 1) s.mColumns s.mRows],
                   mRow := sepCells d (pre.map Cell.content) ++ c.content,
                   mRowCells := [] })) ∧
    (∀ r ex inp, tail ≠ [] →
      readLine.skipLoop dm (tail.length + 1) tail 0 = Outcome.ok (r, ex, inp) →
      readLine dm s =
        Outcome.ok (false,
          { s with input := skipLineFeed r inp,
                   mErrorHandler := s.mErrorHandler ++
                     [Fault.incorrectColumns (pre.length + 1 + ex) s.mColumns s.mRows],
                   mRow := sepCells d (pre.map Cell.content) ++ c.content,
                   mRowCells := [] })) := by
  have hpre : ∀ x ∈ pre, x.WellFormed dm := fun x hx => hwf x (List.mem_append_left _ hx)
  have hc : c.WellFormed dm := hwf c (by simp)
  obtain ⟨c1, input1, h1⟩ : ∃ c1 input1, c.text ++ d :: tail = c1 :: input1 := by
    cases h : c.text ++ d :: tail with
    | nil => simp at h
    | cons a l => exact ⟨a, l, rfl⟩
  have hc1 : isNewline c1 = false := by
    cases hct : c.text with
    | nil =>
      rw [hct] at h1
      simp only [List.nil_append, List.cons.injEq] at h1
      rw [← h1.1]; exact hv.not_newline hd
    | cons y t =>
      rw [hct] at h1
      simp only [List.cons_append, List.cons.injEq] at h1
      rw [← h1.1]; exact c.text_head hc y t hct
  obtain ⟨read, rest0, hst, hnl0, hlen⟩ := stream_head hv hd pre hpre c1 input1 hc1
  have hs : s.input = read :: rest0 := by rw [hin, h1, hst]
  rw [readLine_cons dm s read rest0 hs hnl0]
  obtain ⟨k, hk⟩ : ∃ k, rest0.length + 1 = (k + 1) + pre.length :=
    ⟨rest0.length - pre.length, by omega⟩
  rw [hk, readLine.cellLoop_steps hv hd (k + 1) c1 input1 pre hpre read 1
    { s with input := rest0, mRow := [], mRowCells := [] } hst.symm
    (by right; show 1 + pre.length ≤ s.mColumns; omega)]
  have hb : (dm d || isNewline d) = true := by simp [hd]
  have hcell := readCell_boundary hv hb c hc c1 (1 + pre.length)
    { s with input := input1, mRow := [] ++ sepCells d (pre.map Cell.content),
             mRowCells := [] } tail h1.symm
  have e3 : ¬ (pre.length + 1 = 0) := by omega
  have e4 : pre.length + 1 ≤ 1 + pre.length := by omega
  have e5 : pre.length + 1 < 1 + pre.length + 1 := by omega
  rw [readLine.cellLoop, hcell]
  constructor
  · rintro rfl
    have e1 : 1 + pre.length + 1 - 1 + 1 = pre.length + 1 + 1 := by omega
    have e2 : ¬ (pre.length + 1 + 1 = pre.length + 1) := by omega
    simp only [hd, if_true, Bool.not_true, Bool.false_eq_true, if_false, hcol,
      List.nil_append, bne_iff_ne, ne_eq, e3, not_false_eq_true,
      decide_True, decide_False, Bool.and_true, Bool.true_and, Bool.or_true, ge_iff_le, e4,
      gt_iff_lt, e5, Bool.false_or, Bool.not_false, e1, e2, decide_not, Bool.and_self,
      skipLineFeed]
    simp
  · intro r ex inp hne hskip
    have hex : 1 ≤ ex := by
      rcases readLine.skipLoop_total dm (tail.length + 1) tail 0 (by omega) with
        h | ⟨r', e', i', h, he, _⟩
      · rw [h] at hskip; cases hskip
      · rw [h] at hskip
        simp only [Outcome.ok.injEq, Prod.mk.injEq] at hskip
        omega
    obtain ⟨x, tail', rfl⟩ : ∃ x tail', tail = x :: tail' := by
      cases tail with
      | nil => exact absurd rfl hne
      | cons a l => exact ⟨a, l, rfl⟩
    have e1 : 1 + pre.length + 1 - 1 + ex = pre.length + 1 + ex := by omega
    have e2 : ¬ (pre.length + 1 + ex = pre.length + 1) := by omega
    simp only [hd, if_true, Bool.not_true, Bool.false_eq_true, if_false, hcol,
      List.nil_append, bne_iff_ne, ne_eq, e3, not_false_eq_true,
      decide_True, decide_False, Bool.and_true, Bool.true_and, Bool.or_true, ge_iff_le, e4,
      gt_iff_lt, e5, Bool.false_or, Bool.not_false, hskip, e1, e2, decide_not, Bool.and_self]
    simp

theorem readCell.quoted_junk {dm : Char → Bool} (hv : ValidMatcher dm) {y : Char}
    (hb : (dm y || isNewline y) = false) (hy : y ≠ '"') (rest : List Char) :
    ∀ (q : List Char) (read : Char) (continues : Bool) (mRow : List Char),
      readCell.quoted dm read continues mRow (escape q ++ '"' :: y :: rest) =
        ⟨CellExit.badCell, (skipCell dm y rest).read, (skipCell dm y rest).continues,
          (skipCell dm y rest).input, mRow ++ q⟩ := by
  have hb' : ¬ (dm y || isNewline y) = true := by simp [hb]
  have hq : ¬ (dm '"' || isNewline '"') = true := by simp [hv.quote, isNewline_quote]
  intro q
  induction q with
  | nil =>
    intro read continues mRow
    simp [escape, readCell.quoted_quote_bad dm hb' hy]
  | cons c q ih =>
    intro read continues mRow
    by_cases hc : c = '"'
    · subst hc
      simp [escape, readCell.quoted_quote_quote dm hq, ih]
    · simp [escape, readCell.quoted_cons_ne dm hc, hc, ih]

theorem readCell.unquoted_stray (dm : Char → Bool) (rest : List Char) :
    ∀ (t : List Char) (x : Char) (mRow : List Char), Plain dm (x :: t) →
      readCell.unquoted dm x mRow (t ++ '"' :: rest) =
        ⟨CellExit.badCell, (skipCell dm '"' rest).read, (skipCell dm '"' rest).continues,
          (skipCell dm '"' rest).input, mRow ++ x :: t⟩ := by
  intro t
  induction t with
  | nil =>
    intro x mRow hp
    have h := hp x (List.mem_cons_self _ _)
    have hb : ¬ (dm x || isNewline x) = true := by simp [h.1, h.2.2]
    rw [List.nil_append, readCell.unquoted_cons dm h.2.1 hb, readCell.unquoted_of_quote]
  | cons c t ih =>
    intro x mRow hp
    have h := hp x (List.mem_cons_self _ _)
    have hb : ¬ (dm x || isNewline x) = true := by simp [h.1, h.2.2]
    have hp' : Plain dm (c :: t) := fun z hz => hp z (List.mem_cons_of_mem _ hz)
    rw [List.cons_append, readCell.unquoted_cons dm h.2.1 hb, ih c _ hp']
    simp

/-- The function `readCell` on a malformed cell: it returns false, leaves the running
column count as it was and calls `raiseBadCell` with that count minus one. -/
theorem readCell_malformed {dm : Char → Bool} (hv : ValidMatcher dm) (bad : List Char)
    (hbad : Malformed dm bad) (read : Char) (columns : Nat) (s : Reader)
    (hin : read :: s.input = bad) :
    (readCell dm read columns s).ok = false ∧
    (readCell dm read columns s).reader.mErrorHandler =
      s.mErrorHandler ++ [Fault.badCell (columns - 1) s.mRows] := by
  rcases hbad with ⟨x, t, rest, hp, rfl⟩ | ⟨q, y, rest, hb, hy, rfl⟩
  · simp only [List.cons.injEq] at hin
    obtain ⟨rfl, hin⟩ := hin
    have h := hp read (List.mem_cons_self _ _)
    simp [readCell, hin, h.2.1, readCell.unquoted_stray dm rest t read s.mRow hp]
  · simp only [List.cons.injEq] at hin
    obtain ⟨rfl, hin⟩ := hin
    simp [readCell, hin, readCell.quoted_junk hv hb hy rest q]

/-- The cell loop after `readCell` has returned false: the row fails, and the Error
Policy receives what `readCell` has reported and possibly more. -/
theorem readLine.cellLoop_bad (dm : Char → Bool) (fuel : Nat) (read : Char) (columns : Nat)
    (s : Reader) (hok : (readCell dm read columns s).ok = false) :
    readLine.cellLoop dm (fuel + 1) read columns s = Outcome.stuck Stuck.readPastEnd ∨
    ∃ s' more, readLine.cellLoop dm (fuel + 1) read columns s =
        Outcome.ok (LoopExit.failed s') ∧
      s'.mErrorHandler = (readCell dm read columns s).reader.mErrorHandler ++ more := by
  cases hc : (readCell dm read columns s).continues with
  | false =>
    right
    rw [readLine.cellLoop_stop dm fuel read columns s hc, hok]
    exact ⟨(readCell dm read columns s).reader, [], by simp, by simp⟩
  | true =>
    rcases readLine.cellLoop_overflow dm fuel read columns s hc (by simp [hok]) with
      h | ⟨excess, input, _, _, h⟩
    · exact Or.inl h
    · right
      by_cases hif : (readCell dm read columns s).columns - 1 + excess =
          (readCell dm read columns s).reader.mColumns
      · refine ⟨_, [], h, ?_⟩
        simp only [if_pos hif, List.append_nil]
      · refine ⟨_, [Fault.incorrectColumns ((readCell dm read columns s).columns - 1 + excess)
          (readCell dm read columns s).reader.mColumns
          (readCell dm read columns s).reader.mRows], h, ?_⟩
        simp only [if_neg hif]

/-- The function `readLine` on a row whose first malformed cell comes after well-formed
cells and stands at a column within the established column count. -/
theorem readLine_bad {dm : Char → Bool} (hv : ValidMatcher dm) {d : Char} (hd : dm d = true)
    (pre : List Cell) (hwf : ∀ x ∈ pre, x.WellFormed dm) (bad : List Char)
    (hbad : Malformed dm bad) (s : Reader)
    (hin : s.input = sepCells d (pre.map Cell.text) ++ bad)
    (hcol : s.mColumns = 0 ∨ pre.length < s.mColumns) :
    readLine dm s = Outcome.stuck Stuck.readPastEnd ∨
    ∃ s' more, readLine dm s = Outcome.ok (false, s') ∧
      s'.mErrorHandler = s.mErrorHandler ++ Fault.badCell pre.length s.mRows :: more := by
  obtain ⟨x, tail, hx, hxn⟩ : ∃ x tail, bad = x :: tail ∧ isNewline x = false := by
    rcases hbad with ⟨x, t, rest, hp, rfl⟩ | ⟨q, y, rest, hb, hy, rfl⟩
    · exact ⟨x, _, rfl, (hp x (List.mem_cons_self _ _)).2.2⟩
    · exact ⟨'"', _, rfl, by decide⟩
  obtain ⟨read, rest0, hst, hnl0, hlen⟩ := stream_head hv hd pre hwf x tail hxn
  have hs : s.input = read :: rest0 := by rw [hin, hx, hst]
  rw [readLine_cons dm s read rest0 hs hnl0]
  obtain ⟨k, hk⟩ : ∃ k, rest0.length + 1 = (k + 1) + pre.length :=
    ⟨rest0.length - pre.length, by omega⟩
  rw [hk, readLine.cellLoop_steps hv hd (k + 1) x tail pre hwf read 1
    { s with input := rest0, mRow := [], mRowCells := [] } hst.symm
    (by
      rcases hcol with h | h
      · exact Or.inl h
      · right; show 1 + pre.length ≤ s.mColumns; omega)]
  obtain ⟨h1, h2⟩ := readCell_malformed hv bad hbad x (1 + pre.length)
    { s with input := tail, mRow := [] ++ sepCells d (pre.map Cell.content), mRowCells := [] }
    hx.symm
  rcases readLine.cellLoop_bad dm k x (1 + pre.length) _ h1 with h | ⟨s', more, h, h3⟩
  · left; rw [h]
  · right
    rw [h]
    refine ⟨s', more, rfl, ?_⟩
    rw [h3, h2]
    have e : 1 + pre.length - 1 = pre.length := by omega
    simp [e]

/-! ## Successful rows -/

/-- A successful `readLine` has left the cell loop by `break` with the running column
count that is `columns()` afterwards, and has materialized the views for that count. -/
theorem readLine_success (dm : Char → Bool) (s s' : Reader)
    (h : readLine dm s = Outcome.ok (true, s')) :
    ∃ read rest r s1, s.input = read :: rest ∧ isNewline read = false ∧
      readLine.cellLoop dm (rest.length + 1) read 1
          { s with input := rest, mRow := [], mRowCells := [] } =
        Outcome.ok (LoopExit.row r s'.mColumns s1) ∧
      s'.mRow = s1.mRow ∧ s'.mRowCells = materialize dm s'.mColumns s1.mRow ∧
      s'.input = skipLineFeed r s1.input := by
  cases hin : s.input with
  | nil =>
    rw [readLine_nil dm s hin] at h
    simp at h
  | cons read rest =>
    cases hnl : isNewline read with
    | true =>
      rw [readLine_newline dm s read rest hin hnl] at h
      simp at h
    | false =>
      rw [readLine_cons dm s read rest hin hnl] at h
      rcases readLine.cellLoop_general dm (rest.length + 1) read 1
          { s with input := rest, mRow := [], mRowCells := [] } (by simp) (Nat.le_refl _)
          (by simp only []; omega) (by simp) with
        g | ⟨r, c, s1, g, e1, e2, e3, e4, e5, e6, e7, e8⟩ | ⟨s1, g, _⟩
      · rw [g] at h; cases h
      · rw [g] at h
        simp only [] at e2 e6
        simp only [readLine.finish, beq_iff_eq] at h
        by_cases h0 : s1.mColumns = 0
        · rw [if_pos h0] at h
          simp only [Outcome.ok.injEq, Prod.mk.injEq, true_and] at h
          subst h
          exact ⟨read, rest, r, s1, rfl, hnl, g, rfl, rfl, rfl⟩
        · rw [if_neg h0] at h
          by_cases hlt : c < s1.mColumns
          · rw [if_pos hlt] at h
            simp at h
          · rw [if_neg hlt] at h
            simp only [Outcome.ok.injEq, Prod.mk.injEq, true_and] at h
            have hc : c = s1.mColumns := by
              rcases e6 with h' | h'
              · rw [e2] at h0; exact absurd h' h0
              · rw [e2]; omega
            subst h
            simp only []
            rw [← hc]
            exact ⟨read, rest, r, s1, rfl, hnl, g, rfl, rfl, rfl⟩
      · rw [g] at h
        simp at h

/-- The row has as many well-formed cells as the established column count, then a
delimiter: `readLine` does not succeed. -/
theorem readLine_excess_fails {dm : Char → Bool} (hv : ValidMatcher dm) {d : Char}
    (hd : dm d = true) (pre : List Cell) (c : Cell) (hwf : ∀ x ∈ pre ++ [c], x.WellFormed dm)
    (tail : List Char) (s s' : Reader)
    (hin : s.input = sepCells d (pre.map Cell.text) ++ (c.text ++ d :: tail))
    (hcol : s.mColumns = pre.length + 1) :
    readLine dm s ≠ Outcome.ok (true, s') := by
  obtain ⟨g1, g2⟩ := readLine_excess hv hd pre c hwf tail s hin hcol
  by_cases ht : tail = []
  · rw [g1 ht]; simp
  · rcases readLine.skipLoop_total dm (tail.length + 1) tail 0 (by omega) with
      h | ⟨r, ex, inp, h, _, _⟩
    · intro hsucc
      obtain ⟨read, rest, r, s1, hsin, hnl, hloop, _, _, _⟩ := readLine_success dm s s' hsucc
      have hpre : ∀ x ∈ pre, x.WellFormed dm := fun x hx => hwf x (List.mem_append_left _ hx)
      have hc : c.WellFormed dm := hwf c (by simp)
      obtain ⟨c1, input1, h1⟩ : ∃ c1 input1, c.text ++ d :: tail = c1 :: input1 := by
        cases h : c.text ++ d :: tail with
        | nil => simp at h
        | cons a l => exact ⟨a, l, rfl⟩
      have hst : read :: rest = sepCells d (pre.map Cell.text) ++ c1 :: input1 := by
        rw [← hsin, hin, h1]
      have hlen : pre.length ≤ rest.length := by
        have := length_le_sepCells d (pre.map Cell.text)
        have h2 := congrArg List.length hst
        simp only [List.length_cons, List.length_append, List.length_map] at this h2
        omega
      obtain ⟨k, hk⟩ : ∃ k, rest.length + 1 = (k + 1) + pre.length :=
        ⟨rest.length - pre.length, by omega⟩
      rw [hk, readLine.cellLoop_steps hv hd (k + 1) c1 input1 pre hpre read 1
        { s with input := rest, mRow := [], mRowCells := [] } hst
        (by right; show 1 + pre.length ≤ s.mColumns; omega)] at hloop
      have hb : (dm d || isNewline d) = true := by simp [hd]
      have hcell := readCell_boundary hv hb c hc c1 (1 + pre.length)
        { s with input := input1, mRow := [] ++ sepCells d (pre.map Cell.content),
                 mRowCells := [] } tail h1.symm
      simp only [hd, if_true] at hcell
      rcases readLine.cellLoop_overflow dm k c1 (1 + pre.length)
          { s with input := input1, mRow := [] ++ sepCells d (pre.map Cell.content),
                   mRowCells := [] }
          (by rw [hcell]) (by rw [hcell]; simp [hcol]) with g | ⟨_, _, _, _, g⟩
      · rw [g] at hloop; cases hloop
      · rw [g] at hloop; simp at hloop
    · rw [g2 r ex inp ht h]; simp

theorem joinCells_append (d : Char) (ts us : List (List Char)) (hus : us ≠ []) :
    joinCells d (ts ++ us) = sepCells d ts ++ joinCells d us := by
  rcases List.eq_nil_or_concat us with h | ⟨L, b, h⟩
  · exact absurd h hus
  · have h' : us = L ++ [b] := by simpa using h
    rw [h', ← List.append_assoc, joinCells_concat, joinCells_concat, sepCells_append,
      List.append_assoc]

/-- A list with more than `n ≥ 1` entries: its first `n` entries and the further ones. -/
theorem split_cells {α : Type} (cells : List α) (n : Nat) (hn : 1 ≤ n) (hk : n < cells.length) :
    ∃ pre c more, cells = pre ++ c :: more ∧ pre.length + 1 = n ∧ more ≠ [] := by
  have h1 : cells.take n ≠ [] := by
    intro h
    have := congrArg List.length h
    simp only [List.length_take, List.length_nil] at this
    omega
  have h2 : cells.drop n ≠ [] := by
    intro h
    have := congrArg List.length h
    simp only [List.length_drop, List.length_nil] at this
    omega
  rcases List.eq_nil_or_concat (cells.take n) with h | ⟨pre, c, hc⟩
  · exact absurd h h1
  refine ⟨pre, c, cells.drop n, ?_, ?_, h2⟩
  · have := List.take_append_drop n cells
    rw [hc] at this
    simpa using this.symm
  · have := congrArg List.length hc
    simp only [List.length_take, List.concat_eq_append, List.length_append,
      List.length_singleton] at this
    omega

/-- When `readLine` succeeds on a row of well-formed cells, `columns()` is the number of
cells of the row. -/
theorem readLine_row_columns {dm : Char → Bool} (hv : ValidMatcher dm) {d : Char}
    (hd : dm d = true) (cells : List Cell) (last : Cell) (hlast : cells.getLast? = some last)
    (hwf : ∀ x ∈ cells, x.WellFormed dm) (hne : cells ≠ [Cell.plain []]) (e : RowEnd)
    (he : e.Fits last) (s s' : Reader)
    (hin : s.input = joinCells d (cells.map Cell.text) ++ e.chars)
    (h : readLine dm s = Outcome.ok (true, s')) : s'.mColumns = cells.length := by
  by_cases hcol : s.mColumns = 0 ∨ cells.length ≤ s.mColumns
  · obtain ⟨pre, rfl⟩ := List.getLast?_eq_some_iff.mp hlast
    have hne' : pre = [] → last ≠ Cell.plain [] := by
      rintro rfl rfl
      exact hne rfl
    simp only [List.length_append, List.length_singleton] at hcol ⊢
    rw [readLine_row hv hd pre last hwf hne' e he s hin hcol] at h
    by_cases h0 : s.mColumns = 0
    · rw [if_pos h0] at h
      simp only [Outcome.ok.injEq, Prod.mk.injEq, true_and] at h
      rw [← h]
    · rw [if_neg h0] at h
      by_cases hlt : pre.length + 1 < s.mColumns
      · rw [if_pos hlt] at h; simp at h
      · rw [if_neg hlt] at h
        simp only [Outcome.ok.injEq, Prod.mk.injEq, true_and] at h
        rw [← h]
        simp only []
        rcases hcol with h' | h'
        · exact absurd h' h0
        · omega
  · exfalso
    have hN : 1 ≤ s.mColumns ∧ s.mColumns < cells.length := by omega
    obtain ⟨pre, c, more, rfl, hlen, hmore⟩ := split_cells cells s.mColumns hN.1 hN.2
    have hm : (more.map Cell.text) ≠ [] := by simpa using hmore
    have htext : joinCells d ((pre ++ c :: more).map Cell.text) ++ e.chars =
        sepCells d (pre.map Cell.text) ++
          (c.text ++ d :: (joinCells d (more.map Cell.text) ++ e.chars)) := by
      have e1 : (pre ++ c :: more).map Cell.text =
          (pre.map Cell.text ++ [c.text]) ++ more.map Cell.text := by simp
      rw [e1, joinCells_append d _ _ hm, sepCells_append]
      simp [sepCells]
    rw [htext] at hin
    exact readLine_excess_fails hv hd pre c
      (fun x hx => hwf x (by
        rcases List.mem_append.mp hx with h1 | h1
        · exact List.mem_append_left _ h1
        · simp only [List.mem_singleton] at h1
          rw [h1]; simp))
      _ s s' hin hlen.symm h

/-! ## The row index of the reported faults -/

theorem readCell_fault_rows (dm : Char → Bool) (read : Char) (columns : Nat) (s : Reader) :
    ∃ added, (readCell dm read columns s).reader.mErrorHandler = s.mErrorHandler ++ added ∧
      ∀ f ∈ added, f.row = s.mRows := by
  obtain ⟨_, _, _, _, _, g6, g7⟩ := readCell_general dm read columns s
  cases hok : (readCell dm read columns s).ok with
  | true => exact ⟨[], by simp [(g6 hok).1], by simp⟩
  | false =>
    rcases (g7 hok).2 with h | ⟨_, h⟩
    · exact ⟨_, h, by simp [Fault.row]⟩
    · exact ⟨_, h, by simp [Fault.row]⟩

/-- Every call that the Error Policy receives during the cell loop carries the row
counter as row index, and the loop leaves both counters as they were. -/
theorem readLine.cellLoop_fault_rows (dm : Char → Bool) :
    ∀ (fuel : Nat) (read : Char) (columns : Nat) (s : Reader) (x : LoopExit),
      readLine.cellLoop dm fuel read columns s = Outcome.ok x →
      (∃ added, x.reader.mErrorHandler = s.mErrorHandler ++ added ∧
        ∀ f ∈ added, f.row = s.mRows) ∧
      x.reader.mRows = s.mRows ∧ x.reader.mColumns = s.mColumns := by
  intro fuel
  induction fuel with
  | zero =>
    intro read columns s x h
    simp [readLine.cellLoop] at h
  | succ fuel ih =>
    intro read columns s x h
    obtain ⟨_, g2, g3, _, _, _, _⟩ := readCell_general dm read columns s
    obtain ⟨a1, ha1, ha2⟩ := readCell_fault_rows dm read columns s
    cases hc : (readCell dm read columns s).continues with
    | false =>
      rw [readLine.cellLoop_stop dm fuel read columns s hc] at h
      split at h
      · simp only [Outcome.ok.injEq] at h
        subst h
        exact ⟨⟨a1, ha1, ha2⟩, g3, g2⟩
      · simp only [Outcome.ok.injEq] at h
        subst h
        exact ⟨⟨a1, ha1, ha2⟩, g3, g2⟩
    | true =>
      cases hov : (!(readCell dm read columns s).ok ||
          ((readCell dm read columns s).reader.mColumns != 0 &&
            decide ((readCell dm read columns s).columns >
              (readCell dm read columns s).reader.mColumns))) with
      | true =>
        rcases readLine.cellLoop_overflow dm fuel read columns s hc hov with
          g | ⟨excess, input, _, _, g⟩
        · rw [g] at h; cases h
        · rw [g] at h
          simp only [Outcome.ok.injEq] at h
          subst h
          refine ⟨?_, g3, g2⟩
          simp only [LoopExit.reader]
          split
          · exact ⟨a1, ha1, ha2⟩
          · refine ⟨a1 ++ [Fault.incorrectColumns _ _ _], by rw [ha1, List.append_assoc], ?_⟩
            intro f hf
            rcases List.mem_append.mp hf with hf | hf
            · exact ha2 f hf
            · simp only [List.mem_singleton] at hf
              rw [hf]; exact g3
      | false =>
        have hok : (readCell dm read columns s).ok = true := by
          cases h' : (readCell dm read columns s).ok with
          | true => rfl
          | false => simp [h'] at hov
        obtain ⟨_, _, _, _, _, g6, _⟩ := readCell_general dm read columns s
        have hsame := (g6 hok).1
        rw [readLine.cellLoop_next dm fuel read columns s hc hov] at h
        split at h
        · cases h
        · rename_i c rest _
          obtain ⟨⟨a, k1, k2⟩, k3, k4⟩ := ih c _ _ x h
          simp only [] at k1 k2 k3 k4
          exact ⟨⟨a, by rw [k1, hsame], fun f hf => by rw [k2 f hf, g3]⟩,
            by rw [k3, g3], by rw [k4, g2]⟩

/-- Every call that the Error Policy receives during `readLine` carries the value of
`rows()` before the call of `readLine` as row index. -/
theorem readLine_fault_rows (dm : Char → Bool) (s s' : Reader) (ok : Bool)
    (h : readLine dm s = Outcome.ok (ok, s')) :
    ∃ added, s'.mErrorHandler = s.mErrorHandler ++ added ∧ ∀ f ∈ added, f.row = s.mRows := by
  cases hin : s.input with
  | nil =>
    rw [readLine_nil dm s hin] at h
    simp only [Outcome.ok.injEq, Prod.mk.injEq] at h
    rw [← h.2]
    exact ⟨_, rfl, by simp [Fault.row]⟩
  | cons read rest =>
    cases hnl : isNewline read with
    | true =>
      rw [readLine_newline dm s read rest hin hnl] at h
      simp only [Outcome.ok.injEq, Prod.mk.injEq] at h
      rw [← h.2]
      exact ⟨_, rfl, by simp [Fault.row]⟩
    | false =>
      rw [readLine_cons dm s read rest hin hnl] at h
      cases hloop : readLine.cellLoop dm (rest.length + 1) read 1
          { s with input := rest, mRow := [], mRowCells := [] } with
      | stuck e => rw [hloop] at h; cases h
      | ok x =>
        obtain ⟨⟨a, k1, k2⟩, k3, _⟩ := readLine.cellLoop_fault_rows dm _ _ _ _ x hloop
        simp only [] at k1 k2 k3
        rw [hloop] at h
        cases x with
        | failed s1 =>
          simp only [Outcome.ok.injEq, Prod.mk.injEq] at h
          rw [← h.2]
          exact ⟨a, k1, k2⟩
        | row r c s1 =>
          simp only [LoopExit.reader] at k1 k3
          simp only [readLine.finish] at h
          split at h
          · simp only [Outcome.ok.injEq, Prod.mk.injEq] at h
            rw [← h.2]
            exact ⟨a, k1, k2⟩
          · split at h
            · simp only [Outcome.ok.injEq, Prod.mk.injEq] at h
              rw [← h.2]
              refine ⟨a ++ [Fault.incorrectColumns _ _ _], by
                simp only []; rw [k1, List.append_assoc], ?_⟩
              intro f hf
              rcases List.mem_append.mp hf with hf | hf
              · exact k2 f hf
              · simp only [List.mem_singleton] at hf
                rw [hf]; exact k3
            · simp only [Outcome.ok.injEq, Prod.mk.injEq] at h
              rw [← h.2]
              exact ⟨a, k1, k2⟩

/-! ## Successive fetches -/

/-- What `n` successive fetches do to the counters and the header, whatever the input. -/
theorem fetchTimes_general (dm : Char → Bool) :
    ∀ (n : Nat) (s : Reader),
      fetchTimes dm n s = Outcome.stuck Stuck.readPastEnd ∨
      ∃ results s', fetchTimes dm n s = Outcome.ok (results, s') ∧
        results.length = n ∧
        (s.mColumns ≠ 0 → s'.mColumns = s.mColumns) ∧
        (s.mColumns = 0 → (s'.mColumns = 0 ↔ ∀ r ∈ results, r.1 = false)) ∧
        s'.mRows = s.mRows + results.countP (fun r => r.1) ∧
        s'.mHeader = s.mHeader := by
  intro n
  induction n with
  | zero =>
    intro s
    exact Or.inr ⟨[], s, rfl, rfl, fun _ => rfl, fun h => by simp [h], by simp, rfl⟩
  | succ n ih =>
    intro s
    rcases fetch_general dm [] s with h | ⟨ok0, row, s0, h, hread, _, _⟩
    · left; simp [fetchTimes, h]
    · rcases readLine_general dm s with h' | ⟨ok, s1, h', g1, g2, g3, _⟩
      · rw [h'] at hread; cases hread
      · rw [h'] at hread
        simp only [Outcome.ok.injEq, Prod.mk.injEq] at hread
        obtain ⟨rfl, rfl⟩ := hread
        rcases ih s1 with k | ⟨results, s2, k, k1, k2, k3, k4, k5⟩
        · left; simp [fetchTimes, h, k]
        · right
          refine ⟨(ok, row) :: results, s2, by simp [fetchTimes, h, k], by simp [k1], ?_, ?_, ?_,
            by rw [k5, g3]⟩
          · intro hne
            cases ok with
            | true =>
              have := (g1 rfl).2.2.2.2 hne
              rw [k2 (by rw [this]; exact hne), this]
            | false =>
              have := (g2 rfl).2.1
              rw [k2 (by rw [this]; exact hne), this]
          · intro h0
            cases ok with
            | true =>
              have hpos := (g1 rfl).2.2.1
              have hne : s1.mColumns ≠ 0 := by omega
              rw [k2 hne]
              simp [hne]
            | false =>
              have := (g2 rfl).2.1
              rw [k3 (by rw [this]; exact h0)]
              simp
          · cases ok with
            | true =>
              rw [k4, (g1 rfl).2.2.2.1]
              simp only [List.countP_cons, if_true]
              omega
            | false =>
              rw [k4, (g2 rfl).2.2]
              simp [List.countP_cons]

/-! ## The cell views tile the Row Buffer -/

theorem Tiled.ne_nil {dm : Char → Bool} {mRow : List Char} {offset : Nat} {views : List View}
    (h : Tiled dm mRow offset views) : views ≠ [] := by
  intro hv
  subst hv
  simp [Tiled] at h

/-- The invariant of the boundary materialization loop: the views collected so far tile
the buffer up to `last`, in the sense that any tiling from `last` on completes them. -/
theorem readLine.split_tiled (dm : Char → Bool) (columns : Nat) (mRow : List Char) :
    ∀ (buf pre : List Char) (last : Nat) (cells : List View),
      mRow = pre ++ buf → last ≤ pre.length →
      (∀ tail, Tiled dm mRow last tail → Tiled dm mRow 0 (cells ++ tail)) →
      (readLine.split dm columns buf pre.length last cells).1 ≤ mRow.length ∧
      (∀ tail, Tiled dm mRow (readLine.split dm columns buf pre.length last cells).1 tail →
        Tiled dm mRow 0 ((readLine.split dm columns buf pre.length last cells).2 ++ tail)) := by
  intro buf
  induction buf with
  | nil =>
    intro pre last cells hrow hlast hinv
    simp only [readLine.split]
    exact ⟨by rw [hrow]; simp; omega, hinv⟩
  | cons c buf ih =>
    intro pre last cells hrow hlast hinv
    have hlen : pre.length < mRow.length := by rw [hrow]; simp
    have hrow' : mRow = (pre ++ [c]) ++ buf := by rw [hrow]; simp
    have hlen' : (pre ++ [c]).length = pre.length + 1 := by simp
    simp only [readLine.split]
    split
    · split
      · rename_i hdm
        have := ih (pre ++ [c]) (pre.length + 1) (cells ++ [⟨last, pre.length - last⟩]) hrow'
          (by rw [hlen']) (by
            intro tail ht
            rw [List.append_assoc]
            apply hinv
            cases tail with
            | nil => exact absurd rfl ht.ne_nil
            | cons w tail =>
              simp only [List.singleton_append, Tiled]
              refine ⟨trivial, ⟨c, ?_, hdm⟩, ?_⟩
              · rw [show last + (pre.length - last) = pre.length by omega, hrow,
                  List.getElem?_append_right (Nat.le_refl _)]
                simp
              · rw [show last + (pre.length - last) + 1 = pre.length + 1 by omega]
                exact ht)
        rw [hlen'] at this
        exact this
      · have := ih (pre ++ [c]) last cells hrow' (by rw [hlen']; omega) hinv
        rw [hlen'] at this
        exact this
    · exact ⟨by omega, hinv⟩

/-- The views that `readLine` materializes tile the Row Buffer. -/
theorem materialize_tiled (dm : Char → Bool) (columns : Nat) (mRow : List Char) :
    Tiled dm mRow 0 (materialize dm columns mRow) := by
  obtain ⟨h1, h2⟩ := readLine.split_tiled dm columns mRow mRow [] 0 [] rfl (Nat.le_refl _)
    (fun tail ht => ht)
  simp only [List.length_nil] at h1 h2
  unfold materialize
  simp only []
  apply h2
  simp only [Tiled]
  exact ⟨trivial, by omega⟩

/-- Every view of a tiling lies inside the buffer, at or after the start of the tiling. -/
theorem Tiled.bounds {dm : Char → Bool} {mRow : List Char} :
    ∀ (views : List View) (offset : Nat), Tiled dm mRow offset views →
      ∀ v ∈ views, offset ≤ v.offset ∧ v.offset + v.length ≤ mRow.length := by
  intro views
  induction views with
  | nil => intro offset h; exact absurd rfl h.ne_nil
  | cons v views ih =>
    intro offset h x hx
    cases views with
    | nil =>
      simp only [Tiled] at h
      simp only [List.mem_singleton] at hx
      subst hx
      omega
    | cons w views =>
      simp only [Tiled] at h
      obtain ⟨h1, ⟨c, h2, _⟩, h3⟩ := h
      have hlt : v.offset + v.length < mRow.length := by
        rcases Nat.lt_or_ge (v.offset + v.length) mRow.length with g | g
        · exact g
        · rw [List.getElem?_eq_none g] at h2; cases h2
      rcases List.mem_cons.mp hx with hx | hx
      · subst hx; omega
      · have := ih _ h3 x hx
        omega

/-- The first view of a tiling starts where the tiling starts. -/
theorem Tiled.first {dm : Char → Bool} {mRow : List Char} {views : List View} {offset : Nat}
    (h : Tiled dm mRow offset views) : ∃ v, views[0]? = some v ∧ v.offset = offset := by
  cases views with
  | nil => exact absurd rfl h.ne_nil
  | cons v views =>
    cases views with
    | nil => simp only [Tiled] at h; exact ⟨v, rfl, h.1⟩
    | cons w views => simp only [Tiled] at h; exact ⟨v, rfl, h.1⟩

/-- In a tiling each view starts one character after the end of the view before it, and
that character is a delimiter. -/
theorem Tiled.next {dm : Char → Bool} {mRow : List Char} :
    ∀ (views : List View) (offset : Nat), Tiled dm mRow offset views →
      ∀ (i : Nat) (v w : View), views[i]? = some v → views[i + 1]? = some w →
        w.offset = v.offset + v.length + 1 ∧
        ∃ c, mRow[v.offset + v.length]? = some c ∧ dm c = true := by
  intro views
  induction views with
  | nil => intro offset h; exact absurd rfl h.ne_nil
  | cons x views ih =>
    intro offset h i v w hv hw
    cases views with
    | nil => simp at hw
    | cons y views =>
      simp only [Tiled] at h
      obtain ⟨_, h2, h3⟩ := h
      cases i with
      | zero =>
        simp only [List.getElem?_cons_zero, Option.some.injEq] at hv
        simp only [Nat.zero_add, List.getElem?_cons_succ, List.getElem?_cons_zero,
          Option.some.injEq] at hw
        subst hv; subst hw
        obtain ⟨u, hu1, hu2⟩ := h3.first
        simp only [List.getElem?_cons_zero, Option.some.injEq] at hu1
        subst hu1
        exact ⟨hu2, h2⟩
      | succ i =>
        rw [List.getElem?_cons_succ] at hv hw
        exact ih _ h3 i v w hv hw

/-- The last view of a tiling ends at the end of the buffer. -/
theorem Tiled.last {dm : Char → Bool} {mRow : List Char} :
    ∀ (views : List View) (offset : Nat), Tiled dm mRow offset views →
      ∃ v, views.getLast? = some v ∧ v.offset + v.length = mRow.length := by
  intro views
  induction views with
  | nil => intro offset h; exact absurd rfl h.ne_nil
  | cons x views ih =>
    intro offset h
    cases views with
    | nil => simp only [Tiled] at h; exact ⟨x, rfl, h.2⟩
    | cons y views =>
      simp only [Tiled] at h
      obtain ⟨v, hv1, hv2⟩ := ih _ h.2.2
      exact ⟨v, by rw [List.getLast?_cons_cons]; exact hv1, hv2⟩

/-- The views of a tiling do not overlap: each one ends before every later one starts. -/
theorem Tiled.pairwise {dm : Char → Bool} {mRow : List Char} :
    ∀ (views : List View) (offset : Nat), Tiled dm mRow offset views →
      views.Pairwise (fun v w => v.offset + v.length < w.offset) := by
  intro views
  induction views with
  | nil => intro offset h; exact absurd rfl h.ne_nil
  | cons x views ih =>
    intro offset h
    cases views with
    | nil => simp
    | cons y views =>
      simp only [Tiled] at h
      refine List.pairwise_cons.mpr ⟨?_, ih _ h.2.2⟩
      intro w hw
      have := (Tiled.bounds _ _ h.2.2 w hw).1
      omega

/-- Joining the cells of a tiling with the characters between them gives back the buffer
from the start of the tiling on. -/
theorem Tiled.rejoin_eq {dm : Char → Bool} {mRow : List Char} :
    ∀ (views : List View) (offset : Nat), Tiled dm mRow offset views →
      rejoin mRow views = mRow.drop offset := by
  intro views
  induction views with
  | nil => intro offset h; exact absurd rfl h.ne_nil
  | cons x views ih =>
    intro offset h
    cases views with
    | nil =>
      simp only [Tiled] at h
      simp only [rejoin, View.chars]
      rw [h.1]
      apply List.take_of_length_le
      simp only [List.length_drop]
      omega
    | cons y views =>
      simp only [Tiled] at h
      obtain ⟨h1, _, h3⟩ := h
      simp only [rejoin, View.chars]
      rw [ih _ h3, h1]
      rw [List.append_assoc]
      have e1 : List.drop (offset + x.length) mRow = List.drop x.length (List.drop offset mRow) := by
        rw [List.drop_drop]
      have e2 : List.drop (offset + x.length + 1) mRow =
          List.drop 1 (List.drop x.length (List.drop offset mRow)) := by
        rw [List.drop_drop, List.drop_drop, Nat.add_assoc]
      rw [e1, e2, List.take_append_drop, List.take_append_drop]

/-! ## The cursor only moves forwards -/

/-- When the characters taken from the cursor end with `r`, what is left of the cursor is a
suffix of what it was. -/
theorem suffix_of_consumed {read r : Char} {input pre rest : List Char}
    (h : read :: input = pre ++ r :: rest) : rest <:+ input := by
  cases pre with
  | nil =>
    simp only [List.nil_append, List.cons.injEq] at h
    rw [h.2]
  | cons p pre =>
    simp only [List.cons_append, List.cons.injEq] at h
    exact ⟨pre ++ [r], by rw [h.2]; simp⟩

/-- When the characters taken from the cursor end with `r` and the input does not end with
a delimiter, then `r` is not a delimiter if nothing is left, and what is left does not end
with a delimiter either. -/
theorem last_of_consumed {dm : Char → Bool} {read r : Char} {input pre rest : List Char}
    (h : read :: input = pre ++ r :: rest)
    (hlast : ∀ c, (read :: input).getLast? = some c → dm c = false) :
    (rest = [] → dm r = false) ∧ (∀ c, rest.getLast? = some c → dm c = false) := by
  constructor
  · intro hr
    apply hlast
    rw [h, hr]
    simp
  · intro c hc
    apply hlast
    have hne : rest ≠ [] := by
      intro hr; rw [hr] at hc; simp at hc
    rw [h, getLast?_append_cons_of_ne pre r rest hne]
    exact hc

theorem readCell.unquoted_taken (dm : Char → Bool) :
    ∀ (input : List Char) (read : Char) (mRow : List Char),
      ∃ pre, read :: input =
          pre ++ (readCell.unquoted dm read mRow input).read ::
            (readCell.unquoted dm read mRow input).input ∧
        ((readCell.unquoted dm read mRow input).continues = true →
          dm (readCell.unquoted dm read mRow input).read = true) := by
  intro input
  induction input with
  | nil =>
    intro read mRow
    by_cases hq : read = '"'
    · subst hq
      rw [readCell.unquoted_of_quote]
      exact skipCell_consumed dm '"' []
    · by_cases hb : (dm read || isNewline read) = true
      · rw [readCell.unquoted_of_boundary dm hq hb]
        exact ⟨[], rfl, fun h => h⟩
      · rw [readCell.unquoted_nil dm hq hb]
        exact ⟨[], rfl, fun h => h⟩
  | cons c rest ih =>
    intro read mRow
    by_cases hq : read = '"'
    · subst hq
      rw [readCell.unquoted_of_quote]
      exact skipCell_consumed dm '"' (c :: rest)
    · by_cases hb : (dm read || isNewline read) = true
      · rw [readCell.unquoted_of_boundary dm hq hb]
        exact ⟨[], rfl, fun h => h⟩
      · rw [readCell.unquoted_cons dm hq hb]
        obtain ⟨pre, h1, h2⟩ := ih c (mRow ++ [read])
        exact ⟨read :: pre, by rw [List.cons_append, ← h1], h2⟩

theorem readCell.quoted_taken (dm : Char → Bool) :
    ∀ (n : Nat) (input : List Char), input.length ≤ n → ∀ (read : Char) (mRow : List Char),
      ∃ pre, read :: input =
          pre ++ (readCell.quoted dm read false mRow input).read ::
            (readCell.quoted dm read false mRow input).input ∧
        ((readCell.quoted dm read false mRow input).continues = true →
          dm (readCell.quoted dm read false mRow input).read = true) := by
  intro n
  induction n with
  | zero =>
    intro input h read mRow
    have : input = [] := List.length_eq_zero.mp (by omega)
    subst this
    exact ⟨[], by simp [readCell.quoted], by simp [readCell.quoted]⟩
  | succ n ih =>
    intro input h read mRow
    cases input with
    | nil => exact ⟨[], by simp [readCell.quoted], by simp [readCell.quoted]⟩
    | cons c rest =>
      have hrest : rest.length ≤ n := by simp only [List.length_cons] at h; omega
      by_cases hc : c = '"'
      · subst hc
        cases rest with
        | nil => exact ⟨[read], by simp [readCell.quoted], by simp [readCell.quoted]⟩
        | cons d rest' =>
          have hrest' : rest'.length ≤ n := by simp only [List.length_cons] at hrest; omega
          by_cases hb : (dm d || isNewline d) = true
          · rw [readCell.quoted_quote_boundary dm hb]
            exact ⟨[read, '"'], rfl, fun h => h⟩
          · by_cases hd : d = '"'
            · subst hd
              have hdm : dm '"' = false := by
                simp only [Bool.or_eq_true, not_or, Bool.not_eq_true] at hb
                exact hb.1
              obtain ⟨pre, h1, h2⟩ := ih rest' hrest' '"' (mRow ++ ['"'])
              rw [readCell.quoted_quote_quote dm hb, hdm]
              exact ⟨read :: '"' :: pre, by simp only [List.cons_append, ← h1], h2⟩
            · obtain ⟨pre, h1, h2⟩ := skipCell_consumed dm d rest'
              rw [readCell.quoted_quote_bad dm hb hd]
              exact ⟨read :: '"' :: pre, by simp only [List.cons_append, ← h1], h2⟩
      · obtain ⟨pre, h1, h2⟩ := ih rest hrest c (mRow ++ [c])
        rw [readCell.quoted_cons_ne dm hc]
        exact ⟨read :: pre, by rw [List.cons_append, ← h1], h2⟩

/-- The lookahead character that `readCell` leaves is the last character it has taken
from the input, the rest of which is the cursor; when `continues` is set, that character
is a delimiter. -/
theorem readCell_consumed (dm : Char → Bool) (read : Char) (columns : Nat) (s : Reader) :
    ∃ pre, read :: s.input =
        pre ++ (readCell dm read columns s).read :: (readCell dm read columns s).reader.input ∧
      ((readCell dm read columns s).continues = true →
        dm (readCell dm read columns s).read = true) := by
  have key : ∃ pre, read :: s.input =
        pre ++ (if read == '"' then readCell.quoted dm read false s.mRow s.input
          else readCell.unquoted dm read s.mRow s.input).read ::
          (if read == '"' then readCell.quoted dm read false s.mRow s.input
          else readCell.unquoted dm read s.mRow s.input).input ∧
      ((if read == '"' then readCell.quoted dm read false s.mRow s.input
          else readCell.unquoted dm read s.mRow s.input).continues = true →
        dm (if read == '"' then readCell.quoted dm read false s.mRow s.input
          else readCell.unquoted dm read s.mRow s.input).read = true) := by
    split
    · exact readCell.quoted_taken dm s.input.length s.input (Nat.le_refl _) read s.mRow
    · exact readCell.unquoted_taken dm s.input read s.mRow
  unfold readCell
  simp only []
  generalize (if read == '"' then readCell.quoted dm read false s.mRow s.input
      else readCell.unquoted dm read s.mRow s.input) = r at key
  obtain ⟨exit, read', continues, input', mRow'⟩ := r
  simp only at key
  cases exit with
  | unexpectedEnd => exact key
  | badCell => exact key
  | done =>
    simp only []
    split
    · exact key
    · exact key

theorem skipLineFeed_suffix (read : Char) (input : List Char) :
    skipLineFeed read input <:+ input := by
  rw [skipLineFeed_eq]
  split
  · exact List.tail_suffix _
  · exact List.suffix_refl _

/-- What the overflow recovery loop leaves of the cursor is a suffix of it. -/
theorem readLine.skipLoop_suffix (dm : Char → Bool) :
    ∀ (fuel : Nat) (input : List Char) (excess : Nat) (r : Char) (e : Nat) (i : List Char),
      readLine.skipLoop dm fuel input excess = Outcome.ok (r, e, i) → i <:+ input := by
  intro fuel
  induction fuel with
  | zero => intro input excess r e i h; simp [readLine.skipLoop] at h
  | succ fuel ih =>
    intro input excess r e i h
    cases input with
    | nil => simp [readLine.skipLoop] at h
    | cons c rest =>
      obtain ⟨pre, h1, _⟩ := skipCell_consumed dm c rest
      have hs : (skipCell dm c rest).input <:+ c :: rest :=
        (suffix_of_consumed h1).trans (List.suffix_cons c rest)
      rw [readLine.skipLoop] at h
      split at h
      · simp only [Outcome.ok.injEq, Prod.mk.injEq] at h
        rw [← h.2.2]; exact hs
      · exact (ih _ _ r e i h).trans hs

/-! ## Progress of a fetch -/

/-- The cell loop of `readLine` leaves a suffix of the cursor, and it ends by itself when
the input does not end with a delimiter. -/
theorem readLine.cellLoop_cursor (dm : Char → Bool) :
    ∀ (fuel : Nat) (read : Char) (columns : Nat) (s : Reader), s.input.length < fuel →
      (∀ x, readLine.cellLoop dm fuel read columns s = Outcome.ok x →
        x.reader.input <:+ s.input) ∧
      ((∀ c, (read :: s.input).getLast? = some c → dm c = false) →
        ∃ x, readLine.cellLoop dm fuel read columns s = Outcome.ok x) := by
  intro fuel
  induction fuel with
  | zero => intro read columns s h; omega
  | succ fuel ih =>
    intro read columns s hfuel
    obtain ⟨pre, hcons, hdm⟩ := readCell_consumed dm read columns s
    have hsuf := suffix_of_consumed hcons
    rw [readLine.cellLoop]
    generalize readCell dm read columns s = r at hcons hdm hsuf
    obtain ⟨ok, read', columns', continues, reader⟩ := r
    simp only at hcons hdm hsuf ⊢
    cases continues with
    | false =>
      simp only [Bool.not_false, if_true]
      cases ok with
      | true =>
        simp only [Bool.not_true, Bool.false_eq_true, if_false]
        exact ⟨fun x hx => by cases hx; exact hsuf, fun _ => ⟨_, rfl⟩⟩
      | false =>
        simp only [Bool.not_false, if_true]
        exact ⟨fun x hx => by cases hx; exact hsuf, fun _ => ⟨_, rfl⟩⟩
    | true =>
      simp only [Bool.not_true, Bool.false_eq_true, if_false]
      have hd := hdm rfl
      split
      · cases hin : reader.input with
        | nil =>
          simp only [skipLineFeed]
          split
          · exact ⟨fun x hx => by cases hx; exact List.nil_suffix, fun _ => ⟨_, rfl⟩⟩
          · exact ⟨fun x hx => by cases hx; exact List.nil_suffix, fun _ => ⟨_, rfl⟩⟩
        | cons c rest =>
          rw [hin] at hcons hsuf
          simp only []
          constructor
          · intro x hx
            cases hs : readLine.skipLoop dm ((c :: rest).length + 1) (c :: rest) 0 with
            | stuck e => rw [hs] at hx; cases hx
            | ok val =>
              obtain ⟨r, e, i⟩ := val
              have h1 := readLine.skipLoop_suffix dm _ _ _ r e i hs
              have h2 := ((skipLineFeed_suffix r i).trans h1).trans hsuf
              rw [hs] at hx
              simp only [] at hx
              split at hx
              · cases hx; exact h2
              · cases hx; exact h2
          · intro hlast
            obtain ⟨_, hl⟩ := last_of_consumed hcons hlast
            obtain ⟨r, e, i, hs, _, _⟩ := readLine.skipLoop_ok dm ((c :: rest).length + 1)
              (c :: rest) 0 (by omega) (by simp) hl
            rw [hs]
            simp only []
            split
            · exact ⟨_, rfl⟩
            · exact ⟨_, rfl⟩
      · cases hin : reader.input with
        | nil =>
          rw [hin] at hcons
          simp only []
          refine ⟨fun x hx => (by cases hx), fun hlast => ?_⟩
          have := (last_of_consumed hcons hlast).1 rfl
          rw [hd] at this
          cases this
        | cons c rest =>
          rw [hin] at hcons hsuf
          simp only []
          have hlen : rest.length < fuel := by
            have := hsuf.length_le
            simp only [List.length_cons] at this
            omega
          obtain ⟨k1, k2⟩ := ih c columns' { reader with input := rest } hlen
          constructor
          · intro x hx
            exact ((k1 x hx).trans (List.suffix_cons c rest)).trans hsuf
          · intro hlast
            exact k2 (last_of_consumed hcons hlast).2

/-- What `readLine` leaves of the cursor is a suffix of it, shorter by at least one
character unless the cursor was exhausted; and `readLine` returns when the input does
not end with a delimiter. -/
theorem readLine_cursor (dm : Char → Bool) (s : Reader) :
    (∀ ok s', readLine dm s = Outcome.ok (ok, s') →
      s'.input <:+ s.input ∧ (s.input ≠ [] → s'.input.length < s.input.length)) ∧
    ((∀ c, s.input.getLast? = some c → dm c = false) →
      ∃ ok s', readLine dm s = Outcome.ok (ok, s')) := by
  cases hin : s.input with
  | nil =>
    rw [readLine_nil dm s hin]
    refine ⟨fun ok s' h => ?_, fun _ => ⟨_, _, rfl⟩⟩
    simp only [Outcome.ok.injEq, Prod.mk.injEq] at h
    rw [← h.2]
    simp [hin]
  | cons read rest =>
    cases hnl : isNewline read with
    | true =>
      rw [readLine_newline dm s read rest hin hnl]
      refine ⟨fun ok s' h => ?_, fun _ => ⟨_, _, rfl⟩⟩
      simp only [Outcome.ok.injEq, Prod.mk.injEq] at h
      rw [← h.2]
      have h1 := skipLineFeed_suffix read rest
      exact ⟨h1.trans (List.suffix_cons read rest), fun _ => by
        have := h1.length_le
        simp only [List.length_cons]; omega⟩
    | false =>
      rw [readLine_cons dm s read rest hin hnl]
      obtain ⟨k1, k2⟩ := readLine.cellLoop_cursor dm (rest.length + 1) read 1
        { s with input := rest, mRow := [], mRowCells := [] } (by simp)
      simp only [] at k1 k2
      have hfin : ∀ (r : Char) (c : Nat) (s1 : Reader), s1.input <:+ rest →
          ∃ ok s', readLine.finish dm r c s1 = Outcome.ok (ok, s') ∧
            s'.input <:+ rest := by
        intro r c s1 hs
        have h2 := (skipLineFeed_suffix r s1.input).trans hs
        simp only [readLine.finish]
        split
        · exact ⟨_, _, rfl, h2⟩
        · split
          · exact ⟨_, _, rfl, h2⟩
          · exact ⟨_, _, rfl, h2⟩
      have hlt : ∀ (l : List Char), l <:+ rest →
          l <:+ read :: rest ∧ (read :: rest ≠ [] → l.length < (read :: rest).length) := by
        intro l hl
        exact ⟨hl.trans (List.suffix_cons read rest), fun _ => by
          have := hl.length_le
          simp only [List.length_cons]; omega⟩
      constructor
      · intro ok s' h
        cases hloop : readLine.cellLoop dm (rest.length + 1) read 1
            { s with input := rest, mRow := [], mRowCells := [] } with
        | stuck e => rw [hloop] at h; cases h
        | ok x =>
          have hx := k1 x hloop
          rw [hloop] at h
          cases x with
          | failed s1 =>
            simp only [Outcome.ok.injEq, Prod.mk.injEq] at h
            rw [← h.2]
            exact hlt _ hx
          | row r c s1 =>
            simp only [] at h
            obtain ⟨ok1, s2, e1, e2⟩ := hfin r c s1 hx
            rw [e1] at h
            simp only [Outcome.ok.injEq, Prod.mk.injEq] at h
            rw [← h.2]
            exact hlt _ e2
      · intro hlast
        obtain ⟨x, hloop⟩ := k2 hlast
        rw [hloop]
        cases x with
        | failed s1 => exact ⟨_, _, rfl⟩
        | row r c s1 =>
          obtain ⟨ok1, s2, e1, _⟩ := hfin r c s1 (k1 _ hloop)
          exact ⟨ok1, s2, e1⟩

/-- What a fetch leaves of the cursor is a suffix of it, shorter by at least one character
unless the cursor was exhausted; and the fetch returns when the input does not end with a
delimiter. -/
theorem fetch_cursor (dm : Char → Bool) (row : List (List Char)) (s : Reader) :
    (∀ ok row' s', fetch dm row s = Outcome.ok (ok, row', s') →
      s'.input <:+ s.input ∧ (s.input ≠ [] → s'.input.length < s.input.length)) ∧
    ((∀ c, s.input.getLast? = some c → dm c = false) →
      ∃ ok row' s', fetch dm row s = Outcome.ok (ok, row', s')) := by
  obtain ⟨k1, k2⟩ := readLine_cursor dm s
  constructor
  · intro ok row' s' h
    rcases fetch_general dm row s with g | ⟨ok1, row1, s1, g, hread, _, _⟩
    · rw [g] at h; cases h
    · rw [g] at h
      simp only [Outcome.ok.injEq, Prod.mk.injEq] at h
      obtain ⟨rfl, rfl, rfl⟩ := h
      exact k1 _ _ hread
  · intro hlast
    obtain ⟨ok, s', hread⟩ := k2 hlast
    rcases fetch_general dm row s with g | ⟨ok1, row1, s1, g, _, _, _⟩
    · rcases readLine_general dm s with h | ⟨ok2, s2, h, h1, _, _, _⟩
      · rw [h] at hread; cases hread
      · cases ok2 with
        | false => rw [fetch_of_readLine_false row h] at g; cases g
        | true =>
          obtain ⟨_, hlen, _, _, _⟩ := h1 rfl
          rw [fetch, h] at g
          simp only [] at g
          rw [Reader.columns, deserialize_eq s2 hlen s2.mColumns (Nat.le_refl _)] at g
          simp at g
    · exact ⟨ok1, row1, s1, g⟩

/-! ## Fetching until the cursor is exhausted -/

theorem getLast?_of_suffix {α : Type} {l m : List α} (h : l <:+ m) {c : α}
    (hc : l.getLast? = some c) : m.getLast? = some c := by
  obtain ⟨pre, rfl⟩ := h
  have hne : l ≠ [] := by
    intro hl; rw [hl] at hc; simp at hc
  rw [List.getLast?_append_of_ne_nil pre hne]
  exact hc

/-- When the input does not end with a delimiter, as many fetches as the cursor has
characters left exhaust it. -/
theorem fetchTimes_done (dm : Char → Bool) :
    ∀ (n : Nat) (s : Reader), s.input.length ≤ n →
      (∀ c, s.input.getLast? = some c → dm c = false) →
      ∃ results s', fetchTimes dm n s = Outcome.ok (results, s') ∧ results.length = n ∧
        s'.input = [] := by
  intro n
  induction n with
  | zero =>
    intro s h _
    exact ⟨[], s, rfl, rfl, List.length_eq_zero.mp (by omega)⟩
  | succ n ih =>
    intro s h hlast
    obtain ⟨k1, k2⟩ := fetch_cursor dm [] s
    obtain ⟨ok, row, s1, hf⟩ := k2 hlast
    obtain ⟨hsuf, hlt⟩ := k1 ok row s1 hf
    have hlen : s1.input.length ≤ n := by
      by_cases hs : s.input = []
      · have := hsuf.length_le
        rw [hs] at this
        simp only [List.length_nil] at this
        omega
      · have := hlt hs
        omega
    obtain ⟨results, s2, e1, e2, e3⟩ := ih s1 hlen
      (fun c hc => hlast c (getLast?_of_suffix hsuf hc))
    exact ⟨(ok, row) :: results, s2, by simp [fetchTimes, hf, e1], by simp [e2], e3⟩

/-! ## fetchAll -/

/-- The row passed to `fetch` only matters for what a failed fetch gives back. -/
theorem fetch_any_row (dm : Char → Bool) (value : List (List Char)) (s : Reader) (ok : Bool)
    (r : List (List Char)) (s' : Reader) (h : fetch dm value s = Outcome.ok (ok, r, s')) :
    fetch dm [] s = Outcome.ok (ok, if ok then r else [], s') := by
  unfold fetch at h ⊢
  cases hr : readLine dm s with
  | stuck e => rw [hr] at h; cases h
  | ok p =>
    obtain ⟨b, s1⟩ := p
    rw [hr] at h
    cases b with
    | false =>
      simp only [Outcome.ok.injEq, Prod.mk.injEq] at h
      obtain ⟨rfl, _, rfl⟩ := h
      rfl
    | true =>
      simp only [] at h ⊢
      cases hd : deserialize s1 s1.columns with
      | stuck e => rw [hd] at h; cases h
      | ok cells =>
        rw [hd] at h
        simp only [Outcome.ok.injEq, Prod.mk.injEq] at h
        obtain ⟨rfl, rfl, rfl⟩ := h
        rfl

/-- The loop of `fetchAll` ends, unless a fetch reads the cursor at the end of the input:
after a number of fetches that all succeed, whose rows `out` receives in order, either
the cursor is exhausted, or the next fetch fails and the loop ends with it. -/
theorem fetchAll.loop_general (dm : Char → Bool) :
    ∀ (fuel : Nat) (value : List (List Char)) (out : List (List (List Char))) (s : Reader),
      s.input.length < fuel →
      fetchAll.loop dm fuel value out s = Outcome.stuck Stuck.readPastEnd ∨
      ∃ good s1,
        fetchTimes dm good.length s = Outcome.ok (good.map (fun r => (true, r)), s1) ∧
        ((s1.done = true ∧ fetchAll.loop dm fuel value out s = Outcome.ok (out ++ good, s1)) ∨
         (s1.done = false ∧ ∃ s2, fetch dm [] s1 = Outcome.ok (false, [], s2) ∧
            fetchAll.loop dm fuel value out s = Outcome.ok (out ++ good, s2))) := by
  intro fuel
  induction fuel with
  | zero => intro value out s h; omega
  | succ fuel ih =>
    intro value out s hfuel
    rw [fetchAll.loop]
    cases hdone : s.done with
    | true =>
      right
      exact ⟨[], s, rfl, Or.inl ⟨hdone, by simp⟩⟩
    | false =>
      simp only [Bool.false_eq_true, if_false]
      have hne : s.input ≠ [] := by
        intro hs; simp [Reader.done, hs] at hdone
      rcases fetch_general dm value s with h | ⟨ok, r, s', h, _, _, _⟩
      · left; rw [h]
      · have hany := fetch_any_row dm value s ok r s' h
        rw [h]
        cases ok with
        | false =>
          right
          simp only [Bool.false_eq_true, if_false] at hany
          exact ⟨[], s, rfl, Or.inr ⟨hdone, s', hany, by simp⟩⟩
        | true =>
          simp only [if_true] at hany
          simp only []
          have hlt := ((fetch_cursor dm value s).1 true r s' h).2 hne
          rcases ih r (out ++ [r]) s' (by omega) with k | ⟨good, s1, k1, k2⟩
          · left; exact k
          · right
            refine ⟨r :: good, s1, ?_, ?_⟩
            · simp only [List.length_cons, fetchTimes, hany, k1, List.map_cons]
            · rcases k2 with ⟨d1, d2⟩ | ⟨d1, s2, d2, d3⟩
              · exact Or.inl ⟨d1, by rw [d2]; simp⟩
              · exact Or.inr ⟨d1, s2, d2, by rw [d3]; simp⟩

/-! ## The claims -/

/-- C1. Newline-independent round trip: a non-empty table whose rows all have the same
`N ≥ 1` unquoted cells (no delimiter, quote or newline character in a cell, no row a single
empty cell), written with the cells joined by the delimiter and every row followed by a
terminator of its own among `\n`, `\r`, `\r\n`, is read back by successive fetches from a
fresh Reader without header: every fetch succeeds and returns the cells of its row, the
Error Policy receives no call, and `done()` holds after the last row. The claim is the
case of the comma. -/
theorem newline_round_trip {dm : Char → Bool} (hv : ValidMatcher dm) (d : Char)
    (hd : dm d = true) (N : Nat) (hN : 1 ≤ N)
    (table : List (List (List Char) × List Char)) (hne : table ≠ [])
    (hrows : ∀ rt ∈ table, rt.1.length = N ∧ (∀ t ∈ rt.1, Plain dm t) ∧ rt.1 ≠ [[]] ∧
      rt.2 ∈ terminators) :
    ∃ s', fetchTimes dm table.length (Reader.init (serialise d table)) =
        Outcome.ok (table.map (fun rt => (true, rt.1)), s') ∧
      s'.done = true ∧ s'.mErrorHandler = [] ∧ s'.columns = N ∧ s'.rows = table.length := by
  obtain ⟨s', h1, h2, h3, h4, h5⟩ := fetchTimes_table hv hd N table hrows hN
    (Reader.init (serialise d table)) rfl (Or.inl rfl)
  refine ⟨s', h1, by simp [Reader.done, h2], h3, h4 hne, ?_⟩
  simpa [Reader.rows, Reader.init] using h5

/-- The table of the test `Newlines` with the terminators `\n`, `\r`, `\r\n`. -/
theorem newline_round_trip_witness :
    (∀ rt ∈ [([['a'], ['b'], ['c']], ['\n']), ([['d'], ['e'], ['f']], ['\r']),
        ([['g'], ['h'], ['i']], ['\r', '\n'])],
      rt.1.length = 3 ∧ (∀ t ∈ rt.1, Plain comma t) ∧ rt.1 ≠ [[]] ∧ rt.2 ∈ terminators) ∧
    ∃ s', fetchTimes comma 3 (Reader.init
        ['a', ',', 'b', ',', 'c', '\n', 'd', ',', 'e', ',', 'f', '\r',
         'g', ',', 'h', ',', 'i', '\r', '\n']) =
        Outcome.ok ([(true, [['a'], ['b'], ['c']]), (true, [['d'], ['e'], ['f']]),
          (true, [['g'], ['h'], ['i']])], s') ∧
      s'.done = true ∧ s'.mErrorHandler = [] ∧ s'.columns = 3 ∧ s'.rows = 3 :=
  ⟨by decide,
   newline_round_trip comma_valid ',' (by decide) 3 (by decide)
     [([['a'], ['b'], ['c']], ['\n']), ([['d'], ['e'], ['f']], ['\r']),
      ([['g'], ['h'], ['i']], ['\r', '\n'])] (by decide) (by decide)⟩

/-- Quoted-cell round trip in rows without quoted delimiters (the part of C2 that the code
keeps): a quoted cell whose content `q` has
no delimiter character (quotes, doubled in the input, and newline characters are allowed,
and so is the empty content), at any column position of a row whose other cells are well
formed and have delimiter-free contents, followed by a delimiter, a newline character or
the end of the input, is read back by `fetch` as exactly `q`, and the Error Policy
receives no call. -/
theorem quoted_cell_round_trip {dm : Char → Bool} (hv : ValidMatcher dm) (d : Char)
    (hd : dm d = true) (pre post : List Cell) (q : List Char) (hq : NoDelim dm q)
    (hwf : ∀ x ∈ pre ++ post, x.WellFormed dm)
    (hnd : ∀ x ∈ pre ++ post, NoDelim dm x.content)
    (last : Cell) (hlast : (pre ++ Cell.quoted q :: post).getLast? = some last)
    (e : RowEnd) (he : e.Fits last) (row : List (List Char)) (s : Reader)
    (hin : s.input = joinCells d ((pre ++ Cell.quoted q :: post).map Cell.text) ++ e.chars)
    (hcol : s.mColumns = 0 ∨ s.mColumns = (pre ++ Cell.quoted q :: post).length) :
    ∃ s', fetch dm row s =
        Outcome.ok (true, pre.map Cell.content ++ q :: post.map Cell.content, s') ∧
      (pre.map Cell.content ++ q :: post.map Cell.content)[pre.length]? = some q ∧
      s'.mErrorHandler = s.mErrorHandler := by
  have hwf' : ∀ x ∈ pre ++ Cell.quoted q :: post, x.WellFormed dm := by
    intro x hx
    rcases List.mem_append.mp hx with h | h
    · exact hwf x (List.mem_append_left _ h)
    · rcases List.mem_cons.mp h with rfl | h
      · trivial
      · exact hwf x (List.mem_append_right _ h)
  have hnd' : ∀ x ∈ pre ++ Cell.quoted q :: post, NoDelim dm x.content := by
    intro x hx
    rcases List.mem_append.mp hx with h | h
    · exact hnd x (List.mem_append_left _ h)
    · rcases List.mem_cons.mp h with rfl | h
      · exact hq
      · exact hnd x (List.mem_append_right _ h)
  have hne : pre ++ Cell.quoted q :: post ≠ [Cell.plain []] := by
    intro h
    have hm : Cell.quoted q ∈ [Cell.plain []] := by rw [← h]; simp
    simp at hm
  have hf := fetch_row hv hd _ last hlast hwf' hnd' hne e he row s hin hcol
  simp only [List.map_append, List.map_cons, Cell.content] at hf
  refine ⟨_, hf, ?_, rfl⟩
  rw [List.getElem?_append_right (by simp)]; simp

/-- The row `a,"""",""` followed by a line feed: the cell `""""` reads as one quote, and
the cell `""` as the empty string. -/
theorem quoted_cell_round_trip_witness :
    NoDelim comma ['"'] ∧
    ∃ s', fetch comma [] (Reader.init
        ['a', ',', '"', '"', '"', '"', ',', '"', '"', '\n']) =
        Outcome.ok (true, [['a'], ['"'], []], s') ∧
      [['a'], ['"'], []][1]? = some ['"'] ∧ s'.mErrorHandler = [] :=
  ⟨by decide,
   quoted_cell_round_trip comma_valid ',' (by decide) [Cell.plain ['a']] [Cell.quoted []]
     ['"'] (by decide) (by decide) (by decide) (Cell.quoted []) (by decide)
     (RowEnd.newline '\n' []) (by decide) [] (Reader.init
        ['a', ',', '"', '"', '"', '"', ',', '"', '"', '\n']) (by decide) (by decide)⟩

/-- C3. The input `a,"b,c",d` read by a fresh Reader with the comma as delimiter: the fetch
succeeds with three cells, but they are `a`, `b` and `c,d`. The Row Buffer is `a,b,c,d`
and the boundary materialization splits it at its first two delimiter characters, the
second of which is the one that stood inside the quotes. -/
theorem quoted_delimiter_is_split :
    fetch comma [] (Reader.init ['a', ',', '"', 'b', ',', 'c', '"', ',', 'd']) =
      Outcome.ok (true, [['a'], ['b'], ['c', ',', 'd']],
        { input := [], mErrorHandler := [], mRows := 1, mColumns := 3, mHeader := [],
          mRow := ['a', ',', 'b', ',', 'c', ',', 'd'],
          mRowCells := [⟨0, 1⟩, ⟨2, 1⟩, ⟨4, 3⟩] }) := by
  decide

/-- C4. The one-row table with the cells `a` and the empty cell: written with a final line
feed it is read back, written without terminator (the input `a,` ends right after the
delimiter) the cell loop of `readLine` reads the cursor at the end of the input. -/
theorem missing_newline_after_delimiter :
    fetch comma [] (Reader.init ['a', ',', '\n']) =
      Outcome.ok (true, [['a'], []],
        { input := [], mErrorHandler := [], mRows := 1, mColumns := 2, mHeader := [],
          mRow := ['a', ','], mRowCells := [⟨0, 1⟩, ⟨2, 0⟩] }) ∧
    fetch comma [] (Reader.init ['a', ',']) = Outcome.stuck Stuck.readPastEnd := by
  decide

/-- C5. Too many columns: when the column count `N ≥ 1` is established, a row of `k > N`
unquoted cells (possibly empty) that ends with a newline character makes `fetch` return
failure and leave the caller's row as it was; the Error Policy receives exactly
`raiseIncorrectColumns(k, N, rows())`; the cursor is left after the terminator of the row
(a carriage return together with the line feed that follows it, otherwise the single
newline character); `columns()` and `rows()` are unchanged, and the next fetch runs as on
a Reader that differs from the one before the row only by the cursor and the reported
fault. -/
theorem too_many_columns {dm : Char → Bool} (hv : ValidMatcher dm) (d : Char)
    (hd : dm d = true) (cells : List (List Char)) (hp : ∀ t ∈ cells, Plain dm t)
    (b : Char) (rest : List Char) (hnl : isNewline b = true)
    (row : List (List Char)) (s : Reader)
    (hin : s.input = joinCells d cells ++ b :: rest)
    (hN : 1 ≤ s.columns) (hk : s.columns < cells.length) :
    ∃ s', fetch dm row s = Outcome.ok (false, row, s') ∧
      s'.mErrorHandler =
        s.mErrorHandler ++ [Fault.incorrectColumns cells.length s.columns s.rows] ∧
      s'.input = (if b = '\r' ∧ rest.head? = some '\n' then rest.tail else rest) ∧
      s'.columns = s.columns ∧ s'.rows = s.rows ∧
      ∀ next, fetch dm next s' =
        fetch dm next { s with input := s'.input, mErrorHandler := s'.mErrorHandler } := by
  obtain ⟨pre, t, more, u, rfl, hlen⟩ := split_row cells s.columns hN hk
  rw [joinCells_split, List.append_assoc, List.append_assoc] at hin
  simp only [List.cons_append, List.append_assoc] at hin
  have hread := readLine_overflow hv hd pre t more u hp b rest hnl s hin
    (by simp only [Reader.columns] at hlen; omega)
  refine ⟨_, fetch_of_readLine_false row hread, ?_, skipLineFeed_eq b rest, rfl, rfl, ?_⟩
  · simp only [Reader.columns, Reader.rows, List.length_append, List.length_cons,
      List.length_nil]
    have e : pre.length + 1 + (more.length + 1) = pre.length + (more.length + (0 + 1) + 1) := by
      omega
    rw [e]
  · intro next
    rw [fetch_reset]
    conv => rhs; rw [fetch_reset]

/-- The row `c,d,e` of the test `incorrect columns`; the whole test input gives success
with `a`, `b`, then failure, then success with `f`, `g`. -/
theorem too_many_columns_witness :
    (∃ s', fetch comma [] { Reader.init ['c', ',', 'd', ',', 'e', '\n', 'f', ',', 'g'] with
          mColumns := 2, mRows := 2 } = Outcome.ok (false, [], s') ∧
      s'.mErrorHandler = [] ++ [Fault.incorrectColumns 3 2 2] ∧
      s'.input = (if '\n' = '\r' ∧ ['f', ',', 'g'].head? = some '\n' then ['f', ',', 'g'].tail
        else ['f', ',', 'g']) ∧
      s'.columns = 2 ∧ s'.rows = 2 ∧
      ∀ next, fetch comma next s' =
        fetch comma next
          { Reader.init ['c', ',', 'd', ',', 'e', '\n', 'f', ',', 'g'] with
            mColumns := 2, mRows := 2, input := s'.input, mErrorHandler := s'.mErrorHandler }) ∧
    (match Reader.construct comma
        ['A', ',', 'B', '\n', 'a', ',', 'b', '\n', 'c', ',', 'd', ',', 'e', '\n', 'f', ',', 'g']
        true with
      | Outcome.ok s =>
        (match fetchTimes comma 3 s with
          | Outcome.ok (results, s') => some (results, s'.mErrorHandler)
          | Outcome.stuck _ => none)
      | Outcome.stuck _ => none) =
      some ([(true, [['a'], ['b']]), (false, []), (true, [['f'], ['g']])],
        [Fault.incorrectColumns 3 2 2]) :=
  ⟨too_many_columns comma_valid ',' (by decide) [['c'], ['d'], ['e']] (by decide) '\n'
      ['f', ',', 'g'] (by decide) []
      { Reader.init ['c', ',', 'd', ',', 'e', '\n', 'f', ',', 'g'] with mColumns := 2, mRows := 2 }
      (by decide) (by decide) (by decide),
   by decide!⟩

/-- C7. Empty line: when the first character of the row is a newline character, `fetch`
returns failure, the Error Policy receives exactly
`raiseIncorrectColumns(0, E, rows())` with `E` the established column count if it is not
zero and 1 otherwise, one line terminator is consumed (a carriage return together with
the line feed that follows it, otherwise the single character), and `columns()` and
`rows()` are unchanged. -/
theorem empty_line (dm : Char → Bool) (row : List (List Char)) (s : Reader) (read : Char)
    (rest : List Char) (hin : s.input = read :: rest) (hnl : isNewline read = true) :
    ∃ s', fetch dm row s = Outcome.ok (false, row, s') ∧
      s'.mErrorHandler = s.mErrorHandler ++
        [Fault.incorrectColumns 0 (if s.columns ≠ 0 then s.columns else 1) s.rows] ∧
      s'.input = (if read = '\r' ∧ rest.head? = some '\n' then rest.tail else rest) ∧
      s'.columns = s.columns ∧ s'.rows = s.rows := by
  refine ⟨_, fetch_of_readLine_false row (readLine_newline dm s read rest hin hnl),
    ?_, ?_, rfl, rfl⟩
  · simp only [Reader.columns, Reader.rows]
    by_cases h : s.mColumns = 0
    · simp [h]
    · have : 0 < s.mColumns := by omega
      simp [h, this]
  · cases rest with
    | nil => simp [skipLineFeed]
    | cons c rest =>
      by_cases h1 : read = '\r' <;> by_cases h2 : c = '\n' <;> simp [skipLineFeed, h1, h2]

/-- The empty line of the test `incorrect columns`, with the terminator `\r\n`. -/
theorem empty_line_witness :
    ∃ s', fetch comma [] { Reader.init ['\r', '\n', 'c', ',', 'd'] with mColumns := 2, mRows := 2 } =
        Outcome.ok (false, [], s') ∧
      s'.mErrorHandler = [] ++ [Fault.incorrectColumns 0 2 2] ∧
      s'.input = ['c', ',', 'd'] ∧ s'.columns = 2 ∧ s'.rows = 2 :=
  empty_line comma [] { Reader.init ['\r', '\n', 'c', ',', 'd'] with mColumns := 2, mRows := 2 }
    '\r' ['\n', 'c', ',', 'd'] rfl (by decide)

/-- C8, as stated, fails on a row with a malformed cell that is followed by a delimiter:
with two columns established by the header `A,B`, the row `a"",b` makes one fetch fail
with two calls of the Error Policy, `raiseBadCell(0, 1)` from `readCell` and then
`raiseIncorrectColumns(1, 2, 1)` from the overflow recovery of `readLine`. -/
theorem two_faults_for_one_row :
    Reader.construct comma ['A', ',', 'B', '\n', 'a', '"', '"', ',', 'b', '\n'] true =
      Outcome.ok { input := ['a', '"', '"', ',', 'b', '\n'], mErrorHandler := [], mRows := 1,
                   mColumns := 2, mHeader := [['A'], ['B']], mRow := ['A', ',', 'B'],
                   mRowCells := [⟨0, 1⟩, ⟨2, 1⟩] } ∧
    fetch comma []
        { input := ['a', '"', '"', ',', 'b', '\n'], mErrorHandler := [], mRows := 1,
          mColumns := 2, mHeader := [['A'], ['B']], mRow := ['A', ',', 'B'],
          mRowCells := [⟨0, 1⟩, ⟨2, 1⟩] } =
      Outcome.ok (false, [],
        { input := [], mErrorHandler := [Fault.badCell 0 1, Fault.incorrectColumns 1 2 1],
          mRows := 1, mColumns := 2, mHeader := [['A'], ['B']], mRow := ['a'],
          mRowCells := [] }) := by
  decide

/-- C8, amended. Faults per fetch: for every delimiter matcher, every input and every
Reader state, `fetch` returns unless it reads the cursor at the end of the input; a
fetch that returns success has invoked the Error Policy zero times; a fetch that returns
failure has invoked it either exactly once, or exactly twice, and then with
`raiseBadCell` followed by `raiseIncorrectColumns`. -/
theorem faults_per_fetch (dm : Char → Bool) (row : List (List Char)) (s : Reader) :
    fetch dm row s = Outcome.stuck Stuck.readPastEnd ∨
    ∃ ok row' s', fetch dm row s = Outcome.ok (ok, row', s') ∧
      (ok = true → s'.mErrorHandler = s.mErrorHandler) ∧
      (ok = false → FailedRowFaults s.mErrorHandler s'.mErrorHandler) := by
  rcases fetch_general dm row s with h | ⟨ok, row', s', h, hread, _, _⟩
  · exact Or.inl h
  · rcases readLine_general dm s with h' | ⟨ok', s'', h', h1, h2, _, _⟩
    · rw [h'] at hread; cases hread
    · rw [h'] at hread
      simp only [Outcome.ok.injEq, Prod.mk.injEq] at hread
      obtain ⟨rfl, rfl⟩ := hread
      exact Or.inr ⟨ok', row', s'', h, fun hok => (h1 hok).1, fun hok => (h2 hok).1⟩

/-- Fetch on an exhausted cursor (the first sentence of C9): when `done()` holds, `fetch`
returns failure and
leaves the caller's row as it was, the Error Policy receives exactly
`raiseUnexpectedEnd(rows())`, `done()` still holds, and `columns()` and `rows()` are
unchanged. -/
theorem fetch_when_done (dm : Char → Bool) (row : List (List Char)) (s : Reader)
    (hdone : s.done = true) :
    ∃ s', fetch dm row s = Outcome.ok (false, row, s') ∧
      s'.mErrorHandler = s.mErrorHandler ++ [Fault.unexpectedEnd s.rows] ∧
      s'.done = true ∧ s'.columns = s.columns ∧ s'.rows = s.rows := by
  have hin : s.input = [] := by simpa [Reader.done] using hdone
  exact ⟨_, fetch_of_readLine_false row (readLine_nil dm s hin), rfl,
    by simp [Reader.done, hin], rfl, rfl⟩

/-- The header-only input `A` followed by a line feed: the header is consumed with its
line feed, and the first fetch finds the cursor exhausted. -/
theorem fetch_when_done_witness :
    Reader.construct comma ['A', '\n'] true =
      Outcome.ok { input := [], mErrorHandler := [], mRows := 1, mColumns := 1, mHeader := [['A']],
                   mRow := ['A'], mRowCells := [⟨0, 1⟩] } ∧
    ∃ s', fetch comma []
        { input := [], mErrorHandler := [], mRows := 1, mColumns := 1, mHeader := [['A']],
          mRow := ['A'], mRowCells := [⟨0, 1⟩] } = Outcome.ok (false, [], s') ∧
      s'.mErrorHandler = [] ++ [Fault.unexpectedEnd 1] ∧
      s'.done = true ∧ s'.columns = 1 ∧ s'.rows = 1 :=
  ⟨by decide,
   fetch_when_done comma []
     { input := [], mErrorHandler := [], mRows := 1, mColumns := 1, mHeader := [['A']],
       mRow := ['A'], mRowCells := [⟨0, 1⟩] } rfl⟩

/-- C10, as stated, fails when the unterminated quoted cell stands in an excess column:
with one column established by the header `A`, the row `a,"b` makes the overflow recovery
skip the quoted cell, and the Error Policy receives `raiseIncorrectColumns(2, 1, 1)` and
no `raiseUnexpectedEnd`. -/
theorem unterminated_quote_in_excess_column :
    Reader.construct comma ['A', '\n', 'a', ',', '"', 'b'] true =
      Outcome.ok { input := ['a', ',', '"', 'b'], mErrorHandler := [], mRows := 1, mColumns := 1,
                   mHeader := [['A']], mRow := ['A'], mRowCells := [⟨0, 1⟩] } ∧
    fetch comma []
        { input := ['a', ',', '"', 'b'], mErrorHandler := [], mRows := 1, mColumns := 1,
          mHeader := [['A']], mRow := ['A'], mRowCells := [⟨0, 1⟩] } =
      Outcome.ok (false, [],
        { input := [], mErrorHandler := [Fault.incorrectColumns 2 1 1], mRows := 1, mColumns := 1,
          mHeader := [['A']], mRow := ['a'], mRowCells := [] }) := by
  decide

/-- C10, amended. Unterminated quote: when the cells before it are well formed and the
quoted cell stands at a column position within the established column count (at any
position when no count is established), and the input ends inside the body of the quoted
cell (after the opening quote come only characters other than the quote and doubled
quotes), `fetch` returns failure and leaves the caller's row as it was, the Error Policy
receives exactly `raiseUnexpectedEnd(rows())`, hence no `raiseBadCell`, and `done()` holds
afterwards. -/
theorem unterminated_quote {dm : Char → Bool} (hv : ValidMatcher dm) (d : Char)
    (hd : dm d = true) (pre : List Cell) (q : List Char) (hwf : ∀ x ∈ pre, x.WellFormed dm)
    (row : List (List Char)) (s : Reader)
    (hin : s.input = sepCells d (pre.map Cell.text) ++ '"' :: escape q)
    (hcol : s.columns = 0 ∨ pre.length < s.columns) :
    ∃ s', fetch dm row s = Outcome.ok (false, row, s') ∧
      s'.mErrorHandler = s.mErrorHandler ++ [Fault.unexpectedEnd s.rows] ∧
      s'.done = true ∧ s'.columns = s.columns ∧ s'.rows = s.rows :=
  ⟨_, fetch_of_readLine_false row (readLine_open_quote hv hd pre q hwf s hin hcol),
    rfl, rfl, rfl, rfl⟩

/-- The input of the test `end in quote` after its header `A`: a single quote. -/
theorem unterminated_quote_witness :
    ∃ s', fetch comma []
        { input := ['"'], mErrorHandler := [], mRows := 1, mColumns := 1,
          mHeader := [['A']], mRow := ['A'], mRowCells := [⟨0, 1⟩] } =
        Outcome.ok (false, [], s') ∧
      s'.mErrorHandler = [] ++ [Fault.unexpectedEnd 1] ∧
      s'.done = true ∧ s'.columns = 1 ∧ s'.rows = 1 :=
  unterminated_quote comma_valid ',' (by decide) [] [] (by decide) []
    { input := ['"'], mErrorHandler := [], mRows := 1, mColumns := 1,
      mHeader := [['A']], mRow := ['A'], mRowCells := [⟨0, 1⟩] } (by decide) (by decide)

/-- C16. `ErrorFlags` is a sticky three-flag record: a freshly constructed one has all
three flags false; each raise operation sets its own flag and leaves the other two as
they were; raising the same fault again changes nothing; after any sequence of raise
calls a flag is set exactly if it was set before or its raise operation is among the
calls; `clear()` sets all three to false; `good()` is true exactly if all three flags are
false. -/
theorem errorFlags_sticky (e : ErrorFlags) (p x r p' x' r' c c' : Nat) (calls : List Fault) :
    (ErrorFlags.init.incorrectColumns = false ∧ ErrorFlags.init.unexpectedEnd = false ∧
      ErrorFlags.init.badCell = false) ∧
    ((e.raiseIncorrectColumns p x r).incorrectColumns = true ∧
      (e.raiseIncorrectColumns p x r).unexpectedEnd = e.unexpectedEnd ∧
      (e.raiseIncorrectColumns p x r).badCell = e.badCell) ∧
    ((e.raiseUnexpectedEnd r).unexpectedEnd = true ∧
      (e.raiseUnexpectedEnd r).incorrectColumns = e.incorrectColumns ∧
      (e.raiseUnexpectedEnd r).badCell = e.badCell) ∧
    ((e.raiseBadCell c r).badCell = true ∧
      (e.raiseBadCell c r).incorrectColumns = e.incorrectColumns ∧
      (e.raiseBadCell c r).unexpectedEnd = e.unexpectedEnd) ∧
    ((e.raiseIncorrectColumns p x r).raiseIncorrectColumns p' x' r' =
        e.raiseIncorrectColumns p x r ∧
      (e.raiseUnexpectedEnd r).raiseUnexpectedEnd r' = e.raiseUnexpectedEnd r ∧
      (e.raiseBadCell c r).raiseBadCell c' r' = e.raiseBadCell c r) ∧
    ((e.raiseAll calls).incorrectColumns =
        (e.incorrectColumns || calls.any (fun f => match f with
          | Fault.incorrectColumns _ _ _ => true
          | _ => false)) ∧
      (e.raiseAll calls).unexpectedEnd =
        (e.unexpectedEnd || calls.any (fun f => match f with
          | Fault.unexpectedEnd _ => true
          | _ => false)) ∧
      (e.raiseAll calls).badCell =
        (e.badCell || calls.any (fun f => match f with
          | Fault.badCell _ _ => true
          | _ => false))) ∧
    (e.clear.incorrectColumns = false ∧ e.clear.unexpectedEnd = false ∧
      e.clear.badCell = false) ∧
    (e.good = true ↔
      e.incorrectColumns = false ∧ e.unexpectedEnd = false ∧ e.badCell = false) := by
  refine ⟨⟨rfl, rfl, rfl⟩, ⟨rfl, rfl, rfl⟩, ⟨rfl, rfl, rfl⟩, ⟨rfl, rfl, rfl⟩, ⟨rfl, rfl, rfl⟩,
    ?_, ⟨rfl, rfl, rfl⟩, ?_⟩
  · induction calls generalizing e with
    | nil => simp [ErrorFlags.raiseAll]
    | cons f calls ih =>
      have h := ih (e.raise f)
      simp only [ErrorFlags.raiseAll, List.foldl_cons] at h ⊢
      rw [h.1, h.2.1, h.2.2]
      cases f <;>
        simp [ErrorFlags.raise, ErrorFlags.raiseIncorrectColumns, ErrorFlags.raiseUnexpectedEnd,
          ErrorFlags.raiseBadCell, ErrorFlags.incorrectColumns, ErrorFlags.unexpectedEnd,
          ErrorFlags.badCell]
  · obtain ⟨a, b, c⟩ := e
    cases a <;> cases b <;> cases c <;>
      simp [ErrorFlags.good, ErrorFlags.incorrectColumns, ErrorFlags.unexpectedEnd,
        ErrorFlags.badCell]

/-- C18. `needsEscaping` decides exactly the presence of a special character:
`needsEscaping(s)` is true exactly if `s` holds a carriage return, a line feed, a quote or
a comma; `needsEscaping(s, d)` is true exactly if `s` holds a carriage return, a line
feed, a quote or a character that `d` matches; with `d = Delimiter<','>` the two
overloads agree; the empty sequence does not need escaping. -/
theorem needsEscaping_iff (s : List Char) (dm : Char → Bool) :
    (needsEscaping s = true ↔ ∃ c ∈ s, c = '\r' ∨ c = '\n' ∨ c = '"' ∨ c = ',') ∧
    (needsEscapingWith s dm = true ↔
      ∃ c ∈ s, c = '\r' ∨ c = '\n' ∨ c = '"' ∨ dm c = true) ∧
    needsEscapingWith s (Delimiter [',']) = needsEscaping s ∧
    needsEscaping [] = false ∧ needsEscapingWith [] dm = false := by
  refine ⟨?_, ?_, ?_, rfl, rfl⟩
  · simp [needsEscaping, List.any_eq_true, or_assoc]
  · simp [needsEscapingWith, List.any_eq_true, or_assoc]
  · simp [needsEscapingWith, needsEscaping, Delimiter]

/-- C17. A failed fetch does not touch the caller's target: for every row type, every
overload of `deserialize`, every input, Reader state and target value, `fetch(target)`
returns false exactly if `readLine` returns false, and the target is then the value it
was before the call. The member `fetch` for rows of strings is the case of the overload
for `std::vector`. -/
theorem failed_fetch_keeps_target {α : Type} (de : Reader → α → Outcome α) (dm : Char → Bool)
    (target target' : α) (row : List (List Char)) (s s' : Reader) :
    (fetchInto de dm target s = Outcome.ok (false, target', s') ↔
      readLine dm s = Outcome.ok (false, s') ∧ target' = target) ∧
    fetch dm row s = fetchInto (fun r _ => deserialize r r.columns) dm row s := by
  refine ⟨?_, ?_⟩
  swap
  · unfold fetch fetchInto
    cases readLine dm s with
    | stuck e => rfl
    | ok p =>
      obtain ⟨b, s1⟩ := p
      cases b
      · rfl
      · simp only []
        cases deserialize s1 s1.columns <;> rfl
  unfold fetchInto
  constructor
  · intro h
    split at h
    · cases h
    · rename_i s1 hr
      simp only [Outcome.ok.injEq, Prod.mk.injEq, true_and] at h
      obtain ⟨h1, h2⟩ := h
      subst h1 h2
      exact ⟨hr, rfl⟩
    · split at h
      · cases h
      · simp at h
  · rintro ⟨h, rfl⟩
    rw [h]

/-- C20. `skipCell` is `readCell` without the buffer on well-formed cells: for a
well-formed cell (unquoted without a quote, or quoted with its quotes doubled and any
delimiter or newline characters inside) followed by a delimiter, a newline character or
the end of the input, `skipCell` and `readCell`, started with the same lookahead
character and cursor, leave the same lookahead character, the same `continues` flag and
the same cursor, and `readCell` succeeds and raises no fault. Before a delimiter or
newline character `b`, `skipCell` leaves `b` as lookahead, `continues` as the matcher's
answer on `b`, and the cursor right after `b`; at the end of the input it leaves the
cursor exhausted and `continues` false. -/
theorem skipCell_refines_readCell {dm : Char → Bool} (hv : ValidMatcher dm) (c : Cell)
    (hc : c.WellFormed dm) (e : CellEnd) (he : e.Fits dm c) (read : Char) (columns : Nat)
    (s : Reader) (hin : read :: s.input = c.text ++ e.chars) :
    (skipCell dm read s.input).read = (readCell dm read columns s).read ∧
    (skipCell dm read s.input).continues = (readCell dm read columns s).continues ∧
    (skipCell dm read s.input).input = (readCell dm read columns s).reader.input ∧
    (readCell dm read columns s).ok = true ∧
    (readCell dm read columns s).reader.mErrorHandler = s.mErrorHandler ∧
    (∀ b rest, e = CellEnd.boundary b rest → skipCell dm read s.input = ⟨b, dm b, rest⟩) ∧
    (e = CellEnd.eof →
      (skipCell dm read s.input).input = [] ∧
        (skipCell dm read s.input).continues = false) := by
  cases e with
  | boundary b rest =>
    have hb : (dm b || isNewline b) = true := he
    rw [skipCell_boundary hv hb c hc read s.input rest hin,
      readCell_boundary hv hb c hc read columns s rest hin]
    refine ⟨?_, ?_, ?_, ?_, ?_, ?_, fun h => by cases h⟩
    · cases hd : dm b <;> simp
    · cases hd : dm b <;> simp
    · cases hd : dm b <;> simp
    · cases hd : dm b <;> simp
    · cases hd : dm b <;> simp
    · intro b' rest' h
      cases h
      rfl
  | eof =>
    simp only [CellEnd.chars, List.append_nil] at hin
    cases c with
    | plain t =>
      cases t with
      | nil => simp [Cell.text] at hin
      | cons x t =>
        simp only [Cell.text, List.cons.injEq] at hin
        obtain ⟨rfl, hin⟩ := hin
        have hx := hc read (List.mem_cons_self _ _)
        obtain ⟨r, hr, hk⟩ := unquoted_eof_same dm t read s.mRow hc
        rw [skipCell_of_ne_quote dm hx.2.1, hin, hk]
        simp [readCell, hin, hx.2.1, hr]
    | quoted q =>
      simp only [Cell.text, List.cons.injEq] at hin
      obtain ⟨rfl, hin⟩ := hin
      rw [skipCell_quote, hin, skipCell.skip_closed_eof hv q]
      simp [readCell, hin, readCell.quoted_eof hv q]

/-- The cell `"b,c"` followed by a delimiter: both functions stop at the delimiter after
the closing quote, not at the one inside the quotes. -/
theorem skipCell_refines_readCell_witness :
    (skipCell comma '"' ['b', ',', 'c', '"', ',', 'd']).read =
      (readCell comma '"' 1 (Reader.init ['b', ',', 'c', '"', ',', 'd'])).read ∧
    (skipCell comma '"' ['b', ',', 'c', '"', ',', 'd']).continues =
      (readCell comma '"' 1 (Reader.init ['b', ',', 'c', '"', ',', 'd'])).continues ∧
    (skipCell comma '"' ['b', ',', 'c', '"', ',', 'd']).input =
      (readCell comma '"' 1 (Reader.init ['b', ',', 'c', '"', ',', 'd'])).reader.input ∧
    (readCell comma '"' 1 (Reader.init ['b', ',', 'c', '"', ',', 'd'])).ok = true ∧
    (readCell comma '"' 1 (Reader.init ['b', ',', 'c', '"', ',', 'd'])).reader.mErrorHandler =
      [] ∧
    (∀ b rest, CellEnd.boundary ',' ['d'] = CellEnd.boundary b rest →
      skipCell comma '"' ['b', ',', 'c', '"', ',', 'd'] = ⟨b, comma b, rest⟩) ∧
    (CellEnd.boundary ',' ['d'] = CellEnd.eof →
      (skipCell comma '"' ['b', ',', 'c', '"', ',', 'd']).input = [] ∧
        (skipCell comma '"' ['b', ',', 'c', '"', ',', 'd']).continues = false) :=
  skipCell_refines_readCell comma_valid (Cell.quoted ['b', ',', 'c']) (by decide)
    (CellEnd.boundary ',' ['d']) (by decide) '"' 1 (Reader.init ['b', ',', 'c', '"', ',', 'd'])
    (by decide)

/-- C15, as stated, fails already for a malformed first cell: on the input `"a"b`
followed by a line feed, read by a fresh Reader, the Error Policy receives
`raiseBadCell(0, 0)`, not column 1. -/
theorem badCell_column_is_zero_based :
    fetch comma [] (Reader.init ['"', 'a', '"', 'b', '\n']) =
      Outcome.ok (false, [],
        { input := [], mErrorHandler := [Fault.badCell 0 0], mRows := 0, mColumns := 0,
          mHeader := [], mRow := ['a'], mRowCells := [] }) := by
  decide

/-- C15, amended. `raiseBadCell` carries a 0-based column index: when the `j`-th cell of
the row being fetched (`j` counted from 1, the `j - 1` cells before it well formed, `j`
within the established column count) is malformed (a quote inside an unquoted cell, or
content after a closing quote before a delimiter or newline character), then, unless the
overflow recovery reads the cursor at the end of the input, `fetch` returns failure and
the first call that the Error Policy receives is `raiseBadCell(j - 1, rows())`; a
malformed first cell is reported with column 0. -/
theorem badCell_column {dm : Char → Bool} (hv : ValidMatcher dm) (d : Char)
    (hd : dm d = true) (pre : List Cell) (hwf : ∀ x ∈ pre, x.WellFormed dm)
    (bad : List Char) (hbad : Malformed dm bad) (row : List (List Char)) (s : Reader)
    (hin : s.input = sepCells d (pre.map Cell.text) ++ bad)
    (hcol : s.columns = 0 ∨ pre.length < s.columns) :
    fetch dm row s = Outcome.stuck Stuck.readPastEnd ∨
    ∃ s' more, fetch dm row s = Outcome.ok (false, row, s') ∧
      s'.mErrorHandler = s.mErrorHandler ++ Fault.badCell pre.length s.rows :: more := by
  rcases readLine_bad hv hd pre hwf bad hbad s hin hcol with h | ⟨s', more, h, h1⟩
  · left; rw [fetch, h]
  · exact Or.inr ⟨s', more, fetch_of_readLine_false row h, h1⟩

/-- The second cell of the row `x,"a"b` is malformed: with two columns established it is
reported with column 1. -/
theorem badCell_column_witness :
    fetch comma []
        { Reader.init ['x', ',', '"', 'a', '"', 'b', '\n'] with mColumns := 2, mRows := 1 } =
      Outcome.stuck Stuck.readPastEnd ∨
    ∃ s' more, fetch comma []
        { Reader.init ['x', ',', '"', 'a', '"', 'b', '\n'] with mColumns := 2, mRows := 1 } =
        Outcome.ok (false, [], s') ∧
      s'.mErrorHandler = [] ++ Fault.badCell [Cell.plain ['x']].length 1 :: more :=
  badCell_column comma_valid ',' (by decide) [Cell.plain ['x']] (by decide)
    ['"', 'a', '"', 'b', '\n'] (Or.inr ⟨['a'], 'b', ['\n'], by decide, by decide, rfl⟩) []
    { Reader.init ['x', ',', '"', 'a', '"', 'b', '\n'] with mColumns := 2, mRows := 1 }
    (by decide) (by decide)

/-- Header mode for names without a delimiter character (the part of C11 that the code
keeps): when the input starts with a well-formed row of `N ≥ 1` cells (not a
single empty cell, the names without delimiter character; terminated by a newline, or by
the end of the input after a last cell that is not empty), constructing a Reader with
`readHeader` consumes exactly that row and its terminator and raises no fault; afterwards
`columns() = N`, `rows() = 1`, `hasHeader()` holds, `header(i)` is the content of the
`i`-th cell, the first fetch runs as on a Reader at the start of the second row with `N`
columns established, and the header names are the same after any fetch. Constructing
with `ignoreHeader` consumes nothing: `columns() = 0`, `rows() = 0`, `hasHeader()` is
false and the cursor is at the first row. -/
theorem header_mode {dm : Char → Bool} (hv : ValidMatcher dm) (d : Char) (hd : dm d = true)
    (cells : List Cell) (last : Cell) (hlast : cells.getLast? = some last)
    (hwf : ∀ x ∈ cells, x.WellFormed dm) (hnd : ∀ x ∈ cells, NoDelim dm x.content)
    (hne : cells ≠ [Cell.plain []]) (e : RowEnd) (he : e.Fits last) (input : List Char)
    (hin : input = joinCells d (cells.map Cell.text) ++ e.chars) :
    (∃ s, Reader.construct dm input true = Outcome.ok s ∧
      s.input = e.after ∧ s.mErrorHandler = [] ∧
      s.columns = cells.length ∧ s.rows = 1 ∧ s.hasHeader = true ∧
      (∀ i c, cells[i]? = some c → s.header i = some c.content) ∧
      (∀ row, fetch dm row s =
        fetch dm row { Reader.init e.after with
          mColumns := cells.length, mRows := 1, mHeader := cells.map Cell.content }) ∧
      (∀ row ok row' s', fetch dm row s = Outcome.ok (ok, row', s') →
        ∀ i, s'.header i = s.header i)) ∧
    (Reader.construct dm input false = Outcome.ok (Reader.init input) ∧
      (Reader.init input).input = input ∧ (Reader.init input).columns = 0 ∧
      (Reader.init input).rows = 0 ∧ (Reader.init input).hasHeader = false) := by
  refine ⟨?_, rfl, rfl, rfl, rfl, rfl⟩
  have hf := fetch_row hv hd cells last hlast hwf hnd hne e he [] (Reader.init input)
    (by simpa [Reader.init] using hin) (Or.inl rfl)
  have hcells : cells ≠ [] := by
    intro h; rw [h] at hlast; simp at hlast
  have hcons : Reader.construct dm input true =
      Outcome.ok { input := e.after, mErrorHandler := [], mRows := 1, mColumns := cells.length,
                   mHeader := cells.map Cell.content,
                   mRow := joinCells d (cells.map Cell.content),
                   mRowCells := viewsFrom 0 (cells.map Cell.content) } := by
    simp only [Reader.construct, if_true, readHeader]
    rw [show (Reader.init input).mHeader = [] from rfl, hf]
    simp [Reader.init]
  have hh : (cells.map Cell.content).isEmpty = false := by
    cases cells with
    | nil => exact absurd rfl hcells
    | cons c cs => simp
  refine ⟨_, hcons, rfl, rfl, rfl, rfl, ?_, ?_, ?_, ?_⟩
  · simp [Reader.hasHeader, hh]
  · intro i c hc
    have hi : i < cells.length := by
      rcases Nat.lt_or_ge i cells.length with g | g
      · exact g
      · rw [List.getElem?_eq_none g] at hc; cases hc
    simp only [Reader.header, Reader.columns, hi, Reader.hasHeader, hh, Bool.not_false, if_true,
      List.get?_eq_getElem?, List.getElem?_map, hc, Option.map_some']
  · intro row
    rw [fetch_reset]
    conv => rhs; rw [fetch_reset]
    rfl
  · intro row ok row' s' hfetch i
    rcases fetch_general dm row
        { input := e.after, mErrorHandler := [], mRows := 1, mColumns := cells.length,
          mHeader := cells.map Cell.content,
          mRow := joinCells d (cells.map Cell.content),
          mRowCells := viewsFrom 0 (cells.map Cell.content) } with
      h | ⟨ok1, row1, s1, h, hread, _, _⟩
    · rw [h] at hfetch; cases hfetch
    · rw [h] at hfetch
      simp only [Outcome.ok.injEq, Prod.mk.injEq] at hfetch
      obtain ⟨rfl, rfl, rfl⟩ := hfetch
      rcases readLine_general dm
          { input := e.after, mErrorHandler := [], mRows := 1, mColumns := cells.length,
            mHeader := cells.map Cell.content,
            mRow := joinCells d (cells.map Cell.content),
            mRowCells := viewsFrom 0 (cells.map Cell.content) } with
        h' | ⟨ok2, s2, h', g1, g2, hhd, _⟩
      · rw [h'] at hread; cases hread
      · rw [h'] at hread
        simp only [Outcome.ok.injEq, Prod.mk.injEq] at hread
        obtain ⟨rfl, rfl⟩ := hread
        have hlen : cells.length ≠ 0 := by
          intro h0; exact hcells (List.length_eq_zero.mp h0)
        have hcol : s2.mColumns = cells.length := by
          cases ok2 with
          | true => exact (g1 rfl).2.2.2.2 hlen
          | false => exact (g2 rfl).2.1
        simp only [Reader.header, Reader.columns, Reader.hasHeader, hhd, hcol]

/-- The header `A,B` of the test `incorrect columns`, followed by the row `a,b`. -/
theorem header_mode_witness :
    (∃ s, Reader.construct comma ['A', ',', 'B', '\n', 'a', ',', 'b'] true = Outcome.ok s ∧
      s.input = (RowEnd.newline '\n' ['a', ',', 'b']).after ∧ s.mErrorHandler = [] ∧
      s.columns = [Cell.plain ['A'], Cell.plain ['B']].length ∧ s.rows = 1 ∧
      s.hasHeader = true ∧
      (∀ i c, [Cell.plain ['A'], Cell.plain ['B']][i]? = some c →
        s.header i = some c.content) ∧
      (∀ row, fetch comma row s =
        fetch comma row { Reader.init (RowEnd.newline '\n' ['a', ',', 'b']).after with
          mColumns := [Cell.plain ['A'], Cell.plain ['B']].length, mRows := 1,
          mHeader := [Cell.plain ['A'], Cell.plain ['B']].map Cell.content }) ∧
      (∀ row ok row' s', fetch comma row s = Outcome.ok (ok, row', s') →
        ∀ i, s'.header i = s.header i)) ∧
    (Reader.construct comma ['A', ',', 'B', '\n', 'a', ',', 'b'] false =
        Outcome.ok (Reader.init ['A', ',', 'B', '\n', 'a', ',', 'b']) ∧
      (Reader.init ['A', ',', 'B', '\n', 'a', ',', 'b']).input =
        ['A', ',', 'B', '\n', 'a', ',', 'b'] ∧
      (Reader.init ['A', ',', 'B', '\n', 'a', ',', 'b']).columns = 0 ∧
      (Reader.init ['A', ',', 'B', '\n', 'a', ',', 'b']).rows = 0 ∧
      (Reader.init ['A', ',', 'B', '\n', 'a', ',', 'b']).hasHeader = false) :=
  header_mode comma_valid ',' (by decide) [Cell.plain ['A'], Cell.plain ['B']]
    (Cell.plain ['B']) (by decide) (by decide) (by decide) (by decide)
    (RowEnd.newline '\n' ['a', ',', 'b']) (by decide) ['A', ',', 'B', '\n', 'a', ',', 'b']
    (by decide)

/-- C12. Row width invariant: for every delimiter matcher, input and Reader state, `fetch`
returns unless it reads the cursor at the end of the input, and a fetch that returns
success has materialized exactly `columns()` cell views, `columns() ≥ 1` being the
running column count with which the cell loop was left and, when a count was established
before, that count; the Deserializer therefore finds a view at every index below
`columns()`, and the row read has `columns()` cells. For a row of well-formed cells the
running column count is the number of cells (the number of unquoted delimiters plus
one). -/
theorem row_width (dm : Char → Bool) (row : List (List Char)) (s : Reader) :
    (fetch dm row s = Outcome.stuck Stuck.readPastEnd ∨
      ∃ ok row' s', fetch dm row s = Outcome.ok (ok, row', s') ∧
        (ok = true →
          s'.mRowCells.length = s'.columns ∧ 1 ≤ s'.columns ∧
          (s.columns ≠ 0 → s'.columns = s.columns) ∧
          row'.length = s'.columns ∧
          (∀ i, i < s'.columns →
            ∃ v, s'.mRowCells.get? i = some v ∧ row'.get? i = some (v.chars s'.mRow)) ∧
          (∃ read rest r s1, s.input = read :: rest ∧
            readLine.cellLoop dm (rest.length + 1) read 1
                { s with input := rest, mRow := [], mRowCells := [] } =
              Outcome.ok (LoopExit.row r s'.columns s1)))) ∧
    (∀ (d : Char) (cells : List Cell) (last : Cell) (e : RowEnd) (row' : List (List Char))
        (s' : Reader),
      ValidMatcher dm → dm d = true → cells.getLast? = some last →
      (∀ x ∈ cells, x.WellFormed dm) → cells ≠ [Cell.plain []] → e.Fits last →
      s.input = joinCells d (cells.map Cell.text) ++ e.chars →
      fetch dm row s = Outcome.ok (true, row', s') → s'.columns = cells.length) := by
  constructor
  · rcases fetch_general dm row s with h | ⟨ok, row', s', h, hread, hrow, _⟩
    · exact Or.inl h
    · right
      refine ⟨ok, row', s', h, ?_⟩
      rintro rfl
      rcases readLine_general dm s with h' | ⟨ok', s'', h', g1, _, _, _⟩
      · rw [h'] at hread; cases hread
      · rw [h'] at hread
        simp only [Outcome.ok.injEq, Prod.mk.injEq] at hread
        obtain ⟨rfl, rfl⟩ := hread
        obtain ⟨_, k2, k3, _, k5⟩ := g1 rfl
        obtain ⟨read, rest, r, s1, e1, _, e3, _, _, _⟩ := readLine_success dm s s'' h'
        have hlen : row'.length = s''.mColumns := by rw [hrow rfl, List.length_map, k2]
        refine ⟨k2, k3, k5, hlen, ?_, ⟨read, rest, r, s1, e1, e3⟩⟩
        intro i hi
        have hi' : i < s''.mRowCells.length := by
          simp only [Reader.columns] at hi; omega
        refine ⟨s''.mRowCells.get ⟨i, hi'⟩, List.get?_eq_get hi', ?_⟩
        rw [hrow rfl, List.get?_eq_getElem?, List.getElem?_map,
          List.getElem?_eq_getElem hi']
        rfl
  · intro d cells last e row' s' hv hd hlast hwf hne he hin hfetch
    rcases fetch_general dm row s with h | ⟨ok, row1, s1, h, hread, _, _⟩
    · rw [h] at hfetch; cases hfetch
    · rw [h] at hfetch
      simp only [Outcome.ok.injEq, Prod.mk.injEq] at hfetch
      obtain ⟨rfl, rfl, rfl⟩ := hfetch
      exact readLine_row_columns hv hd cells last hlast hwf hne e he s s1 hin hread

/-- The row `"b;c"` closes the witness of C12: the fetch of `a,"b c",d` succeeds with
three views, three cells and `columns() = 3`. -/
theorem row_width_witness :
    fetch comma [] (Reader.init ['a', ',', '"', 'b', ' ', 'c', '"', ',', 'd', '\n']) =
        Outcome.ok (true, [['a'], ['b', ' ', 'c'], ['d']],
          { input := [], mErrorHandler := [], mRows := 1, mColumns := 3, mHeader := [],
            mRow := ['a', ',', 'b', ' ', 'c', ',', 'd'],
            mRowCells := [⟨0, 1⟩, ⟨2, 3⟩, ⟨6, 1⟩] }) ∧
      ({ input := [], mErrorHandler := [], mRows := 1, mColumns := 3, mHeader := [],
         mRow := ['a', ',', 'b', ' ', 'c', ',', 'd'],
         mRowCells := [⟨0, 1⟩, ⟨2, 3⟩, ⟨6, 1⟩] } : Reader).columns =
        [Cell.plain ['a'], Cell.quoted ['b', ' ', 'c'], Cell.plain ['d']].length :=
  ⟨by decide,
   (row_width comma [] (Reader.init ['a', ',', '"', 'b', ' ', 'c', '"', ',', 'd', '\n'])).2 ','
     [Cell.plain ['a'], Cell.quoted ['b', ' ', 'c'], Cell.plain ['d']] (Cell.plain ['d'])
     (RowEnd.newline '\n' []) [['a'], ['b', ' ', 'c'], ['d']]
     { input := [], mErrorHandler := [], mRows := 1, mColumns := 3, mHeader := [],
       mRow := ['a', ',', 'b', ' ', 'c', ',', 'd'], mRowCells := [⟨0, 1⟩, ⟨2, 3⟩, ⟨6, 1⟩] }
     comma_valid (by decide) (by decide) (by decide) (by decide)
     (by decide) (by decide) (by decide)⟩

/-- C14, as stated, fails on the test input `A,B` / `a,b` / `c,d,e` extended by a second
row that is too long: with the header read (`rows() = 1`), the fetch of `a,b` succeeds and
the fetches of `c,d,e` and `f,g,h` fail; `rows()` is 2 after the failed fetch of `c,d,e`
(the cursor is not exhausted then) and still 2 after the failed fetch of `f,g,h`, where
the statement has 3 and 4, and both calls of `raiseIncorrectColumns` carry the row
index 2. -/
theorem failed_fetch_keeps_rows :
    (match Reader.construct comma
        ['A', ',', 'B', '\n', 'a', ',', 'b', '\n', 'c', ',', 'd', ',', 'e', '\n',
          'f', ',', 'g', ',', 'h', '\n'] true with
      | Outcome.ok s =>
        (match fetchTimes comma 2 s with
          | Outcome.ok (results, s') =>
            some (s.rows, results.map Prod.fst, s'.rows, s'.done, s'.mErrorHandler)
          | Outcome.stuck _ => none)
      | Outcome.stuck _ => none) =
      some (1, [true, false], 2, false, [Fault.incorrectColumns 3 2 2]) ∧
    (match Reader.construct comma
        ['A', ',', 'B', '\n', 'a', ',', 'b', '\n', 'c', ',', 'd', ',', 'e', '\n',
          'f', ',', 'g', ',', 'h', '\n'] true with
      | Outcome.ok s =>
        (match fetchTimes comma 3 s with
          | Outcome.ok (results, s') =>
            some (results.map Prod.fst, s'.rows, s'.mErrorHandler)
          | Outcome.stuck _ => none)
      | Outcome.stuck _ => none) =
      some ([true, false, false], 2,
        [Fault.incorrectColumns 3 2 2, Fault.incorrectColumns 3 2 2]) := by
  constructor <;> decide!

/-- C14, amended. `rows()` counts the successful fetches only. A fetch returns unless it
reads the cursor at the end of the input; a fetch that succeeds increments `rows()` by
one; a fetch that fails leaves `rows()` unchanged; every call that the Error Policy
receives during a fetch carries as row index the value of `rows()` before that fetch. After
any number of fetches `rows()` has grown by the number of fetches that succeeded. -/
theorem rows_count_successes (dm : Char → Bool) (row : List (List Char)) (s : Reader)
    (n : Nat) :
    (fetch dm row s = Outcome.stuck Stuck.readPastEnd ∨
      ∃ ok row' s', fetch dm row s = Outcome.ok (ok, row', s') ∧
        (ok = true → s'.rows = s.rows + 1) ∧
        (ok = false → s'.rows = s.rows) ∧
        ∃ added, s'.mErrorHandler = s.mErrorHandler ++ added ∧
          ∀ f ∈ added, f.row = s.rows) ∧
    (fetchTimes dm n s = Outcome.stuck Stuck.readPastEnd ∨
      ∃ results s', fetchTimes dm n s = Outcome.ok (results, s') ∧ results.length = n ∧
        s'.rows = s.rows + results.countP (fun r => r.1)) := by
  constructor
  · rcases fetch_general dm row s with h | ⟨ok0, row', s0, h, hread, _, _⟩
    · exact Or.inl h
    · right
      rcases readLine_general dm s with h' | ⟨ok, s1, h', g1, g2, _, _⟩
      · rw [h'] at hread; cases hread
      · rw [h'] at hread
        simp only [Outcome.ok.injEq, Prod.mk.injEq] at hread
        obtain ⟨rfl, rfl⟩ := hread
        exact ⟨ok, row', s1, h, fun ht => (g1 ht).2.2.2.1, fun hf => (g2 hf).2.2,
          readLine_fault_rows dm s s1 ok h'⟩
  · rcases fetchTimes_general dm n s with h | ⟨results, s', h, k1, _, _, k4, _⟩
    · exact Or.inl h
    · exact Or.inr ⟨results, s', h, k1, k4⟩

/-- C21 fails on a row whose last cell is malformed and which is terminated by a carriage
return and a line feed. The input `"a"b`, carriage return, line feed, `c` is read by a
fresh Reader: the first fetch fails with `raiseBadCell(0, 0)` and leaves the line feed
unread, so the second fetch reports an empty row with `raiseIncorrectColumns(0, 1, 0)`
and the row `c` is still unread after two fetches. With a line feed alone as terminator
the second fetch succeeds with the row `c`. -/
theorem crlf_after_malformed_last_cell :
    fetchTimes comma 1 (Reader.init ['"', 'a', '"', 'b', '\r', '\n', 'c']) =
      Outcome.ok ([(false, [])],
        { input := ['\n', 'c'], mErrorHandler := [Fault.badCell 0 0], mRows := 0,
          mColumns := 0, mHeader := [], mRow := ['a'], mRowCells := [] }) ∧
    fetchTimes comma 2 (Reader.init ['"', 'a', '"', 'b', '\r', '\n', 'c']) =
      Outcome.ok ([(false, []), (false, [])],
        { input := ['c'],
          mErrorHandler := [Fault.badCell 0 0, Fault.incorrectColumns 0 1 0], mRows := 0,
          mColumns := 0, mHeader := [], mRow := [], mRowCells := [] }) ∧
    fetchTimes comma 2 (Reader.init ['"', 'a', '"', 'b', '\n', 'c']) =
      Outcome.ok ([(false, []), (true, [['c']])],
        { input := [], mErrorHandler := [Fault.badCell 0 0], mRows := 1,
          mColumns := 1, mHeader := [], mRow := ['c'], mRowCells := [⟨0, 1⟩] }) := by
  refine ⟨?_, ?_, ?_⟩ <;> decide!

/-- C22 fails after the header `A,B`. The row `"a"x,b,c` has three cells, the first one
malformed: the fetch fails and the Error Policy receives `raiseBadCell(0, 1)` only, since
the overflow recovery computes `realColumns = 1 - 1 + 2 = 2`, the established count. The
row `"a"x,b` has two cells, the first one malformed: the Error Policy receives
`raiseBadCell(0, 1)` and then `raiseIncorrectColumns(1, 2, 1)`. -/
theorem malformed_cell_not_counted :
    Reader.construct comma ['A', ',', 'B', '\n'] true =
      Outcome.ok { input := [], mErrorHandler := [], mRows := 1, mColumns := 2,
                   mHeader := [['A'], ['B']], mRow := ['A', ',', 'B'],
                   mRowCells := [⟨0, 1⟩, ⟨2, 1⟩] } ∧
    fetch comma []
        { input := ['"', 'a', '"', 'x', ',', 'b', ',', 'c', '\n'], mErrorHandler := [],
          mRows := 1, mColumns := 2, mHeader := [['A'], ['B']], mRow := ['A', ',', 'B'],
          mRowCells := [⟨0, 1⟩, ⟨2, 1⟩] } =
      Outcome.ok (false, [],
        { input := [], mErrorHandler := [Fault.badCell 0 1], mRows := 1, mColumns := 2,
          mHeader := [['A'], ['B']], mRow := ['a'], mRowCells := [] }) ∧
    fetch comma []
        { input := ['"', 'a', '"', 'x', ',', 'b', '\n'], mErrorHandler := [],
          mRows := 1, mColumns := 2, mHeader := [['A'], ['B']], mRow := ['A', ',', 'B'],
          mRowCells := [⟨0, 1⟩, ⟨2, 1⟩] } =
      Outcome.ok (false, [],
        { input := [], mErrorHandler := [Fault.badCell 0 1, Fault.incorrectColumns 1 2 1],
          mRows := 1, mColumns := 2, mHeader := [['A'], ['B']], mRow := ['a'],
          mRowCells := [] }) := by
  refine ⟨?_, ?_, ?_⟩ <;> decide!

/-- C24 fails on both inputs that it names. On `a,` read by a fresh Reader the cell loop
of `readLine` executes `read = *mBegin++` with the cursor at the end of the input; on
`c,d,e,` with two columns established the loop of the overflow recovery does so in its
second round. -/
theorem cursor_read_at_end_of_input :
    fetch comma [] (Reader.init ['a', ',']) = Outcome.stuck Stuck.readPastEnd ∧
    fetch comma []
        { Reader.init ['c', ',', 'd', ',', 'e', ','] with mColumns := 2, mRows := 1 } =
      Outcome.stuck Stuck.readPastEnd := by
  constructor <;> decide

/-- C27 fails on an empty cell and on a digit string beyond the range of `int`: for both,
`std::from_chars` returns `ptr == end`, so `deserialize` throws nothing and returns with
the target at its previous value, one cell consumed. -/
theorem int_conversion_keeps_target (target : Int) :
    deserializeInt ⟨0, 1, [], [[]]⟩ target =
      Outcome.ok ⟨none, target, ⟨1, 1, [], [[]]⟩⟩ ∧
    deserializeInt
        ⟨0, 1, [], [['9', '9', '9', '9', '9', '9', '9', '9', '9', '9', '9']]⟩ target =
      Outcome.ok ⟨none, target,
        ⟨1, 1, [], [['9', '9', '9', '9', '9', '9', '9', '9', '9', '9', '9']]⟩⟩ := by
  constructor <;> rfl

/-- C26. Cell views tile the Row Buffer: a fetch returns unless it reads the cursor at the
end of the input, and after a fetch that succeeds there are `columns()` cell views, the
first one has offset 0, each further one starts one character after the end of the one
before it, that character of the Row Buffer being a delimiter, and the last one ends at
the end of the Row Buffer; hence every view lies inside the buffer, each view ends before
every later one starts, and the cells joined by the characters between them are the Row
Buffer. -/
theorem views_tile_row_buffer (dm : Char → Bool) (row : List (List Char)) (s : Reader) :
    fetch dm row s = Outcome.stuck Stuck.readPastEnd ∨
    ∃ ok row' s', fetch dm row s = Outcome.ok (ok, row', s') ∧
      (ok = true →
        s'.mRowCells.length = s'.columns ∧
        (∃ v, s'.mRowCells[0]? = some v ∧ v.offset = 0) ∧
        (∀ i v w, s'.mRowCells[i]? = some v → s'.mRowCells[i + 1]? = some w →
          w.offset = v.offset + v.length + 1 ∧
          ∃ c, s'.mRow[v.offset + v.length]? = some c ∧ dm c = true) ∧
        (∃ v, s'.mRowCells.getLast? = some v ∧ v.offset + v.length = s'.mRow.length) ∧
        (∀ v ∈ s'.mRowCells, v.offset + v.length ≤ s'.mRow.length) ∧
        s'.mRowCells.Pairwise (fun v w => v.offset + v.length < w.offset) ∧
        rejoin s'.mRow s'.mRowCells = s'.mRow) := by
  rcases fetch_general dm row s with h | ⟨ok, row', s', h, hread, _, _⟩
  · exact Or.inl h
  · right
    refine ⟨ok, row', s', h, ?_⟩
    rintro rfl
    rcases readLine_general dm s with h' | ⟨ok0, s0, h', g1, _, _, _⟩
    · rw [h'] at hread; cases hread
    · rw [h'] at hread
      simp only [Outcome.ok.injEq, Prod.mk.injEq] at hread
      obtain ⟨rfl, rfl⟩ := hread
      obtain ⟨_, _, _, s1, _, _, _, e4, e5, _⟩ := readLine_success dm s s0 h'
      have ht : Tiled dm s0.mRow 0 s0.mRowCells := by
        rw [e5, e4]; exact materialize_tiled dm _ _
      exact ⟨(g1 rfl).2.1, ht.first, Tiled.next _ _ ht, Tiled.last _ _ ht,
        fun v hv => (Tiled.bounds _ _ ht v hv).2, Tiled.pairwise _ _ ht,
        by rw [Tiled.rejoin_eq _ _ ht]; rfl⟩

/-- C25. Termination and progress: for every delimiter matcher and every Reader state
whose unread input does not end with a delimiter, a fetch returns; what it leaves of the
cursor is a suffix of what the cursor was (the cursor never moves backwards), shorter by
at least one character when the cursor was not exhausted, and again without a delimiter
at its end, so that the same holds for the next fetch; as many fetches as the cursor has
characters left, or more, reach `done()`. The recursive call of `skipCell` is made
after the closing quote and one more character were read, and runs the second loop of
`skipCell`, which has no recursive call. -/
theorem fetch_terminates (dm : Char → Bool) (row : List (List Char)) (s : Reader)
    (hlast : ∀ c, s.input.getLast? = some c → dm c = false) :
    (∃ ok row' s', fetch dm row s = Outcome.ok (ok, row', s') ∧
      s'.input <:+ s.input ∧
      (s.done = false → s'.input.length < s.input.length) ∧
      (∀ c, s'.input.getLast? = some c → dm c = false)) ∧
    (∀ n, s.input.length ≤ n →
      ∃ results s', fetchTimes dm n s = Outcome.ok (results, s') ∧ results.length = n ∧
        s'.done = true) ∧
    (∀ read continues d rest, (dm d || isNewline d) = false → d ≠ '"' →
      skipCell.quoted dm read continues ('"' :: d :: rest) = skipCell.unquoted dm d rest ∧
      rest.length + 2 = ('"' :: d :: rest).length) := by
  refine ⟨?_, ?_, ?_⟩
  · obtain ⟨k1, k2⟩ := fetch_cursor dm row s
    obtain ⟨ok, row', s', hf⟩ := k2 hlast
    obtain ⟨hsuf, hlt⟩ := k1 ok row' s' hf
    refine ⟨ok, row', s', hf, hsuf, ?_, fun c hc => hlast c (getLast?_of_suffix hsuf hc)⟩
    intro hd
    apply hlt
    intro hs
    simp [Reader.done, hs] at hd
  · intro n hn
    obtain ⟨results, s', e1, e2, e3⟩ := fetchTimes_done dm n s hn hlast
    exact ⟨results, s', e1, e2, by simp [Reader.done, e3]⟩
  · intro read continues d rest hb hd
    refine ⟨?_, by simp⟩
    rw [skipCell.quoted_cons_cons]
    simp only [hb, Bool.false_eq_true, if_false, bne_iff_ne, ne_eq, hd, not_false_eq_true,
      if_true]
    exact skipCell_of_ne_quote dm hd rest

/-- The input `a,b`, line feed, `c` does not end with a delimiter: a fetch returns and
consumes at least one character, and five fetches or more reach `done()`. -/
theorem fetch_terminates_witness :
    (∀ c, (Reader.init ['a', ',', 'b', '\n', 'c']).input.getLast? = some c → comma c = false) ∧
    ((∃ ok row' s', fetch comma [] (Reader.init ['a', ',', 'b', '\n', 'c']) =
        Outcome.ok (ok, row', s') ∧
      s'.input <:+ (Reader.init ['a', ',', 'b', '\n', 'c']).input ∧
      ((Reader.init ['a', ',', 'b', '\n', 'c']).done = false →
        s'.input.length < (Reader.init ['a', ',', 'b', '\n', 'c']).input.length) ∧
      (∀ c, s'.input.getLast? = some c → comma c = false)) ∧
    (∀ n, (Reader.init ['a', ',', 'b', '\n', 'c']).input.length ≤ n →
      ∃ results s', fetchTimes comma n (Reader.init ['a', ',', 'b', '\n', 'c']) =
          Outcome.ok (results, s') ∧ results.length = n ∧ s'.done = true) ∧
    (∀ read continues d rest, (comma d || isNewline d) = false → d ≠ '"' →
      skipCell.quoted comma read continues ('"' :: d :: rest) =
        skipCell.unquoted comma d rest ∧
      rest.length + 2 = ('"' :: d :: rest).length)) :=
  ⟨by intro c h; simp [Reader.init] at h; subst h; decide,
   fetch_terminates comma [] (Reader.init ['a', ',', 'b', '\n', 'c'])
     (by intro c h; simp [Reader.init] at h; subst h; decide)⟩

/-- C23, as stated, fails on the input `a,b` / `c` / `d,e` read by a fresh Reader:
`fetchAll` returns after the fetch of the row `c` has failed (too few columns); `out` has
received the row `a`, `b` only and `done()` is false, the row `d,e` being unread, while
three single fetches return `a`, `b`, then fail, then return `d`, `e`. -/
theorem fetchAll_stops_at_failed_row :
    fetchAll comma [] (Reader.init ['a', ',', 'b', '\n', 'c', '\n', 'd', ',', 'e', '\n']) =
      Outcome.ok ([[['a'], ['b']]],
        { input := ['d', ',', 'e', '\n'], mErrorHandler := [Fault.incorrectColumns 1 2 1],
          mRows := 1, mColumns := 2, mHeader := [], mRow := ['c'],
          mRowCells := [⟨0, 1⟩] }) ∧
    ({ input := ['d', ',', 'e', '\n'], mErrorHandler := [Fault.incorrectColumns 1 2 1],
       mRows := 1, mColumns := 2, mHeader := [], mRow := ['c'],
       mRowCells := [⟨0, 1⟩] } : Reader).done = false ∧
    fetchTimes comma 3 (Reader.init ['a', ',', 'b', '\n', 'c', '\n', 'd', ',', 'e', '\n']) =
      Outcome.ok ([(true, [['a'], ['b']]), (false, []), (true, [['d'], ['e']])],
        { input := [], mErrorHandler := [Fault.incorrectColumns 1 2 1],
          mRows := 2, mColumns := 2, mHeader := [], mRow := ['d', ',', 'e'],
          mRowCells := [⟨0, 1⟩, ⟨2, 1⟩] }) := by
  refine ⟨?_, ?_, ?_⟩ <;> decide!

/-- C23, amended. `fetchAll` fetches until the cursor is exhausted or a fetch fails: for
every delimiter matcher, input and Reader state it returns, unless a fetch reads the
cursor at the end of the input, and then there is a number of single fetches from the
same state that all succeed and whose rows `out` has received in input order, after
which either the cursor is exhausted (`done()` is true) or the next single fetch fails
and `fetchAll` has returned with the Reader as that fetch leaves it. -/
theorem fetchAll_until_failure (dm : Char → Bool) (out : List (List (List Char)))
    (s : Reader) :
    fetchAll dm out s = Outcome.stuck Stuck.readPastEnd ∨
    ∃ good s1,
      fetchTimes dm good.length s = Outcome.ok (good.map (fun r => (true, r)), s1) ∧
      ((s1.done = true ∧ fetchAll dm out s = Outcome.ok (out ++ good, s1)) ∨
       (s1.done = false ∧ ∃ s2, fetch dm [] s1 = Outcome.ok (false, [], s2) ∧
          fetchAll dm out s = Outcome.ok (out ++ good, s2))) :=
  fetchAll.loop_general dm (s.input.length + 1) [] out s (Nat.lt_succ_self _)

/-- C2 fails on two rows. In the row `"x,y","q"`, read by a fresh Reader with the comma as
delimiter, the quoted cell `"q"` stands after a quoted cell that holds a delimiter: the
fetch succeeds without fault, but the boundary materialization splits the Row Buffer
`x,y,q` at its first comma, so the cells are `x` and `y,q`, and `"q"` is not read back as
`q`. In the input `"q",` the quoted cell is followed by a delimiter at the end of the
input: the cell loop of `readLine` reads the cursor at the end of the input. -/
theorem quoted_cell_after_quoted_delimiter :
    fetch comma [] (Reader.init ['"', 'x', ',', 'y', '"', ',', '"', 'q', '"', '\n']) =
      Outcome.ok (true, [['x'], ['y', ',', 'q']],
        { input := [], mErrorHandler := [], mRows := 1, mColumns := 2, mHeader := [],
          mRow := ['x', ',', 'y', ',', 'q'], mRowCells := [⟨0, 1⟩, ⟨2, 3⟩] }) ∧
    fetch comma [] (Reader.init ['"', 'q', '"', ',']) = Outcome.stuck Stuck.readPastEnd := by
  constructor <;> decide!

/-- C9 fails in its last sentence on the input `"a"b`, carriage return, line feed, read by
a fresh Reader: the fetch of the only row fails with `raiseBadCell(0, 0)` and leaves the
line feed unread, so `done()` is false; the second fetch reports an empty row with
`raiseIncorrectColumns(0, 1, 0)`, where a fetch on the exhausted cursor would report
`raiseUnexpectedEnd(0)`, as it does when the row ends with a line feed alone. -/
theorem trailing_crlf_gives_empty_row :
    fetchTimes comma 1 (Reader.init ['"', 'a', '"', 'b', '\r', '\n']) =
      Outcome.ok ([(false, [])],
        { input := ['\n'], mErrorHandler := [Fault.badCell 0 0], mRows := 0,
          mColumns := 0, mHeader := [], mRow := ['a'], mRowCells := [] }) ∧
    ({ input := ['\n'], mErrorHandler := [Fault.badCell 0 0], mRows := 0,
       mColumns := 0, mHeader := [], mRow := ['a'], mRowCells := [] } : Reader).done = false ∧
    fetchTimes comma 2 (Reader.init ['"', 'a', '"', 'b', '\r', '\n']) =
      Outcome.ok ([(false, []), (false, [])],
        { input := [],
          mErrorHandler := [Fault.badCell 0 0, Fault.incorrectColumns 0 1 0], mRows := 0,
          mColumns := 0, mHeader := [], mRow := [], mRowCells := [] }) ∧
    fetchTimes comma 2 (Reader.init ['"', 'a', '"', 'b', '\n']) =
      Outcome.ok ([(false, []), (false, [])],
        { input := [],
          mErrorHandler := [Fault.badCell 0 0, Fault.unexpectedEnd 0], mRows := 0,
          mColumns := 0, mHeader := [], mRow := [], mRowCells := [] }) := by
  refine ⟨?_, ?_, ?_, ?_⟩ <;> decide!

/-- C11 fails on two headers. The header `"A,B",C` has the two names `A,B` and `C`:
constructing a Reader with `readHeader` gives `columns() = 2`, but the boundary
materialization splits the Row Buffer `A,B,C` at its first comma, so `header(0)` is `A`
and `header(1)` is `B,C`. On the input `A,`, a header of the name `A` and an empty name
without terminator, the construction reads the cursor at the end of the input. -/
theorem header_with_quoted_delimiter :
    Reader.construct comma ['"', 'A', ',', 'B', '"', ',', 'C', '\n'] true =
      Outcome.ok { input := [], mErrorHandler := [], mRows := 1, mColumns := 2,
                   mHeader := [['A'], ['B', ',', 'C']], mRow := ['A', ',', 'B', ',', 'C'],
                   mRowCells := [⟨0, 1⟩, ⟨2, 3⟩] } ∧
    ({ input := [], mErrorHandler := [], mRows := 1, mColumns := 2,
       mHeader := [['A'], ['B', ',', 'C']], mRow := ['A', ',', 'B', ',', 'C'],
       mRowCells := [⟨0, 1⟩, ⟨2, 3⟩] } : Reader).header 0 = some ['A'] ∧
    ({ input := [], mErrorHandler := [], mRows := 1, mColumns := 2,
       mHeader := [['A'], ['B', ',', 'C']], mRow := ['A', ',', 'B', ',', 'C'],
       mRowCells := [⟨0, 1⟩, ⟨2, 3⟩] } : Reader).header 1 = some ['B', ',', 'C'] ∧
    Reader.construct comma ['A', ','] true = Outcome.stuck Stuck.readPastEnd := by
  refine ⟨?_, ?_, ?_, ?_⟩ <;> decide!

end uCSV
